import Mathlib

/-!
Shallow embedding of `backend/ml_forecast.py` (FinanceAI forecast engine) and
proofs about its series construction, model selection, serialization,
forecasting and category-allocation routines.

Modelling conventions:
* Python strings are lists of code points: `Key := List Nat`; string
  comparison, `strip`, `min`/`max` over dict keys are defined on code points
  exactly as CPython compares `str` values.
* Python floats are modelled as exact rationals (`ℚ`).  External numeric
  routines whose exact values leave ℚ (sqrt, sin, cos), together with the
  external scikit-learn estimators and the pickle/base64 codec, are
  abstracted as parameter functions bundled in the `Ext` structure: no claim
  below depends on their values.
* Fallible Python control flow is modelled in `Except PyErr`, with one error
  constructor per exception class the source can actually raise.
-/

set_option maxHeartbeats 1600000

namespace FinanceAI

/-- A Python string, as its list of code points. -/
abbrev Key : Type := List Nat

/-- Convert a Lean string literal to a `Key` (used only to name concrete inputs
and the string constants of the source). -/
def keyOf (s : String) : Key := s.data.map (fun c => c.toNat)

/-- The code points Python `str.strip()` removes. -/
def isSpaceCode (c : Nat) : Bool := c = 32 || c = 9 || c = 10 || c = 13 || c = 11 || c = 12

/-- Python `str.strip()`. -/
def strip (k : Key) : Key :=
  ((List.dropWhile isSpaceCode k).reverse.dropWhile isSpaceCode).reverse

/-- Python string `<`: lexicographic comparison of code points. -/
def lexLt : List Nat → List Nat → Bool
  | [], [] => false
  | [], _ :: _ => true
  | _ :: _, [] => false
  | a :: as, b :: bs => decide (a < b) || (decide (a = b) && lexLt as bs)

/-- Python string `<=` (total order, so the negation of the reversed `<`). -/
def lexLe (x y : List Nat) : Bool := !(lexLt y x)

/-- Python `min` over a nonempty sequence of strings (keeps the first minimum). -/
def lexMin (k0 : Key) (ks : List Key) : Key :=
  ks.foldl (fun m x => if lexLt x m then x else m) k0

/-- Python `max` over a nonempty sequence of strings (keeps the first maximum). -/
def lexMax (k0 : Key) (ks : List Key) : Key :=
  ks.foldl (fun m x => if lexLt m x then x else m) k0

/-! ### Calendar dates (`datetime.date` range, year 1..9999) -/

/-- A calendar date as carried by a CPython `datetime` value. -/
structure Dt where
  y : Nat
  m : Nat
  d : Nat
deriving DecidableEq

def isLeap (y : Nat) : Bool := (y % 4 = 0 && !(y % 100 = 0)) || y % 400 = 0

def daysInMonth (y m : Nat) : Nat :=
  if m = 2 then (if isLeap y then 29 else 28)
  else if m = 4 ∨ m = 6 ∨ m = 9 ∨ m = 11 then 30
  else 31

/-- A structurally sound calendar triple (no upper year bound); closed under
`nextDay`. -/
def DtOk (a : Dt) : Prop :=
  1 ≤ a.y ∧ 1 ≤ a.m ∧ a.m ≤ 12 ∧ 1 ≤ a.d ∧ a.d ≤ daysInMonth a.y a.m

instance (a : Dt) : Decidable (DtOk a) := by unfold DtOk; infer_instance

/-- The dates representable by `datetime` (year 1..9999, real calendar day). -/
def DtValid (a : Dt) : Prop := DtOk a ∧ a.y ≤ 9999

instance (a : Dt) : Decidable (DtValid a) := by unfold DtValid; infer_instance

/-- `datetime` `<` (lexicographic on year, month, day). -/
def dtLtB (a b : Dt) : Bool :=
  decide (a.y < b.y) ||
    (decide (a.y = b.y) && (decide (a.m < b.m) || (decide (a.m = b.m) && decide (a.d < b.d))))

/-- `datetime` `<=`. -/
def dtLeB (a b : Dt) : Bool := !(dtLtB b a)

/-- `+ timedelta(days=1)`. -/
def nextDay (a : Dt) : Dt :=
  if a.d + 1 ≤ daysInMonth a.y a.m then ⟨a.y, a.m, a.d + 1⟩
  else if a.m + 1 ≤ 12 then ⟨a.y, a.m + 1, 1⟩
  else ⟨a.y + 1, 1, 1⟩

/-- `- timedelta(days=1)` (meaningful on valid dates other than 0001-01-01). -/
def prevDay (a : Dt) : Dt :=
  if 2 ≤ a.d then ⟨a.y, a.m, a.d - 1⟩
  else if 2 ≤ a.m then ⟨a.y, a.m - 1, daysInMonth a.y (a.m - 1)⟩
  else ⟨a.y - 1, 12, 31⟩

/-- `+ timedelta(days=n)`. -/
def iterNext : Nat → Dt → Dt
  | 0, a => a
  | n + 1, a => iterNext n (nextDay a)

/-- A strictly increasing measure for `nextDay`, used as loop fuel. -/
def dtM (a : Dt) : Nat := 372 * a.y + 31 * a.m + a.d

/-- Days in the months of year `y` strictly before month `m`. -/
def daysBeforeMonth (y m : Nat) : Nat :=
  (List.range' 1 (m - 1)).foldl (fun s k => s + daysInMonth y k) 0

/-- Python `date.toordinal()` (0001-01-01 has ordinal 1). -/
def toOrdinal (a : Dt) : Nat :=
  365 * (a.y - 1) + (a.y - 1) / 4 - (a.y - 1) / 100 + (a.y - 1) / 400
    + daysBeforeMonth a.y a.m + a.d

/-- Python `date.weekday()`: Monday = 0. -/
def weekday (a : Dt) : Nat := (toOrdinal a + 6) % 7

/-- The last date `datetime` can represent; stepping past it raises
`OverflowError` in the source. -/
def maxDt : Dt := ⟨9999, 12, 31⟩

/-- The daily loop `while cur <= d1: append cur; cur += timedelta(days=1)`,
with explicit fuel (any `fuel > dtM d1 - dtM cur` is enough, see
`dateRange_spec`). -/
def dateRange (fuel : Nat) (cur d1 : Dt) : List Dt :=
  match fuel with
  | 0 => []
  | f + 1 => if dtLeB cur d1 then cur :: dateRange f (nextDay cur) d1 else []

/-! ### `strftime("%Y-%m-%d")` and `_parse_ymd` -/

def isDig (c : Nat) : Bool := 48 ≤ c && c ≤ 57

def dig (n : Nat) : Nat := 48 + n % 10

def pad2 (n : Nat) : List Nat := [dig (n / 10), dig n]

def pad4 (n : Nat) : List Nat := [dig (n / 1000), dig (n / 100), dig (n / 10), dig n]

/-- `strftime("%Y-%m-%d")` (code 45 is `-`). -/
def fmtD (a : Dt) : Key := pad4 a.y ++ (45 :: pad2 a.m) ++ (45 :: pad2 a.d)

/-- The `%d` pattern of CPython strptime (`3[01]|[12]\d|0[1-9]|[1-9]`) matched
against the complete rest of the string. -/
def parseDay : List Nat → Option Nat
  | [x] => if 49 ≤ x && x ≤ 57 then some (x - 48) else none
  | [x, v] =>
      if x = 51 && (v = 48 || v = 49) then some (30 + (v - 48))
      else if (x = 49 || x = 50) && isDig v then some (10 * (x - 48) + (v - 48))
      else if x = 48 && (49 ≤ v && v ≤ 57) then some (v - 48)
      else none
  | _ => none

/-- The `%m` pattern (`1[0-2]|0[1-9]|[1-9]`) followed by the literal `-`;
returns the month and the remaining characters.  A two-digit match commits
only when the following character is `-`, exactly as the regex backtracks. -/
def parseMonthDash : List Nat → Option (Nat × List Nat)
  | x :: v :: r =>
      if x = 49 && (48 ≤ v && v ≤ 50) && r.head? = some 45 then some (10 + (v - 48), r.tail)
      else if (x = 48 && (49 ≤ v && v ≤ 57)) && r.head? = some 45 then some (v - 48, r.tail)
      else if (49 ≤ x && x ≤ 57) && v = 45 then some (x - 48, r)
      else none
  | _ => none

/-- `_parse_ymd`: CPython `datetime.strptime(s, "%Y-%m-%d")`, `None` on any
failure (pattern mismatch, trailing characters, or impossible calendar day). -/
def parseYMD (k : Key) : Option Dt :=
  match k with
  | a :: b :: c :: d :: e :: rest =>
      if isDig a && isDig b && isDig c && isDig d && e = 45 then
        let yv := 1000 * (a - 48) + 100 * (b - 48) + 10 * (c - 48) + (d - 48)
        match parseMonthDash rest with
        | some (mv, dpart) =>
            match parseDay dpart with
            | some dv =>
                if 1 ≤ yv && dv ≤ daysInMonth yv mv then some ⟨yv, mv, dv⟩ else none
            | none => none
        | none => none
      else none
  | _ => none

/-! ### Order facts: Python string comparison -/

theorem lexLt_irrefl : ∀ x : List Nat, lexLt x x = false := by
  intro x
  induction x with
  | nil => rfl
  | cons a as ih => simp [lexLt, ih]

theorem lexLt_asymm : ∀ x y : List Nat, lexLt x y = true → lexLt y x = false := by
  intro x
  induction x with
  | nil =>
    intro y h
    cases y with
    | nil => simp [lexLt] at h
    | cons b bs => rfl
  | cons a as ih =>
    intro y h
    cases y with
    | nil => simp [lexLt] at h
    | cons b bs =>
      simp [lexLt] at h ⊢
      rcases h with h | ⟨he, h⟩
      · exact ⟨by omega, by omega⟩
      · subst he
        exact ⟨by omega, fun _ => ih bs h⟩

theorem lexLt_trans : ∀ x y z : List Nat, lexLt x y = true → lexLt y z = true →
    lexLt x z = true := by
  intro x
  induction x with
  | nil =>
    intro y z h1 h2
    cases y with
    | nil => simp [lexLt] at h1
    | cons b bs =>
      cases z with
      | nil => simp [lexLt] at h2
      | cons c cs => rfl
  | cons a as ih =>
    intro y z h1 h2
    cases y with
    | nil => simp [lexLt] at h1
    | cons b bs =>
      cases z with
      | nil => simp [lexLt] at h2
      | cons c cs =>
        simp [lexLt] at h1 h2 ⊢
        rcases h1 with h1 | ⟨he1, h1⟩
        · rcases h2 with h2 | ⟨he2, h2⟩
          · exact Or.inl (by omega)
          · exact Or.inl (by omega)
        · subst he1
          rcases h2 with h2 | ⟨he2, h2⟩
          · exact Or.inl h2
          · exact Or.inr ⟨he2, ih bs cs h1 h2⟩

theorem lexLt_conn : ∀ x y : List Nat, lexLt x y = false → lexLt y x = false → x = y := by
  intro x
  induction x with
  | nil =>
    intro y h1 _
    cases y with
    | nil => rfl
    | cons b bs => simp [lexLt] at h1
  | cons a as ih =>
    intro y h1 h2
    cases y with
    | nil => simp [lexLt] at h2
    | cons b bs =>
      simp [lexLt] at h1 h2
      have hab : a = b := by omega
      subst hab
      have := ih bs (h1.2 rfl) (h2.2 rfl)
      rw [this]

theorem lexLe_refl (x : List Nat) : lexLe x x = true := by
  simp [lexLe, lexLt_irrefl]

theorem lexLe_of_lt {x y : List Nat} (h : lexLt x y = true) : lexLe x y = true := by
  simp [lexLe, lexLt_asymm _ _ h]

theorem lexLe_trans {x y z : List Nat} (h1 : lexLe x y = true) (h2 : lexLe y z = true) :
    lexLe x z = true := by
  simp only [lexLe, Bool.not_eq_true'] at h1 h2 ⊢
  by_contra hc
  simp only [Bool.not_eq_false] at hc
  rcases hxy : lexLt x y with _ | _
  · have hxy2 := lexLt_conn x y hxy h1
    subst hxy2
    rw [hc] at h2
    simp at h2
  · have := lexLt_trans z x y hc hxy
    rw [this] at h2
    simp at h2

/-- `min(...)` over Python strings: the result is one of the inputs. -/
theorem lexMin_mem : ∀ (ks : List Key) (k0 : Key), lexMin k0 ks = k0 ∨ lexMin k0 ks ∈ ks := by
  intro ks
  induction ks with
  | nil => intro k0; exact Or.inl rfl
  | cons b bs ih =>
    intro k0
    have hstep : lexMin k0 (b :: bs) = lexMin (if lexLt b k0 = true then b else k0) bs := rfl
    rw [hstep]
    rcases ih (if lexLt b k0 = true then b else k0) with h | h
    · rw [h]
      split
      · exact Or.inr (List.mem_cons_self _ _)
      · exact Or.inl rfl
    · exact Or.inr (List.mem_cons_of_mem _ h)

/-- `min(...)` over Python strings is a lower bound. -/
theorem lexMin_le : ∀ (ks : List Key) (k0 x : Key), (x = k0 ∨ x ∈ ks) →
    lexLe (lexMin k0 ks) x = true := by
  intro ks
  induction ks with
  | nil =>
    intro k0 x hx
    rcases hx with rfl | hx
    · exact lexLe_refl x
    · cases hx
  | cons b bs ih =>
    intro k0 x hx
    show lexLe (lexMin (if lexLt b k0 then b else k0) bs) x = true
    have hacc : ∀ z, (z = k0 ∨ z = b) →
        lexLe (if lexLt b k0 = true then b else k0) z = true := by
      intro z hz
      rcases hz with rfl | rfl
      · split
        · next hlt => exact lexLe_of_lt hlt
        · exact lexLe_refl _
      · split
        · exact lexLe_refl _
        · next hlt => simp [lexLe, hlt]
    have hmin := ih (if lexLt b k0 = true then b else k0)
    rcases hx with rfl | hx
    · exact lexLe_trans (hmin _ (Or.inl rfl)) (hacc _ (Or.inl rfl))
    · rcases List.mem_cons.mp hx with rfl | hx
      · exact lexLe_trans (hmin _ (Or.inl rfl)) (hacc _ (Or.inr rfl))
      · exact hmin _ (Or.inr hx)

/-- `max(...)` over Python strings: the result is one of the inputs. -/
theorem lexMax_mem : ∀ (ks : List Key) (k0 : Key), lexMax k0 ks = k0 ∨ lexMax k0 ks ∈ ks := by
  intro ks
  induction ks with
  | nil => intro k0; exact Or.inl rfl
  | cons b bs ih =>
    intro k0
    have hstep : lexMax k0 (b :: bs) = lexMax (if lexLt k0 b = true then b else k0) bs := rfl
    rw [hstep]
    rcases ih (if lexLt k0 b = true then b else k0) with h | h
    · rw [h]
      split
      · exact Or.inr (List.mem_cons_self _ _)
      · exact Or.inl rfl
    · exact Or.inr (List.mem_cons_of_mem _ h)

/-- `max(...)` over Python strings is an upper bound. -/
theorem lexMax_ge : ∀ (ks : List Key) (k0 x : Key), (x = k0 ∨ x ∈ ks) →
    lexLe x (lexMax k0 ks) = true := by
  intro ks
  induction ks with
  | nil =>
    intro k0 x hx
    rcases hx with rfl | hx
    · exact lexLe_refl x
    · cases hx
  | cons b bs ih =>
    intro k0 x hx
    show lexLe x (lexMax (if lexLt k0 b then b else k0) bs) = true
    have hacc : ∀ z, (z = k0 ∨ z = b) →
        lexLe z (if lexLt k0 b = true then b else k0) = true := by
      intro z hz
      rcases hz with rfl | rfl
      · split
        · next hlt => exact lexLe_of_lt hlt
        · exact lexLe_refl _
      · split
        · exact lexLe_refl _
        · next hlt => simp [lexLe, hlt]
    have hmax := ih (if lexLt k0 b = true then b else k0)
    rcases hx with rfl | hx
    · exact lexLe_trans (hacc _ (Or.inl rfl)) (hmax _ (Or.inl rfl))
    · rcases List.mem_cons.mp hx with rfl | hx
      · exact lexLe_trans (hacc _ (Or.inr rfl)) (hmax _ (Or.inl rfl))
      · exact hmax _ (Or.inr hx)

theorem lexLe_antisymm {x y : List Nat} (h1 : lexLe x y = true) (h2 : lexLe y x = true) :
    x = y := by
  simp only [lexLe, Bool.not_eq_true'] at h1 h2
  exact lexLt_conn x y h2 h1

/-! ### Order facts: dates -/

theorem dtLtB_iff {a b : Dt} : dtLtB a b = true ↔
    (a.y < b.y ∨ (a.y = b.y ∧ (a.m < b.m ∨ (a.m = b.m ∧ a.d < b.d)))) := by
  simp [dtLtB]

theorem dtLeB_iff {a b : Dt} : dtLeB a b = true ↔
    (a.y < b.y ∨ (a.y = b.y ∧ (a.m < b.m ∨ (a.m = b.m ∧ a.d ≤ b.d)))) := by
  simp only [dtLeB, dtLtB, Bool.not_eq_true', Bool.or_eq_false_iff, Bool.and_eq_false_iff,
    decide_eq_false_iff_not, decide_eq_true_eq]
  omega

theorem dtLeB_refl (a : Dt) : dtLeB a a = true := by
  rw [dtLeB_iff]; omega

theorem dtLeB_trans {a b c : Dt} (h1 : dtLeB a b = true) (h2 : dtLeB b c = true) :
    dtLeB a c = true := by
  rw [dtLeB_iff] at h1 h2 ⊢; omega

theorem dtLeB_antisymm {a b : Dt} (h1 : dtLeB a b = true) (h2 : dtLeB b a = true) :
    a = b := by
  rw [dtLeB_iff] at h1 h2
  rcases a with ⟨ay, am, ad⟩
  rcases b with ⟨by2, bm, bd⟩
  simp only [Dt.mk.injEq]
  simp only at h1 h2
  omega

theorem dtLeB_of_lt {a b : Dt} (h : dtLtB a b = true) : dtLeB a b = true := by
  rw [dtLtB_iff] at h; rw [dtLeB_iff]; omega

theorem dtLtB_of_lt_of_le {a b c : Dt} (h1 : dtLtB a b = true) (h2 : dtLeB b c = true) :
    dtLtB a c = true := by
  rw [dtLtB_iff] at h1 ⊢; rw [dtLeB_iff] at h2; omega

theorem dtLtB_trans {a b c : Dt} (h1 : dtLtB a b = true) (h2 : dtLtB b c = true) :
    dtLtB a c = true := by
  rw [dtLtB_iff] at h1 h2 ⊢; omega

theorem dtLtB_irrefl (a : Dt) : dtLtB a a = false := by
  have : ¬ dtLtB a a = true := by rw [dtLtB_iff]; omega
  exact Bool.not_eq_true _ |>.mp this

theorem dtLtB_of_ne_of_le {a b : Dt} (hne : a ≠ b) (h : dtLeB a b = true) :
    dtLtB a b = true := by
  rw [dtLeB_iff] at h
  rw [dtLtB_iff]
  rcases a with ⟨ay, am, ad⟩
  rcases b with ⟨by2, bm, bd⟩
  simp only at h ⊢
  simp only [ne_eq, Dt.mk.injEq, not_and] at hne
  by_contra hcon
  have : ay = by2 ∧ am = bm ∧ ad = bd := by omega
  exact hne this.1 this.2.1 this.2.2

theorem dtLeB_not_lt {a b : Dt} (h : dtLeB a b = true) : dtLtB b a = false := by
  rw [dtLeB_iff] at h
  have : ¬ dtLtB b a = true := by rw [dtLtB_iff]; omega
  exact Bool.not_eq_true _ |>.mp this

theorem dt_total {a b : Dt} : dtLeB a b = true ∨ dtLeB b a = true := by
  rw [dtLeB_iff, dtLeB_iff]; omega

theorem daysInMonth_pos (y m : Nat) : 1 ≤ daysInMonth y m := by
  unfold daysInMonth
  split
  · split <;> omega
  · split <;> omega

theorem daysInMonth_le_31 (y m : Nat) : daysInMonth y m ≤ 31 := by
  unfold daysInMonth
  split
  · split <;> omega
  · split <;> omega

theorem nextDay_ok {a : Dt} (h : DtOk a) : DtOk (nextDay a) := by
  rcases a with ⟨ay, am, ad⟩
  obtain ⟨h1, h2, h3, h4, h5⟩ := h
  simp only at h1 h2 h3 h4 h5
  have hp1 := daysInMonth_pos ay (am + 1)
  have hp2 := daysInMonth_pos (ay + 1) 1
  unfold DtOk nextDay
  split
  · next hc => dsimp only at hc ⊢; omega
  · next hc =>
    dsimp only at hc
    split
    · next hc2 => dsimp only at hc2 ⊢; omega
    · next hc2 => dsimp only at hc2 ⊢; omega

theorem dtLt_nextDay (a : Dt) : dtLtB a (nextDay a) = true := by
  rcases a with ⟨ay, am, ad⟩
  rw [dtLtB_iff]
  unfold nextDay
  split
  · dsimp only; omega
  · split
    · dsimp only; omega
    · dsimp only; omega

theorem dtM_nextDay {a : Dt} (h : DtOk a) : dtM a < dtM (nextDay a) := by
  rcases a with ⟨ay, am, ad⟩
  obtain ⟨h1, h2, h3, h4, h5⟩ := h
  simp only at h1 h2 h3 h4 h5
  have h31 := daysInMonth_le_31 ay am
  unfold dtM nextDay
  split
  · next hc => dsimp only at hc ⊢; omega
  · next hc =>
    dsimp only at hc
    split
    · next hc2 => dsimp only at hc2 ⊢; omega
    · next hc2 => dsimp only at hc2 ⊢; omega

theorem dtM_mono {a b : Dt} (ha : DtOk a) (hb : DtOk b) (h : dtLeB a b = true) :
    dtM a ≤ dtM b := by
  rcases a with ⟨ay, am, ad⟩
  rcases b with ⟨by2, bm, bd⟩
  obtain ⟨ha1, ha2, ha3, ha4, ha5⟩ := ha
  obtain ⟨hb1, hb2, hb3, hb4, hb5⟩ := hb
  simp only at ha1 ha2 ha3 ha4 ha5 hb1 hb2 hb3 hb4 hb5
  have h31a := daysInMonth_le_31 ay am
  have h31b := daysInMonth_le_31 by2 bm
  rw [dtLeB_iff] at h
  dsimp only at h
  unfold dtM
  dsimp only
  omega

/-- On sound calendar triples `nextDay` is the immediate successor: any
strictly later sound date is at least `nextDay`. -/
theorem nextDay_min {a q : Dt} (ha : DtOk a) (hq : DtOk q) (h : dtLtB a q = true) :
    dtLeB (nextDay a) q = true := by
  rcases a with ⟨ay, am, ad⟩
  rcases q with ⟨qy, qm, qd⟩
  obtain ⟨ha1, ha2, ha3, ha4, ha5⟩ := ha
  obtain ⟨hq1, hq2, hq3, hq4, hq5⟩ := hq
  simp only at ha1 ha2 ha3 ha4 ha5 hq1 hq2 hq3 hq4 hq5
  rw [dtLtB_iff] at h
  simp only at h
  unfold nextDay
  simp only
  split
  · rw [dtLeB_iff]; simp only; omega
  · next hd =>
    split
    · rw [dtLeB_iff]
      simp only
      rcases h with h | ⟨hy, h⟩
      · omega
      · rcases h with h | ⟨hm2, h⟩
        · omega
        · exfalso
          subst hy
          subst hm2
          omega
    · rw [dtLeB_iff]
      simp only
      rcases h with h | ⟨hy, h⟩
      · omega
      · rcases h with h | ⟨hm2, h⟩
        · omega
        · exfalso
          subst hy
          subst hm2
          omega

theorem iterNext_ok {a : Dt} (h : DtOk a) : ∀ k, DtOk (iterNext k a) := by
  intro k
  induction k generalizing a with
  | zero => exact h
  | succ n ih => exact ih (nextDay_ok h)

theorem iterNext_succ_out (k : Nat) (a : Dt) :
    iterNext (k + 1) a = iterNext k (nextDay a) := rfl

theorem dtLeB_iterNext {a : Dt} (h : DtOk a) : ∀ k, dtLeB a (iterNext k a) = true := by
  intro k
  induction k generalizing a with
  | zero => exact dtLeB_refl a
  | succ n ih =>
    rw [iterNext_succ_out]
    exact dtLeB_trans (dtLeB_of_lt (dtLt_nextDay a)) (ih (nextDay_ok h))

theorem iterNext_y_le {a : Dt} : ∀ k, (iterNext k a).y ≤ a.y + k := by
  intro k
  induction k generalizing a with
  | zero => simp [iterNext]
  | succ n ih =>
    rw [iterNext_succ_out]
    have h2 := ih (a := nextDay a)
    have : (nextDay a).y ≤ a.y + 1 := by
      unfold nextDay
      split
      · simp
      · split <;> simp
    omega

/-! ### The daily `while` loop -/

theorem dateRange_chain (fuel : Nat) : ∀ cur d1 : Dt,
    List.Chain' (fun a b => b = nextDay a) (dateRange fuel cur d1) := by
  induction fuel with
  | zero => intro cur d1; exact List.chain'_nil
  | succ f ih =>
    intro cur d1
    show List.Chain' _ (if dtLeB cur d1 = true then cur :: dateRange f (nextDay cur) d1 else [])
    split
    · rcases hf : dateRange f (nextDay cur) d1 with _ | ⟨x, xs⟩
      · simp
      · have hx : x = nextDay cur := by
          cases f with
          | zero => simp [dateRange] at hf
          | succ f2 =>
            unfold dateRange at hf
            rcases h : dtLeB (nextDay cur) d1 with _ | _ <;> rw [h] at hf <;> simp at hf
            exact hf.1.symm
        have := ih (nextDay cur) d1
        rw [hf] at this
        exact List.Chain'.cons (by rw [hx]) this
    · exact List.chain'_nil

theorem dateRange_head {fuel : Nat} {cur d1 : Dt} (hle : dtLeB cur d1 = true)
    (hf : 0 < fuel) : (dateRange fuel cur d1).head? = some cur := by
  cases fuel with
  | zero => omega
  | succ f => simp [dateRange, hle]

theorem dateRange_neg {fuel : Nat} {cur d1 : Dt} (h : dtLeB cur d1 = false) :
    dateRange fuel cur d1 = [] := by
  cases fuel with
  | zero => rfl
  | succ f => simp [dateRange, h]

theorem dateRange_mem {fuel : Nat} : ∀ {cur d1 : Dt}, DtOk cur →
    ∀ x ∈ dateRange fuel cur d1, DtOk x ∧ dtLeB cur x = true ∧ dtLeB x d1 = true := by
  induction fuel with
  | zero => intro cur d1 _ x hx; simp [dateRange] at hx
  | succ f ih =>
    intro cur d1 hok x hx
    unfold dateRange at hx
    rcases h : dtLeB cur d1 with _ | _
    · rw [h] at hx; simp at hx
    · rw [h] at hx
      rcases List.mem_cons.mp hx with rfl | hx
      · exact ⟨hok, dtLeB_refl x, h⟩
      · obtain ⟨h1, h2, h3⟩ := ih (nextDay_ok hok) x hx
        exact ⟨h1, dtLeB_trans (dtLeB_of_lt (dtLt_nextDay cur)) h2, h3⟩

theorem nextDay_not_le (a : Dt) : dtLeB (nextDay a) a = false := by
  unfold dtLeB
  rw [dtLt_nextDay a]
  rfl

theorem dateRange_getLast {fuel : Nat} : ∀ {cur d1 : Dt}, DtOk cur → DtOk d1 →
    dtLeB cur d1 = true → dtM d1 < dtM cur + fuel →
    (dateRange fuel cur d1).getLast? = some d1 := by
  induction fuel with
  | zero =>
    intro cur d1 hc hd hle hfuel
    exfalso
    have := dtM_mono hc hd hle
    omega
  | succ f ih =>
    intro cur d1 hc hd hle hfuel
    unfold dateRange
    rw [hle]
    simp only [if_true]
    by_cases heq : cur = d1
    · subst heq
      rw [dateRange_neg (nextDay_not_le cur)]
      rfl
    · have hlt : dtLtB cur d1 = true := dtLtB_of_ne_of_le heq hle
      have hnle : dtLeB (nextDay cur) d1 = true := nextDay_min hc hd hlt
      have hrec := ih (nextDay_ok hc) hd hnle (by have := dtM_nextDay hc; omega)
      rcases hnil : dateRange f (nextDay cur) d1 with _ | ⟨x, xs⟩
      · rw [hnil] at hrec; simp at hrec
      · rw [hnil] at hrec
        rw [List.getLast?_cons_cons]
        exact hrec

theorem dateRange_between {fuel : Nat} : ∀ {cur d1 q : Dt}, DtOk cur → DtOk d1 → DtOk q →
    dtLeB cur q = true → dtLeB q d1 = true → dtM d1 < dtM cur + fuel →
    q ∈ dateRange fuel cur d1 := by
  induction fuel with
  | zero =>
    intro cur d1 q hc hd hq h1 h2 hfuel
    exfalso
    have hcd := dtLeB_trans h1 h2
    have hmono := dtM_mono hc hd hcd
    omega
  | succ f ih =>
    intro cur d1 q hc hd hq h1 h2 hfuel
    have hcd := dtLeB_trans h1 h2
    unfold dateRange
    rw [hcd]
    simp only [if_true]
    by_cases heq : cur = q
    · subst heq; exact List.mem_cons_self _ _
    · have hlt : dtLtB cur q = true := dtLtB_of_ne_of_le heq h1
      have hnq : dtLeB (nextDay cur) q = true := nextDay_min hc hq hlt
      exact List.mem_cons_of_mem _
        (ih (nextDay_ok hc) hd hq hnq h2 (by have := dtM_nextDay hc; omega))

theorem dateRange_pairwise {fuel : Nat} {cur d1 : Dt} :
    List.Pairwise (fun a b => dtLtB a b = true) (dateRange fuel cur d1) := by
  haveI : IsTrans Dt (fun a b => dtLtB a b = true) := ⟨fun a b c => dtLtB_trans⟩
  apply List.chain'_iff_pairwise.mp
  refine List.Chain'.imp ?_ (dateRange_chain fuel cur d1)
  intro a b hab
  rw [hab]
  exact dtLt_nextDay a

/-- `dateRange` for an endpoint reached by iterating `nextDay`: the loop yields
exactly the `j+1` consecutive days. -/
theorem dateRange_iterNext {j : Nat} : ∀ {cur : Dt} {fuel : Nat}, DtOk cur →
    dtM (iterNext j cur) < dtM cur + fuel →
    dateRange fuel cur (iterNext j cur) = (List.range (j + 1)).map (fun i => iterNext i cur) := by
  induction j with
  | zero =>
    intro cur fuel hok hfuel
    cases fuel with
    | zero => simp [iterNext] at hfuel
    | succ f =>
      show (if dtLeB cur (iterNext 0 cur) = true then
        cur :: dateRange f (nextDay cur) (iterNext 0 cur) else []) = _
      rw [show iterNext 0 cur = cur from rfl, dtLeB_refl]
      simp only [if_true]
      rw [dateRange_neg (nextDay_not_le cur)]
      rfl
  | succ n ih =>
    intro cur fuel hok hfuel
    cases fuel with
    | zero =>
      exfalso
      have h1 := dtLeB_iterNext hok (n + 1)
      have := dtM_mono hok (iterNext_ok hok (n + 1)) h1
      omega
    | succ f =>
      show (if dtLeB cur (iterNext (n + 1) cur) = true then
        cur :: dateRange f (nextDay cur) (iterNext (n + 1) cur) else []) = _
      rw [dtLeB_iterNext hok (n + 1)]
      simp only [if_true]
      rw [iterNext_succ_out]
      have hfuel2 : dtM (iterNext n (nextDay cur)) < dtM (nextDay cur) + f := by
        rw [iterNext_succ_out] at hfuel
        have := dtM_nextDay hok
        omega
      rw [ih (nextDay_ok hok) hfuel2]
      rw [List.range_succ_eq_map (n + 1)]
      simp only [List.map_cons, List.map_map]
      have hfe : ((fun i => iterNext i cur) ∘ Nat.succ) = (fun i => iterNext i (nextDay cur)) := by
        funext i
        rfl
      rw [hfe]
      rfl

/-! ### Facts about `_parse_ymd` and `strftime` -/

theorem bool_eq_of_iff {b c : Bool} (h : b = true ↔ c = true) : b = c := by
  rcases hb : b <;> rcases hc : c
  · rfl
  · rw [hb, hc] at h; simp at h
  · rw [hb, hc] at h; simp at h
  · rfl

theorem isDig_dig (n : Nat) : isDig (dig n) = true := by
  unfold isDig dig
  simp only [Bool.and_eq_true, decide_eq_true_eq]
  omega

theorem parseYMD_valid {k : Key} {a : Dt} (h : parseYMD k = some a) : DtValid a := by
  unfold parseYMD at h
  rcases k with _ | ⟨c1, k⟩
  · simp at h
  rcases k with _ | ⟨c2, k⟩
  · simp at h
  rcases k with _ | ⟨c3, k⟩
  · simp at h
  rcases k with _ | ⟨c4, k⟩
  · simp at h
  rcases k with _ | ⟨c5, rest⟩
  · simp at h
  simp only at h
  rcases hcond : (isDig c1 && isDig c2 && isDig c3 && isDig c4 && decide (c5 = 45)) with _ | _
  · rw [hcond] at h; simp at h
  · rw [hcond] at h
    simp only [if_true] at h
    rcases hmd : parseMonthDash rest with _ | ⟨mv, dpart⟩
    · rw [hmd] at h; simp at h
    · rw [hmd] at h
      dsimp only at h
      rcases hpd : parseDay dpart with _ | dv
      · rw [hpd] at h; simp at h
      · rw [hpd] at h
        dsimp only at h
        have hm : 1 ≤ mv ∧ mv ≤ 12 := by
          unfold parseMonthDash at hmd
          rcases rest with _ | ⟨x, rest2⟩
          · simp at hmd
          rcases rest2 with _ | ⟨v, r⟩
          · simp at hmd
          simp only at hmd
          split at hmd
          · next hc =>
            simp only [Bool.and_eq_true, decide_eq_true_eq] at hc
            simp only [Option.some.injEq, Prod.mk.injEq] at hmd
            omega
          · split at hmd
            · next hc =>
              simp only [Bool.and_eq_true, decide_eq_true_eq] at hc
              simp only [Option.some.injEq, Prod.mk.injEq] at hmd
              omega
            · split at hmd
              · next hc =>
                simp only [Bool.and_eq_true, decide_eq_true_eq] at hc
                simp only [Option.some.injEq, Prod.mk.injEq] at hmd
                omega
              · simp at hmd
        have hd : 1 ≤ dv := by
          unfold parseDay at hpd
          rcases dpart with _ | ⟨x, d2⟩
          · simp at hpd
          rcases d2 with _ | ⟨v, d3⟩
          · simp only at hpd
            split at hpd
            · next hc =>
              simp only [Bool.and_eq_true, decide_eq_true_eq] at hc
              simp only [Option.some.injEq] at hpd
              omega
            · simp at hpd
          rcases d3 with _ | ⟨w, d4⟩
          · simp only at hpd
            split at hpd
            · next hc =>
              simp only [Bool.and_eq_true, Bool.or_eq_true, decide_eq_true_eq] at hc
              simp only [Option.some.injEq] at hpd
              omega
            · split at hpd
              · next hc =>
                simp only [Bool.and_eq_true, Bool.or_eq_true, decide_eq_true_eq, isDig] at hc
                simp only [Option.some.injEq] at hpd
                omega
              · split at hpd
                · next hc =>
                  simp only [Bool.and_eq_true, decide_eq_true_eq] at hc
                  simp only [Option.some.injEq] at hpd
                  omega
                · simp at hpd
          · simp at hpd
        simp only [Bool.and_eq_true, decide_eq_true_eq] at hcond
        split at h
        · next hc2 =>
          simp only [Bool.and_eq_true, decide_eq_true_eq] at hc2
          simp only [Option.some.injEq] at h
          subst h
          unfold isDig at hcond
          simp only [Bool.and_eq_true, decide_eq_true_eq] at hcond
          refine ⟨⟨hc2.1, hm.1, hm.2, hd, hc2.2⟩, ?_⟩
          simp only
          omega
        · simp at h

theorem parseMonthDash_pad2 {m : Nat} (h1 : 1 ≤ m) (h2 : m ≤ 12) (r : List Nat) :
    parseMonthDash (pad2 m ++ 45 :: r) = some (m, r) := by
  interval_cases m <;> rfl

theorem parseDay_pad2 {d : Nat} (h1 : 1 ≤ d) (h2 : d ≤ 31) :
    parseDay (pad2 d) = some d := by
  interval_cases d <;> rfl

/-- Round trip: `strptime(strftime(a))` recovers any representable date. -/
theorem parseYMD_fmtD {a : Dt} (h : DtValid a) : parseYMD (fmtD a) = some a := by
  obtain ⟨⟨h1, h3, h4, h5, h6⟩, h2⟩ := h
  rcases a with ⟨ay, am, ad⟩
  simp only at h1 h2 h3 h4 h5 h6
  have hshape : fmtD ⟨ay, am, ad⟩ =
      dig (ay / 1000) :: dig (ay / 100) :: dig (ay / 10) :: dig ay :: 45 ::
        (pad2 am ++ 45 :: pad2 ad) := by
    simp [fmtD, pad4]
  rw [hshape]
  have hle31 := le_trans h6 (daysInMonth_le_31 ay am)
  have hyv : 1000 * (dig (ay / 1000) - 48) + 100 * (dig (ay / 100) - 48) +
      10 * (dig (ay / 10) - 48) + (dig ay - 48) = ay := by
    unfold dig
    omega
  simp [parseYMD, isDig_dig, parseMonthDash_pad2 h3 h4, parseDay_pad2 h5 hle31, hyv, h1, h6]

theorem fmtD_inj {a b : Dt} (ha : DtValid a) (hb : DtValid b) (h : fmtD a = fmtD b) :
    a = b := by
  have h1 := parseYMD_fmtD ha
  have h2 := parseYMD_fmtD hb
  rw [h, h2] at h1
  exact (Option.some.injEq _ _ ▸ h1).symm

theorem lexLt_cons (a b : Nat) (as bs : List Nat) :
    lexLt (a :: as) (b :: bs) = (decide (a < b) || (decide (a = b) && lexLt as bs)) := rfl

theorem lexLt_append_same : ∀ {xs ys : List Nat}, xs.length = ys.length →
    ∀ (as bs : List Nat),
    lexLt (xs ++ as) (ys ++ bs) = (lexLt xs ys || (decide (xs = ys) && lexLt as bs)) := by
  intro xs
  induction xs with
  | nil =>
    intro ys h as bs
    rcases ys with _ | ⟨b, ys⟩
    · simp [lexLt]
    · simp at h
  | cons x xs ih =>
    intro ys h as bs
    rcases ys with _ | ⟨b, ys⟩
    · simp at h
    · simp only [List.length_cons, Nat.succ.injEq] at h
      have hl1 : (x :: xs) ++ as = x :: (xs ++ as) := rfl
      have hl2 : (b :: ys) ++ bs = b :: (ys ++ bs) := rfl
      rw [hl1, hl2, lexLt_cons, lexLt_cons, ih h as bs]
      have hde : decide (x :: xs = b :: ys) = (decide (x = b) && decide (xs = ys)) := by
        by_cases h1 : x = b
        · by_cases h2 : xs = ys
          · subst h1; subst h2; simp
          · simp [h1, h2]
        · simp [h1]
      rw [hde]
      by_cases hxb : x = b
      · by_cases hxs : xs = ys
        · subst hxb; subst hxs
          simp [lexLt_irrefl]
        · simp [hxb, hxs]
      · simp [hxb]

theorem lexLt_pad2_iff {x y : Nat} (hx : x ≤ 99) (hy : y ≤ 99) :
    (lexLt (pad2 x) (pad2 y) = true ↔ x < y) := by
  simp only [pad2, lexLt, dig, Bool.or_eq_true, Bool.and_eq_true, decide_eq_true_eq,
    Bool.false_eq_true, and_false, or_false]
  omega

theorem lexLt_pad4_iff {x y : Nat} (hx : x ≤ 9999) (hy : y ≤ 9999) :
    (lexLt (pad4 x) (pad4 y) = true ↔ x < y) := by
  have hx1 : x / 10 / 10 = x / 100 := by rw [Nat.div_div_eq_div_mul]
  have hx2 : x / 100 / 10 = x / 1000 := by rw [Nat.div_div_eq_div_mul]
  have hx3 : x / 1000 / 10 = x / 10000 := by rw [Nat.div_div_eq_div_mul]
  have hy1 : y / 10 / 10 = y / 100 := by rw [Nat.div_div_eq_div_mul]
  have hy2 : y / 100 / 10 = y / 1000 := by rw [Nat.div_div_eq_div_mul]
  have hy3 : y / 1000 / 10 = y / 10000 := by rw [Nat.div_div_eq_div_mul]
  simp only [pad4, lexLt, dig, Bool.or_eq_true, Bool.and_eq_true, decide_eq_true_eq,
    Bool.false_eq_true, and_false, or_false]
  omega

theorem pad2_inj {x y : Nat} (hx : x ≤ 99) (hy : y ≤ 99) : pad2 x = pad2 y ↔ x = y := by
  simp only [pad2, dig, List.cons.injEq, and_true]
  omega

theorem pad4_inj {x y : Nat} (hx : x ≤ 9999) (hy : y ≤ 9999) : pad4 x = pad4 y ↔ x = y := by
  simp only [pad4, dig, List.cons.injEq, and_true]
  omega

/-- On canonical (zero padded) date strings, Python string comparison agrees
with `datetime` comparison. -/
theorem lexLt_fmtD {a b : Dt} (ha : DtValid a) (hb : DtValid b) :
    lexLt (fmtD a) (fmtD b) = dtLtB a b := by
  obtain ⟨⟨ha1, ha3, ha4, ha5, ha6⟩, ha2⟩ := ha
  obtain ⟨⟨hb1, hb3, hb4, hb5, hb6⟩, hb2⟩ := hb
  have ham : a.m ≤ 99 := by omega
  have hbm : b.m ≤ 99 := by omega
  have had : a.d ≤ 99 := le_trans ha6 (le_trans (daysInMonth_le_31 _ _) (by omega))
  have hbd : b.d ≤ 99 := le_trans hb6 (le_trans (daysInMonth_le_31 _ _) (by omega))
  apply bool_eq_of_iff
  unfold fmtD
  rw [List.append_assoc, List.append_assoc,
    lexLt_append_same (by simp [pad4]) _ _]
  simp only [Bool.or_eq_true, Bool.and_eq_true, decide_eq_true_eq]
  rw [lexLt_pad4_iff ha2 hb2, pad4_inj ha2 hb2]
  have htail : lexLt (45 :: pad2 a.d) (45 :: pad2 b.d) = true ↔ a.d < b.d := by
    unfold lexLt
    simp only [Bool.or_eq_true, Bool.and_eq_true, decide_eq_true_eq, lt_self_iff_false,
      false_or, true_and]
    exact lexLt_pad2_iff had hbd
  have hrest : lexLt (45 :: pad2 a.m ++ 45 :: pad2 a.d) (45 :: pad2 b.m ++ 45 :: pad2 b.d)
      = true ↔ (a.m < b.m ∨ (a.m = b.m ∧ a.d < b.d)) := by
    show lexLt (45 :: (pad2 a.m ++ 45 :: pad2 a.d)) (45 :: (pad2 b.m ++ 45 :: pad2 b.d))
      = true ↔ _
    unfold lexLt
    rw [lexLt_append_same (by simp [pad2]) _ _]
    simp only [Bool.or_eq_true, Bool.and_eq_true, decide_eq_true_eq, lt_self_iff_false,
      false_or, true_and]
    rw [lexLt_pad2_iff ham hbm, pad2_inj ham hbm, htail]
  rw [hrest, dtLtB_iff]

theorem lexLe_fmtD {a b : Dt} (ha : DtValid a) (hb : DtValid b) :
    lexLe (fmtD a) (fmtD b) = dtLeB a b := by
  unfold lexLe dtLeB
  rw [lexLt_fmtD hb ha]

/-! ### Python-level data model -/

/-- The exception classes the embedded code can raise. -/
inductive PyErr where
  | valueError
  | typeError
  | indexError
  | overflowError
deriving DecidableEq

instance {γ δ : Type} [DecidableEq γ] [DecidableEq δ] : DecidableEq (Except γ δ) :=
  fun a b =>
    match a, b with
    | .ok x, .ok y =>
      if h : x = y then .isTrue (by rw [h]) else .isFalse (by
        intro hc
        cases hc
        exact h rfl)
    | .error x, .error y =>
      if h : x = y then .isTrue (by rw [h]) else .isFalse (by
        intro hc
        cases hc
        exact h rfl)
    | .ok _, .error _ => .isFalse (by intro hc; cases hc)
    | .error _, .ok _ => .isFalse (by intro hc; cases hc)

/-- `_safe_float(x, 0.0)` on an optional numeric value (`None`/absent gives 0). -/
def safeFloat (x : Option ℚ) : ℚ := x.getD 0

/-- A row dict as consumed by the daily paths (`date`, `income`, `expense`
keys; a missing key is `none`). -/
structure RowIn where
  date : Option Key
  income : Option ℚ
  expense : Option ℚ
deriving DecidableEq

/-- A list element that may fail the `isinstance(r, dict)` guard (`none`). -/
def RawRow : Type := Option RowIn

instance : DecidableEq RawRow := inferInstanceAs (DecidableEq (Option RowIn))

/-- `(r.get("date") or "").strip()`. -/
def rowKey (r : RowIn) : Key := strip (r.date.getD [])

/-- Insertion-ordered dict insert: overwriting a key keeps its original
position, as CPython dicts do. -/
def dictInsert {α : Type} : List (Key × α) → Key → α → List (Key × α)
  | [], k, v => [(k, v)]
  | p :: t, k, v => if p.1 = k then (k, v) :: t else p :: dictInsert t k v

def dictGet {α : Type} : List (Key × α) → Key → Option α
  | [], _ => none
  | p :: t, k => if p.1 = k then some p.2 else dictGet t k

def dictKeys {α : Type} (d : List (Key × α)) : List Key := d.map (fun p => p.1)

/-- The row filter of `fill_daily_series`: dicts with a nonempty stripped
date key that `_parse_ymd` accepts. -/
def validDailyKV (r : RawRow) : Option (Key × RowIn) :=
  match r with
  | none => none
  | some row =>
    let d := rowKey row
    if d = [] then none
    else if (parseYMD d).isSome then some (d, row) else none

/-- The `by_d` dict of `fill_daily_series`. -/
def buildByD (rows : List RawRow) : List (Key × RowIn) :=
  rows.foldl (fun acc r =>
    match validDailyKV r with
    | some kv => dictInsert acc kv.1 kv.2
    | none => acc) []

/-- The `d0 = strptime(min(by_d)) .. while cur <= d1` phase of
`fill_daily_series` (its keys always parse, so the `getD` default is inert). -/
def fillDailyFrom (byD : List (Key × RowIn)) (kmin kmax : Key) :
    Except PyErr (List Key × List ℚ × List ℚ) :=
  let d0 := (parseYMD kmin).getD ⟨1, 1, 1⟩
  let d1 := (parseYMD kmax).getD ⟨1, 1, 1⟩
  if dtLeB d0 d1 = true ∧ d1 = maxDt then .error .overflowError
  else
    let ds := dateRange (dtM d1 + 1 - dtM d0) d0 d1
    .ok (ds.map fmtD,
      ds.map (fun dt => safeFloat ((dictGet byD (fmtD dt)).bind (fun r => r.income))),
      ds.map (fun dt => safeFloat ((dictGet byD (fmtD dt)).bind (fun r => r.expense))))

/-- `fill_daily_series`.  The source loop steps a real `datetime` day by day
and runs `cur += timedelta(days=1)` once more after appending the final day;
when the maximum key is 9999-12-31 that step raises `OverflowError` before
anything is returned, modelled as an up-front throw in `fillDailyFrom`. -/
def fillDailySeries (rows : List RawRow) : Except PyErr (List Key × List ℚ × List ℚ) :=
  if rows = [] then .ok ([], [], [])
  else
    match dictKeys (buildByD rows) with
    | [] => .ok ([], [], [])
    | k0 :: ks => fillDailyFrom (buildByD rows) (lexMin k0 ks) (lexMax k0 ks)

/-! ### Months (`fill_monthly_series`, `month_seq`) -/

/-- A monthly row dict (`ym`, `income`, `expense_total`). -/
structure MRowIn where
  ym : Option Key
  income : Option ℚ
  expense_total : Option ℚ
deriving DecidableEq

def RawMRow : Type := Option MRowIn

instance : DecidableEq RawMRow := inferInstanceAs (DecidableEq (Option MRowIn))

/-- `(r.get("ym") or "").strip()`. -/
def mRowKey (r : MRowIn) : Key := strip (r.ym.getD [])

/-- The `YYYY-MM` validation of `fill_monthly_series`:
`datetime.strptime(ym + "-01", "%Y-%m-%d")`. -/
def parseYM (k : Key) : Option Dt := parseYMD (k ++ ([45, 48, 49] : List Nat))

def validMonthlyKV (r : RawMRow) : Option (Key × MRowIn) :=
  match r with
  | none => none
  | some row =>
    let ym := mRowKey row
    if ym = [] then none
    else if (parseYM ym).isSome then some (ym, row) else none

def buildByYm (rows : List RawMRow) : List (Key × MRowIn) :=
  rows.foldl (fun acc r =>
    match validMonthlyKV r with
    | some kv => dictInsert acc kv.1 kv.2
    | none => acc) []

/-- A year-month pair, as the `(y, m)` integers inside `month_seq`. -/
structure Ym where
  y : Nat
  m : Nat
deriving DecidableEq

def YmOk (a : Ym) : Prop := 1 ≤ a.m ∧ a.m ≤ 12

instance (a : Ym) : Decidable (YmOk a) := by unfold YmOk; infer_instance

def ymLtB (a b : Ym) : Bool := decide (a.y < b.y) || (decide (a.y = b.y) && decide (a.m < b.m))

/-- The `month_seq` loop guard `(y < y_end) or (y == y_end and m <= m_end)`. -/
def ymLeB (a b : Ym) : Bool := decide (a.y < b.y) || (decide (a.y = b.y) && decide (a.m ≤ b.m))

/-- The loop increment `m += 1; if m == 13: m = 1; y += 1`. -/
def nextYm (a : Ym) : Ym := if a.m + 1 = 13 then ⟨a.y + 1, 1⟩ else ⟨a.y, a.m + 1⟩

def ymM (a : Ym) : Nat := 12 * a.y + a.m

/-- `f"%04d-%02d" % (y, m)`. -/
def fmtYM (y m : Nat) : Key := pad4 y ++ (45 :: pad2 m)

/-- The `month_seq` `while` loop with explicit fuel. -/
def ymRange (fuel : Nat) (cur e : Ym) : List Ym :=
  match fuel with
  | 0 => []
  | f + 1 => if ymLeB cur e = true then cur :: ymRange f (nextYm cur) e else []

/-- Python `str.split("-")` (code 45). -/
def splitOn45 : List Nat → List Key
  | [] => [[]]
  | c :: t =>
      if c = 45 then [] :: splitOn45 t
      else
        match splitOn45 t with
        | [] => [[c]]
        | h :: r => (c :: h) :: r

def digitsVal (l : List Nat) : Option Nat :=
  if l ≠ [] ∧ l.all isDig then some (l.foldl (fun a c => 10 * a + (c - 48)) 0) else none

/-- Python `int(str)` for the shapes reachable from split period keys:
optional surrounding whitespace, optional sign, ASCII digits. -/
def intPy (k : Key) : Option Int :=
  match strip k with
  | [] => none
  | c :: r =>
      if c = 43 then (digitsVal r).map (fun n => (n : Int))
      else if c = 45 then (digitsVal r).map (fun n => -(n : Int))
      else (digitsVal (c :: r)).map (fun n => (n : Int))

/-- `sy, sm = ym.split("-")` followed by `int(sy), int(sm)`; `none` when the
unpacking or `int()` raises `ValueError`.  Keys validated by
`fill_monthly_series` always yield non-negative components. -/
def ymComponents (k : Key) : Option Ym :=
  match splitOn45 k with
  | [a, b] =>
      match intPy a, intPy b with
      | some ya, some mb => some ⟨ya.toNat, mb.toNat⟩
      | _, _ => none
  | _ => none

/-- `month_seq`; `none` iff the `split`/`int` of an endpoint raises. -/
def month_seq (s e : Key) : Option (List Key) :=
  (ymComponents s).bind fun sc =>
  (ymComponents e).map fun ec =>
    (ymRange (ymM ec + 1 - ymM sc) sc ec).map (fun p => fmtYM p.y p.m)

/-- `fill_monthly_series` (the source never raises here: `month_seq` is only
applied to keys that passed the `strptime` validation). -/
def fillMonthlySeries (rows : List RawMRow) : List Key × List ℚ × List ℚ :=
  if rows = [] then ([], [], [])
  else
    let byYm := buildByYm rows
    match dictKeys byYm with
    | [] => ([], [], [])
    | k0 :: ks =>
      let yms := (month_seq (lexMin k0 ks) (lexMax k0 ks)).getD []
      (yms,
       yms.map (fun ym => safeFloat ((dictGet byYm ym).bind (fun r => r.income))),
       yms.map (fun ym => safeFloat ((dictGet byYm ym).bind (fun r => r.expense_total))))

/-! ### Dict lemmas: last write wins, key membership -/

/-- `match`-style `orElse`, kept as its own definition so proofs control its
unfolding. -/
def orElseO {α : Type} (a b : Option α) : Option α :=
  match a with
  | some x => some x
  | none => b

/-- The entry a CPython dict holds for `k` after inserting `kvs` in order:
the last occurrence wins. -/
def lastKV {α : Type} (kvs : List (Key × α)) (k : Key) : Option α :=
  ((kvs.filter (fun p => decide (p.1 = k))).getLast?).map (fun p => p.2)

theorem lastKV_cons {α : Type} (p : Key × α) (t : List (Key × α)) (k : Key) :
    lastKV (p :: t) k =
      if p.1 = k then orElseO (lastKV t k) (some p.2) else lastKV t k := by
  by_cases hp : p.1 = k
  · simp only [lastKV, List.filter_cons, hp, decide_true_eq_true, if_true]
    rcases hl : (t.filter fun q => decide (q.1 = k)).getLast? with _ | q
    · rw [List.getLast?_eq_none_iff] at hl
      rw [hl]
      rfl
    · have : ((p :: t.filter fun q => decide (q.1 = k)).getLast?) = some q := by
        rcases hsplit : t.filter fun q => decide (q.1 = k) with _ | ⟨x, xs⟩
        · rw [hsplit] at hl; simp at hl
        · rw [hsplit] at hl
          rw [hsplit, List.getLast?_cons_cons, hl]
      rw [this, hl]
      rfl
  · simp only [lastKV, List.filter_cons, hp, decide_false_eq_false, Bool.false_eq_true,
      if_false, if_neg hp]

theorem dictGet_insert_same {α : Type} (d : List (Key × α)) (k : Key) (v : α) :
    dictGet (dictInsert d k v) k = some v := by
  induction d with
  | nil => simp [dictInsert, dictGet]
  | cons p t ih =>
    by_cases h : p.1 = k
    · simp [dictInsert, h, dictGet]
    · simp [dictInsert, h, dictGet, ih]

theorem dictGet_insert_other {α : Type} (d : List (Key × α)) {k k2 : Key} (v : α)
    (h : k ≠ k2) : dictGet (dictInsert d k v) k2 = dictGet d k2 := by
  induction d with
  | nil => simp [dictInsert, dictGet, h]
  | cons p t ih =>
    by_cases hp : p.1 = k
    · have hp2 : p.1 ≠ k2 := by rw [hp]; exact h
      simp [dictInsert, hp, dictGet, h, hp2]
    · by_cases hp2 : p.1 = k2
      · have hk2 : k2 ≠ k := fun he => h he.symm
        simp [dictInsert, hp, dictGet, hp2, hk2]
      · simp [dictInsert, hp, dictGet, hp2, ih]

theorem dictGet_fold {α : Type} : ∀ (kvs : List (Key × α)) (d : List (Key × α)) (k : Key),
    dictGet (kvs.foldl (fun acc p => dictInsert acc p.1 p.2) d) k
      = orElseO (lastKV kvs k) (dictGet d k) := by
  intro kvs
  induction kvs with
  | nil =>
    intro d k
    simp [lastKV, orElseO]
  | cons p t ih =>
    intro d k
    have hstep : (p :: t).foldl (fun acc q => dictInsert acc q.1 q.2) d
        = t.foldl (fun acc q => dictInsert acc q.1 q.2) (dictInsert d p.1 p.2) := rfl
    rw [hstep, ih, lastKV_cons]
    by_cases hp : p.1 = k
    · subst hp
      rw [if_pos rfl, dictGet_insert_same]
      rcases lastKV t p.1 with _ | x <;> rfl
    · rw [if_neg hp, dictGet_insert_other d p.2 hp]

theorem dictGet_byD (rows : List RawRow) (k : Key) :
    dictGet (buildByD rows) k = lastKV (rows.filterMap validDailyKV) k := by
  have h1 : buildByD rows
      = (rows.filterMap validDailyKV).foldl (fun acc p => dictInsert acc p.1 p.2) [] := by
    unfold buildByD
    generalize ([] : List (Key × RowIn)) = acc
    induction rows generalizing acc with
    | nil => rfl
    | cons r t ih =>
      rcases hv : validDailyKV r with _ | kv
      · simp only [List.foldl_cons, List.filterMap_cons, hv, ih]
      · simp only [List.foldl_cons, List.filterMap_cons, hv, ih, List.foldl_cons]
  rw [h1, dictGet_fold]
  show orElseO _ none = _
  rcases lastKV (rows.filterMap validDailyKV) k with _ | x <;> rfl

theorem dictGet_byYm (rows : List RawMRow) (k : Key) :
    dictGet (buildByYm rows) k = lastKV (rows.filterMap validMonthlyKV) k := by
  have h1 : buildByYm rows
      = (rows.filterMap validMonthlyKV).foldl (fun acc p => dictInsert acc p.1 p.2) [] := by
    unfold buildByYm
    generalize ([] : List (Key × MRowIn)) = acc
    induction rows generalizing acc with
    | nil => rfl
    | cons r t ih =>
      rcases hv : validMonthlyKV r with _ | kv
      · simp only [List.foldl_cons, List.filterMap_cons, hv, ih]
      · simp only [List.foldl_cons, List.filterMap_cons, hv, ih, List.foldl_cons]
  rw [h1, dictGet_fold]
  show orElseO _ none = _
  rcases lastKV (rows.filterMap validMonthlyKV) k with _ | x <;> rfl

theorem dictGet_isSome_iff {α : Type} : ∀ (d : List (Key × α)) (k : Key),
    (dictGet d k).isSome = true ↔ k ∈ dictKeys d := by
  intro d
  induction d with
  | nil => intro k; simp [dictGet, dictKeys]
  | cons p t ih =>
    intro k
    by_cases hp : p.1 = k
    · simp [dictGet, hp, dictKeys]
    · have := ih k
      simp only [dictGet, hp, if_false, dictKeys, List.map_cons, List.mem_cons] at this ⊢
      rw [this]
      constructor
      · exact Or.inr
      · rintro (h | h)
        · exact absurd h.symm hp
        · exact h

theorem lastKV_isSome_iff {α : Type} (kvs : List (Key × α)) (k : Key) :
    (lastKV kvs k).isSome = true ↔ ∃ kv ∈ kvs, kv.1 = k := by
  unfold lastKV
  rcases hl : (kvs.filter fun p => decide (p.1 = k)).getLast? with _ | q
  · rw [hl]
    simp only [Option.map_none', Option.isSome_none, Bool.false_eq_true, false_iff]
    rw [List.getLast?_eq_none_iff, List.filter_eq_nil_iff] at hl
    rintro ⟨kv, hmem, hkey⟩
    exact hl kv hmem (by simpa using hkey)
  · rw [hl]
    simp only [Option.map_some', Option.isSome_some, true_iff]
    have hq := List.mem_of_mem_getLast? hl
    have := List.mem_filter.mp hq
    exact ⟨q, this.1, by simpa using this.2⟩

theorem mem_keys_byD {rows : List RawRow} {k : Key} :
    k ∈ dictKeys (buildByD rows) ↔ ∃ kv ∈ rows.filterMap validDailyKV, kv.1 = k := by
  rw [← dictGet_isSome_iff, dictGet_byD, lastKV_isSome_iff]

theorem mem_keys_byYm {rows : List RawMRow} {k : Key} :
    k ∈ dictKeys (buildByYm rows) ↔ ∃ kv ∈ rows.filterMap validMonthlyKV, kv.1 = k := by
  rw [← dictGet_isSome_iff, dictGet_byYm, lastKV_isSome_iff]

/-! ### `min`/`max` over parsed dates -/

def dtMinL : List Dt → Option Dt
  | [] => none
  | x :: xs => some (xs.foldl (fun m q => if dtLtB q m then q else m) x)

def dtMaxL : List Dt → Option Dt
  | [] => none
  | x :: xs => some (xs.foldl (fun m q => if dtLtB m q then q else m) x)

theorem dtFoldMin_mem : ∀ (xs : List Dt) (x0 : Dt),
    xs.foldl (fun m q => if dtLtB q m then q else m) x0 = x0 ∨
      xs.foldl (fun m q => if dtLtB q m then q else m) x0 ∈ xs := by
  intro xs
  induction xs with
  | nil => intro x0; exact Or.inl rfl
  | cons b bs ih =>
    intro x0
    have hstep : (b :: bs).foldl (fun m q => if dtLtB q m then q else m) x0
        = bs.foldl (fun m q => if dtLtB q m then q else m) (if dtLtB b x0 = true then b else x0) :=
      rfl
    rw [hstep]
    rcases ih (if dtLtB b x0 = true then b else x0) with h | h
    · rw [h]
      split
      · exact Or.inr (List.mem_cons_self _ _)
      · exact Or.inl rfl
    · exact Or.inr (List.mem_cons_of_mem _ h)

theorem dtFoldMin_le : ∀ (xs : List Dt) (x0 q : Dt), (q = x0 ∨ q ∈ xs) →
    dtLeB (xs.foldl (fun m p => if dtLtB p m then p else m) x0) q = true := by
  intro xs
  induction xs with
  | nil =>
    intro x0 q hq
    rcases hq with rfl | hq
    · exact dtLeB_refl q
    · cases hq
  | cons b bs ih =>
    intro x0 q hq
    have hstep : (b :: bs).foldl (fun m p => if dtLtB p m then p else m) x0
        = bs.foldl (fun m p => if dtLtB p m then p else m) (if dtLtB b x0 = true then b else x0) :=
      rfl
    rw [hstep]
    have hacc : ∀ z, (z = x0 ∨ z = b) →
        dtLeB (if dtLtB b x0 = true then b else x0) z = true := by
      intro z hz
      rcases hz with rfl | rfl
      · split
        · next hlt => exact dtLeB_of_lt hlt
        · exact dtLeB_refl _
      · split
        · exact dtLeB_refl _
        · next hlt => simp [dtLeB, hlt]
    rcases hq with rfl | hq
    · exact dtLeB_trans (ih _ _ (Or.inl rfl)) (hacc _ (Or.inl rfl))
    · rcases List.mem_cons.mp hq with rfl | hq
      · exact dtLeB_trans (ih _ _ (Or.inl rfl)) (hacc _ (Or.inr rfl))
      · exact ih _ _ (Or.inr hq)

theorem dtFoldMax_mem : ∀ (xs : List Dt) (x0 : Dt),
    xs.foldl (fun m q => if dtLtB m q then q else m) x0 = x0 ∨
      xs.foldl (fun m q => if dtLtB m q then q else m) x0 ∈ xs := by
  intro xs
  induction xs with
  | nil => intro x0; exact Or.inl rfl
  | cons b bs ih =>
    intro x0
    have hstep : (b :: bs).foldl (fun m q => if dtLtB m q then q else m) x0
        = bs.foldl (fun m q => if dtLtB m q then q else m) (if dtLtB x0 b = true then b else x0) :=
      rfl
    rw [hstep]
    rcases ih (if dtLtB x0 b = true then b else x0) with h | h
    · rw [h]
      split
      · exact Or.inr (List.mem_cons_self _ _)
      · exact Or.inl rfl
    · exact Or.inr (List.mem_cons_of_mem _ h)

theorem dtFoldMax_ge : ∀ (xs : List Dt) (x0 q : Dt), (q = x0 ∨ q ∈ xs) →
    dtLeB q (xs.foldl (fun m p => if dtLtB m p then p else m) x0) = true := by
  intro xs
  induction xs with
  | nil =>
    intro x0 q hq
    rcases hq with rfl | hq
    · exact dtLeB_refl q
    · cases hq
  | cons b bs ih =>
    intro x0 q hq
    have hstep : (b :: bs).foldl (fun m p => if dtLtB m p then p else m) x0
        = bs.foldl (fun m p => if dtLtB m p then p else m) (if dtLtB x0 b = true then b else x0) :=
      rfl
    rw [hstep]
    have hacc : ∀ z, (z = x0 ∨ z = b) →
        dtLeB z (if dtLtB x0 b = true then b else x0) = true := by
      intro z hz
      rcases hz with rfl | rfl
      · split
        · next hlt => exact dtLeB_of_lt hlt
        · exact dtLeB_refl _
      · split
        · exact dtLeB_refl _
        · next hlt => simp [dtLeB, hlt]
    rcases hq with rfl | hq
    · exact dtLeB_trans (hacc _ (Or.inl rfl)) (ih _ _ (Or.inl rfl))
    · rcases List.mem_cons.mp hq with rfl | hq
      · exact dtLeB_trans (hacc _ (Or.inr rfl)) (ih _ _ (Or.inl rfl))
      · exact ih _ _ (Or.inr hq)

theorem dtMinL_mem {l : List Dt} {m : Dt} (h : dtMinL l = some m) : m ∈ l := by
  rcases l with _ | ⟨x, xs⟩
  · simp [dtMinL] at h
  · simp only [dtMinL, Option.some.injEq] at h
    subst h
    rcases dtFoldMin_mem xs x with h2 | h2
    · rw [h2]; exact List.mem_cons_self _ _
    · exact List.mem_cons_of_mem _ h2

theorem dtMinL_le {l : List Dt} {m : Dt} (h : dtMinL l = some m) :
    ∀ q ∈ l, dtLeB m q = true := by
  rcases l with _ | ⟨x, xs⟩
  · simp [dtMinL] at h
  · simp only [dtMinL, Option.some.injEq] at h
    subst h
    intro q hq
    rcases List.mem_cons.mp hq with rfl | hq
    · exact dtFoldMin_le xs q q (Or.inl rfl)
    · exact dtFoldMin_le xs x q (Or.inr hq)

theorem dtMaxL_mem {l : List Dt} {m : Dt} (h : dtMaxL l = some m) : m ∈ l := by
  rcases l with _ | ⟨x, xs⟩
  · simp [dtMaxL] at h
  · simp only [dtMaxL, Option.some.injEq] at h
    subst h
    rcases dtFoldMax_mem xs x with h2 | h2
    · rw [h2]; exact List.mem_cons_self _ _
    · exact List.mem_cons_of_mem _ h2

theorem dtMaxL_ge {l : List Dt} {m : Dt} (h : dtMaxL l = some m) :
    ∀ q ∈ l, dtLeB q m = true := by
  rcases l with _ | ⟨x, xs⟩
  · simp [dtMaxL] at h
  · simp only [dtMaxL, Option.some.injEq] at h
    subst h
    intro q hq
    rcases List.mem_cons.mp hq with rfl | hq
    · exact dtFoldMax_ge xs q q (Or.inl rfl)
    · exact dtFoldMax_ge xs x q (Or.inr hq)

theorem dtMinL_isSome {l : List Dt} (h : l ≠ []) : (dtMinL l).isSome = true := by
  rcases l with _ | ⟨x, xs⟩
  · exact absurd rfl h
  · rfl

theorem dtMaxL_isSome {l : List Dt} (h : l ≠ []) : (dtMaxL l).isSome = true := by
  rcases l with _ | ⟨x, xs⟩
  · exact absurd rfl h
  · rfl

/-! ### `fill_daily_series`: the SeriesBuilder contract -/

/-- Scope of the amended SeriesBuilder claim: a row whose (stripped) date key
parses carries it in the canonical zero-padded form `strftime` emits, dated
before 9999-12-31 (the `datetime` bound at which the source loop overflows). -/
def rowDailyOkB (r : RawRow) : Bool :=
  match r with
  | none => true
  | some row =>
    match parseYMD (rowKey row) with
    | none => true
    | some a => decide (rowKey row = fmtD a) && dtLtB a maxDt

/-- The dates of the rows `fill_daily_series` keeps. -/
def parsedDates (rows : List RawRow) : List Dt :=
  (rows.filterMap validDailyKV).filterMap (fun kv => parseYMD kv.1)

/-- The income value the filled series must carry on day `dt`: the
last-written row for that key, defaulting to 0. -/
def incAt (rows : List RawRow) (dt : Dt) : ℚ :=
  safeFloat ((lastKV (rows.filterMap validDailyKV) (fmtD dt)).bind (fun r => r.income))

/-- The expense analogue of `incAt`. -/
def expAt (rows : List RawRow) (dt : Dt) : ℚ :=
  safeFloat ((lastKV (rows.filterMap validDailyKV) (fmtD dt)).bind (fun r => r.expense))

theorem validDailyKV_shape {r : RawRow} {kv : Key × RowIn} (h : validDailyKV r = some kv) :
    r = some kv.2 ∧ kv.1 = rowKey kv.2 ∧ (parseYMD kv.1).isSome = true := by
  rcases r with _ | row
  · simp [validDailyKV] at h
  · unfold validDailyKV at h
    dsimp only at h
    split at h
    · simp at h
    · split at h
      · next hp =>
        simp only [Option.some.injEq] at h
        subst h
        exact ⟨rfl, rfl, hp⟩
      · simp at h

theorem canon_key {rows : List RawRow} (hcanon : ∀ r ∈ rows, rowDailyOkB r = true)
    {kv : Key × RowIn} (hkv : kv ∈ rows.filterMap validDailyKV) :
    ∃ a, parseYMD kv.1 = some a ∧ kv.1 = fmtD a ∧ dtLtB a maxDt = true ∧ DtValid a := by
  rcases List.mem_filterMap.mp hkv with ⟨r, hr, hv⟩
  obtain ⟨hr2, hkey, hsome⟩ := validDailyKV_shape hv
  rcases hp : parseYMD kv.1 with _ | a
  · rw [hp] at hsome; simp at hsome
  · have hc := hcanon r hr
    rw [hr2] at hc
    unfold rowDailyOkB at hc
    dsimp only at hc
    rw [← hkey, hp] at hc
    dsimp only at hc
    simp only [Bool.and_eq_true, decide_eq_true_eq] at hc
    exact ⟨a, rfl, hkey ▸ hc.1, hc.2, parseYMD_valid hp⟩

theorem mem_parsedDates {rows : List RawRow} {q : Dt} :
    q ∈ parsedDates rows ↔ ∃ kv ∈ rows.filterMap validDailyKV, parseYMD kv.1 = some q := by
  unfold parsedDates
  exact List.mem_filterMap

theorem parsedDates_nil_iff {rows : List RawRow} :
    parsedDates rows = [] ↔ rows.filterMap validDailyKV = [] := by
  unfold parsedDates
  constructor
  · intro h
    rcases hk : rows.filterMap validDailyKV with _ | ⟨kv, t⟩
    · rfl
    · exfalso
      have hsome := (validDailyKV_shape (List.mem_filterMap.mp
        (hk ▸ List.mem_cons_self kv t)).choose_spec.2).2.2
      rcases hp : parseYMD kv.1 with _ | a
      · rw [hp] at hsome; simp at hsome
      · have : a ∈ (rows.filterMap validDailyKV).filterMap (fun kv => parseYMD kv.1) :=
          List.mem_filterMap.mpr ⟨kv, hk ▸ List.mem_cons_self kv t, hp⟩
        rw [h] at this
        cases this
  · intro h
    rw [h]
    rfl

/-- The full SeriesBuilder contract for `fill_daily_series` on canonical rows:
no exception, three parallel sequences built over the successor-chain of days
from the minimum to the maximum parsed date, values looked up last-wins,
missing days zero (via `incAt`/`expAt`). -/
theorem fillDaily_spec (rows : List RawRow)
    (hcanon : ∀ r ∈ rows, rowDailyOkB r = true) :
    ∃ ds : List Dt,
      fillDailySeries rows = .ok (ds.map fmtD, ds.map (incAt rows), ds.map (expAt rows)) ∧
      (∀ x ∈ ds, DtValid x) ∧
      (parsedDates rows = [] ↔ ds = []) ∧
      (∀ dmin dmax, dtMinL (parsedDates rows) = some dmin →
        dtMaxL (parsedDates rows) = some dmax →
        ds.head? = some dmin ∧ ds.getLast? = some dmax ∧
        List.Chain' (fun a b => b = nextDay a) ds ∧
        List.Pairwise (fun a b => dtLtB a b = true) ds ∧
        (∀ q, DtValid q → dtLeB dmin q = true → dtLeB q dmax = true → q ∈ ds)) := by
  by_cases hrows : rows = []
  · subst hrows
    refine ⟨[], rfl, by simp, by simp [parsedDates], ?_⟩
    intro dmin dmax h1 _
    simp [parsedDates, dtMinL] at h1
  · rcases hks : dictKeys (buildByD rows) with _ | ⟨k0, ks⟩
    · have hkvs : rows.filterMap validDailyKV = [] := by
        rcases hk : rows.filterMap validDailyKV with _ | ⟨kv, t⟩
        · rfl
        · exfalso
          have : kv.1 ∈ dictKeys (buildByD rows) :=
            mem_keys_byD.mpr ⟨kv, hk ▸ List.mem_cons_self kv t, rfl⟩
          rw [hks] at this
          cases this
      have hpd : parsedDates rows = [] := parsedDates_nil_iff.mpr hkvs
      refine ⟨[], ?_, by simp, by simp [hpd], ?_⟩
      · unfold fillDailySeries
        rw [if_neg hrows, hks]
        rfl
      · intro dmin dmax h1 _
        rw [hpd] at h1
        simp [dtMinL] at h1
    · -- main branch: at least one valid row
      have hkeys_mem : ∀ k, (k = k0 ∨ k ∈ ks) → k ∈ dictKeys (buildByD rows) := by
        intro k hk
        rw [hks]
        rcases hk with rfl | hk
        · exact List.mem_cons_self _ _
        · exact List.mem_cons_of_mem _ hk
      have hcanon_key : ∀ k, k ∈ dictKeys (buildByD rows) →
          ∃ a, parseYMD k = some a ∧ k = fmtD a ∧ dtLtB a maxDt = true ∧ DtValid a := by
        intro k hk
        rcases mem_keys_byD.mp hk with ⟨kv, hkv, hk1⟩
        rcases canon_key hcanon hkv with ⟨a, h1, h2, h3, h4⟩
        exact ⟨a, hk1 ▸ h1, hk1 ▸ h2, h3, h4⟩
      have hminmem0 := lexMin_mem ks k0
      have hmaxmem0 := lexMax_mem ks k0
      obtain ⟨amin, hpmin, hfmin, hltmin, hvmin⟩ :=
        hcanon_key (lexMin k0 ks) (hkeys_mem _ hminmem0)
      obtain ⟨amax, hpmax, hfmax, hltmax, hvmax⟩ :=
        hcanon_key (lexMax k0 ks) (hkeys_mem _ hmaxmem0)
      -- every parsed date comes from a canonical dict key and is bounded
      have hdate_of_mem : ∀ q ∈ parsedDates rows,
          DtValid q ∧ fmtD q ∈ dictKeys (buildByD rows) := by
        intro q hq
        rcases mem_parsedDates.mp hq with ⟨kv, hkv, hpq⟩
        rcases canon_key hcanon hkv with ⟨a, h1, h2, _, h4⟩
        rw [hpq] at h1
        have haq : q = a := by
          simpa using h1
        subst haq
        exact ⟨h4, mem_keys_byD.mpr ⟨kv, hkv, h2⟩⟩
      have hlb : ∀ q ∈ parsedDates rows, dtLeB amin q = true := by
        intro q hq
        obtain ⟨hvq, hmemk⟩ := hdate_of_mem q hq
        have hle := lexMin_le ks k0 (fmtD q) (by
          have := hmemk
          rw [hks] at this
          rcases List.mem_cons.mp this with h | h
          · exact Or.inl h
          · exact Or.inr h)
        rw [hfmin] at hle
        rw [lexLe_fmtD hvmin hvq] at hle
        exact hle
      have hub : ∀ q ∈ parsedDates rows, dtLeB q amax = true := by
        intro q hq
        obtain ⟨hvq, hmemk⟩ := hdate_of_mem q hq
        have hle := lexMax_ge ks k0 (fmtD q) (by
          have := hmemk
          rw [hks] at this
          rcases List.mem_cons.mp this with h | h
          · exact Or.inl h
          · exact Or.inr h)
        rw [hfmax] at hle
        rw [lexLe_fmtD hvq hvmax] at hle
        exact hle
      have hminmem : amin ∈ parsedDates rows := by
        rcases mem_keys_byD.mp (hkeys_mem _ hminmem0) with ⟨kv, hkv, hk1⟩
        exact mem_parsedDates.mpr ⟨kv, hkv, hk1 ▸ hpmin⟩
      have hmaxmem : amax ∈ parsedDates rows := by
        rcases mem_keys_byD.mp (hkeys_mem _ hmaxmem0) with ⟨kv, hkv, hk1⟩
        exact mem_parsedDates.mpr ⟨kv, hkv, hk1 ▸ hpmax⟩
      have hminmax : dtLeB amin amax = true := hlb amax hmaxmem
      have hmax_ne : amax ≠ maxDt := by
        intro he
        rw [he, dtLtB_irrefl] at hltmax
        cases hltmax
      -- evaluate the function
      have hmono : dtM amin ≤ dtM amax := dtM_mono hvmin.1 hvmax.1 hminmax
      have hfuel : dtM amax < dtM amin + (dtM amax + 1 - dtM amin) := by omega
      refine ⟨dateRange (dtM amax + 1 - dtM amin) amin amax, ?_, ?_, ?_, ?_⟩
      · unfold fillDailySeries
        rw [if_neg hrows, hks]
        show fillDailyFrom (buildByD rows) (lexMin k0 ks) (lexMax k0 ks) = _
        unfold fillDailyFrom
        rw [hpmin, hpmax]
        show (if dtLeB amin amax = true ∧ amax = maxDt then _ else _) = _
        rw [if_neg (by
          rintro ⟨_, h2⟩
          exact hmax_ne h2)]
        have hinc : (fun dt => safeFloat ((dictGet (buildByD rows) (fmtD dt)).bind
            (fun r => r.income))) = incAt rows := by
          funext dt
          rw [dictGet_byD]
          rfl
        have hexp : (fun dt => safeFloat ((dictGet (buildByD rows) (fmtD dt)).bind
            (fun r => r.expense))) = expAt rows := by
          funext dt
          rw [dictGet_byD]
          rfl
        rw [hinc, hexp]
        rfl
      · intro x hx
        obtain ⟨hok, _, hxle⟩ := dateRange_mem hvmin.1 x hx
        refine ⟨hok, ?_⟩
        have h1 : x.y ≤ amax.y := by
          rw [dtLeB_iff] at hxle
          omega
        have h2 := hvmax.2
        omega
      · constructor
        · intro h
          rw [h] at hminmem
          cases hminmem
        · intro h
          have hh := @dateRange_head (dtM amax + 1 - dtM amin) _ _ hminmax (by omega)
          rw [h] at hh
          cases hh
      · intro dmin dmax h1 h2
        have hdmin : dmin = amin := by
          have hm1 := dtMinL_mem h1
          have hb1 := dtMinL_le h1 amin hminmem
          have hb2 := hlb dmin hm1
          exact dtLeB_antisymm hb1 hb2
        have hdmax : dmax = amax := by
          have hm1 := dtMaxL_mem h2
          have hb1 := dtMaxL_ge h2 amax hmaxmem
          have hb2 := hub dmax hm1
          exact dtLeB_antisymm hb2 hb1
        subst hdmin
        subst hdmax
        refine ⟨dateRange_head hminmax (by omega),
          dateRange_getLast hvmin.1 hvmax.1 hminmax hfuel,
          dateRange_chain _ _ _,
          dateRange_pairwise,
          ?_⟩
        intro q hvq hq1 hq2
        exact dateRange_between hvmin.1 hvmax.1 hvq.1 hq1 hq2 hfuel

end FinanceAI

namespace FinanceAI

/-! ### Order facts: year-month pairs -/

theorem ymLtB_iff {a b : Ym} : ymLtB a b = true ↔ (a.y < b.y ∨ (a.y = b.y ∧ a.m < b.m)) := by
  simp [ymLtB]

theorem ymLeB_iff {a b : Ym} : ymLeB a b = true ↔ (a.y < b.y ∨ (a.y = b.y ∧ a.m ≤ b.m)) := by
  simp [ymLeB]

theorem ymLeB_refl (a : Ym) : ymLeB a a = true := by
  rw [ymLeB_iff]; omega

theorem ymLeB_trans {a b c : Ym} (h1 : ymLeB a b = true) (h2 : ymLeB b c = true) :
    ymLeB a c = true := by
  rw [ymLeB_iff] at h1 h2 ⊢; omega

theorem ymLeB_antisymm {a b : Ym} (h1 : ymLeB a b = true) (h2 : ymLeB b a = true) :
    a = b := by
  rw [ymLeB_iff] at h1 h2
  rcases a with ⟨ay, am⟩
  rcases b with ⟨by2, bm⟩
  simp only [Ym.mk.injEq]
  simp only at h1 h2
  omega

theorem ymLeB_of_lt {a b : Ym} (h : ymLtB a b = true) : ymLeB a b = true := by
  rw [ymLtB_iff] at h; rw [ymLeB_iff]; omega

theorem ymLtB_trans {a b c : Ym} (h1 : ymLtB a b = true) (h2 : ymLtB b c = true) :
    ymLtB a c = true := by
  rw [ymLtB_iff] at h1 h2 ⊢; omega

theorem ymLtB_irrefl (a : Ym) : ymLtB a a = false := by
  have : ¬ ymLtB a a = true := by rw [ymLtB_iff]; omega
  exact Bool.not_eq_true _ |>.mp this

theorem ymLtB_of_ne_of_le {a b : Ym} (hne : a ≠ b) (h : ymLeB a b = true) :
    ymLtB a b = true := by
  rw [ymLeB_iff] at h
  rw [ymLtB_iff]
  rcases a with ⟨ay, am⟩
  rcases b with ⟨by2, bm⟩
  simp only at h ⊢
  simp only [ne_eq, Ym.mk.injEq, not_and] at hne
  by_contra hcon
  have : ay = by2 ∧ am = bm := by omega
  exact hne this.1 this.2

theorem nextYm_ok {a : Ym} (h : YmOk a) : YmOk (nextYm a) := by
  rcases a with ⟨ay, am⟩
  obtain ⟨h1, h2⟩ := h
  simp only at h1 h2
  unfold YmOk nextYm
  split
  · next hc => dsimp only at hc ⊢; omega
  · next hc => dsimp only at hc ⊢; omega

theorem ymLt_nextYm (a : Ym) : ymLtB a (nextYm a) = true := by
  rcases a with ⟨ay, am⟩
  rw [ymLtB_iff]
  unfold nextYm
  split
  · dsimp only; omega
  · dsimp only; omega

theorem ymM_nextYm {a : Ym} (h : YmOk a) : ymM a < ymM (nextYm a) := by
  rcases a with ⟨ay, am⟩
  obtain ⟨h1, h2⟩ := h
  simp only at h1 h2
  unfold ymM nextYm
  split
  · next hc => dsimp only at hc ⊢; omega
  · next hc => dsimp only at hc ⊢; omega

theorem ymM_mono {a b : Ym} (ha : YmOk a) (hb : YmOk b) (h : ymLeB a b = true) :
    ymM a ≤ ymM b := by
  rcases a with ⟨ay, am⟩
  rcases b with ⟨by2, bm⟩
  obtain ⟨ha1, ha2⟩ := ha
  obtain ⟨hb1, hb2⟩ := hb
  simp only at ha1 ha2 hb1 hb2
  rw [ymLeB_iff] at h
  dsimp only at h
  unfold ymM
  dsimp only
  omega

theorem nextYm_min {a q : Ym} (ha : YmOk a) (hq : YmOk q) (h : ymLtB a q = true) :
    ymLeB (nextYm a) q = true := by
  rcases a with ⟨ay, am⟩
  rcases q with ⟨qy, qm⟩
  obtain ⟨ha1, ha2⟩ := ha
  obtain ⟨hq1, hq2⟩ := hq
  simp only at ha1 ha2 hq1 hq2
  rw [ymLtB_iff] at h
  simp only at h
  unfold nextYm
  split
  · next hc =>
    dsimp only at hc
    rw [ymLeB_iff]
    dsimp only
    omega
  · next hc =>
    dsimp only at hc
    rw [ymLeB_iff]
    dsimp only
    omega

theorem nextYm_not_le (a : Ym) : ymLeB (nextYm a) a = false := by
  have h := ymLt_nextYm a
  rw [ymLtB_iff] at h
  have : ¬ ymLeB (nextYm a) a = true := by rw [ymLeB_iff]; omega
  exact Bool.not_eq_true _ |>.mp this

/-! ### The `month_seq` loop -/

theorem ymRange_chain (fuel : Nat) : ∀ cur e : Ym,
    List.Chain' (fun a b => b = nextYm a) (ymRange fuel cur e) := by
  induction fuel with
  | zero => intro cur e; exact List.chain'_nil
  | succ f ih =>
    intro cur e
    show List.Chain' _ (if ymLeB cur e = true then cur :: ymRange f (nextYm cur) e else [])
    split
    · rcases hf : ymRange f (nextYm cur) e with _ | ⟨x, xs⟩
      · simp
      · have hx : x = nextYm cur := by
          cases f with
          | zero => simp [ymRange] at hf
          | succ f2 =>
            unfold ymRange at hf
            rcases h : ymLeB (nextYm cur) e with _ | _ <;> rw [h] at hf <;> simp at hf
            exact hf.1.symm
        have := ih (nextYm cur) e
        rw [hf] at this
        exact List.Chain'.cons (by rw [hx]) this
    · exact List.chain'_nil

theorem ymRange_head {fuel : Nat} {cur e : Ym} (hle : ymLeB cur e = true)
    (hf : 0 < fuel) : (ymRange fuel cur e).head? = some cur := by
  cases fuel with
  | zero => omega
  | succ f => simp [ymRange, hle]

theorem ymRange_neg {fuel : Nat} {cur e : Ym} (h : ymLeB cur e = false) :
    ymRange fuel cur e = [] := by
  cases fuel with
  | zero => rfl
  | succ f => simp [ymRange, h]

theorem ymRange_mem {fuel : Nat} : ∀ {cur e : Ym}, YmOk cur →
    ∀ x ∈ ymRange fuel cur e, YmOk x ∧ ymLeB cur x = true ∧ ymLeB x e = true := by
  induction fuel with
  | zero => intro cur e _ x hx; simp [ymRange] at hx
  | succ f ih =>
    intro cur e hok x hx
    unfold ymRange at hx
    rcases h : ymLeB cur e with _ | _
    · rw [h] at hx; simp at hx
    · rw [h] at hx
      rcases List.mem_cons.mp hx with rfl | hx
      · exact ⟨hok, ymLeB_refl x, h⟩
      · obtain ⟨h1, h2, h3⟩ := ih (nextYm_ok hok) x hx
        exact ⟨h1, ymLeB_trans (ymLeB_of_lt (ymLt_nextYm cur)) h2, h3⟩

theorem ymRange_getLast {fuel : Nat} : ∀ {cur e : Ym}, YmOk cur → YmOk e →
    ymLeB cur e = true → ymM e < ymM cur + fuel →
    (ymRange fuel cur e).getLast? = some e := by
  induction fuel with
  | zero =>
    intro cur e hc hd hle hfuel
    exfalso
    have := ymM_mono hc hd hle
    omega
  | succ f ih =>
    intro cur e hc hd hle hfuel
    unfold ymRange
    rw [hle]
    simp only [if_true]
    by_cases heq : cur = e
    · subst heq
      rw [ymRange_neg (nextYm_not_le cur)]
      rfl
    · have hlt : ymLtB cur e = true := ymLtB_of_ne_of_le heq hle
      have hnle : ymLeB (nextYm cur) e = true := nextYm_min hc hd hlt
      have hrec := ih (nextYm_ok hc) hd hnle (by have := ymM_nextYm hc; omega)
      rcases hnil : ymRange f (nextYm cur) e with _ | ⟨x, xs⟩
      · rw [hnil] at hrec; simp at hrec
      · rw [hnil] at hrec
        rw [List.getLast?_cons_cons]
        exact hrec

theorem ymRange_between {fuel : Nat} : ∀ {cur e q : Ym}, YmOk cur → YmOk e → YmOk q →
    ymLeB cur q = true → ymLeB q e = true → ymM e < ymM cur + fuel →
    q ∈ ymRange fuel cur e := by
  induction fuel with
  | zero =>
    intro cur e q hc hd hq h1 h2 hfuel
    exfalso
    have hcd := ymLeB_trans h1 h2
    have hmono := ymM_mono hc hd hcd
    omega
  | succ f ih =>
    intro cur e q hc hd hq h1 h2 hfuel
    have hcd := ymLeB_trans h1 h2
    unfold ymRange
    rw [hcd]
    simp only [if_true]
    by_cases heq : cur = q
    · subst heq; exact List.mem_cons_self _ _
    · have hlt : ymLtB cur q = true := ymLtB_of_ne_of_le heq h1
      have hnq : ymLeB (nextYm cur) q = true := nextYm_min hc hq hlt
      exact List.mem_cons_of_mem _
        (ih (nextYm_ok hc) hd hq hnq h2 (by have := ymM_nextYm hc; omega))

theorem ymRange_pairwise {fuel : Nat} {cur e : Ym} :
    List.Pairwise (fun a b => ymLtB a b = true) (ymRange fuel cur e) := by
  haveI : IsTrans Ym (fun a b => ymLtB a b = true) := ⟨fun a b c => ymLtB_trans⟩
  apply List.chain'_iff_pairwise.mp
  refine List.Chain'.imp ?_ (ymRange_chain fuel cur e)
  intro a b hab
  rw [hab]
  exact ymLt_nextYm a

end FinanceAI

namespace FinanceAI

/-! ### Canonical `YYYY-MM` keys -/

theorem fmtYM_append_01 (y m : Nat) :
    fmtYM y m ++ ([45, 48, 49] : List Nat) = fmtD ⟨y, m, 1⟩ := by
  simp [fmtYM, fmtD, pad2, dig, List.append_assoc]

theorem parseYM_fmtYM {y m : Nat} (h1 : 1 ≤ y) (h2 : y ≤ 9999) (h3 : 1 ≤ m) (h4 : m ≤ 12) :
    parseYM (fmtYM y m) = some ⟨y, m, 1⟩ := by
  unfold parseYM
  rw [fmtYM_append_01]
  exact parseYMD_fmtD ⟨⟨h1, h3, h4, le_refl 1, daysInMonth_pos y m⟩, h2⟩

theorem lexLt_fmtYM {a b : Ym} (ha1 : 1 ≤ a.y) (ha2 : a.y ≤ 9999) (ha3 : a.m ≤ 12)
    (hb1 : 1 ≤ b.y) (hb2 : b.y ≤ 9999) (hb3 : b.m ≤ 12) :
    lexLt (fmtYM a.y a.m) (fmtYM b.y b.m) = ymLtB a b := by
  have ham : a.m ≤ 99 := by omega
  have hbm : b.m ≤ 99 := by omega
  apply bool_eq_of_iff
  unfold fmtYM
  rw [lexLt_append_same (by simp [pad4]) _ _]
  simp only [Bool.or_eq_true, Bool.and_eq_true, decide_eq_true_eq]
  rw [lexLt_pad4_iff ha2 hb2, pad4_inj ha2 hb2]
  have htail : lexLt (45 :: pad2 a.m) (45 :: pad2 b.m) = true ↔ a.m < b.m := by
    unfold lexLt
    simp only [Bool.or_eq_true, Bool.and_eq_true, decide_eq_true_eq, lt_self_iff_false,
      false_or, true_and]
    exact lexLt_pad2_iff ham hbm
  rw [htail, ymLtB_iff]

theorem lexLe_fmtYM {a b : Ym} (ha1 : 1 ≤ a.y) (ha2 : a.y ≤ 9999) (ha3 : a.m ≤ 12)
    (hb1 : 1 ≤ b.y) (hb2 : b.y ≤ 9999) (hb3 : b.m ≤ 12) :
    lexLe (fmtYM a.y a.m) (fmtYM b.y b.m) = true ↔ ymLeB a b = true := by
  unfold lexLe
  rw [lexLt_fmtYM hb1 hb2 hb3 ha1 ha2 ha3]
  simp only [Bool.not_eq_true']
  constructor
  · intro h
    have h2 : ¬ ymLtB b a = true := by rw [h]; simp
    rw [ymLtB_iff] at h2
    rw [ymLeB_iff]
    omega
  · intro h
    rw [ymLeB_iff] at h
    have h2 : ¬ ymLtB b a = true := by rw [ymLtB_iff]; omega
    exact Bool.not_eq_true _ |>.mp h2

theorem fmtYM_inj {a b : Ym} (ha1 : 1 ≤ a.y) (ha2 : a.y ≤ 9999) (ha3 : 1 ≤ a.m)
    (ha4 : a.m ≤ 12) (hb1 : 1 ≤ b.y) (hb2 : b.y ≤ 9999) (hb3 : 1 ≤ b.m) (hb4 : b.m ≤ 12)
    (h : fmtYM a.y a.m = fmtYM b.y b.m) : a = b := by
  have h1 := parseYM_fmtYM ha1 ha2 ha3 ha4
  have h2 := parseYM_fmtYM hb1 hb2 hb3 hb4
  rw [h, h2] at h1
  rcases a with ⟨ay, am⟩
  rcases b with ⟨by2, bm⟩
  simp only [Option.some.injEq, Dt.mk.injEq, and_true] at h1
  simp only [Ym.mk.injEq]
  exact ⟨h1.1.symm, h1.2.symm⟩

theorem isSpaceCode_dig (n : Nat) : isSpaceCode (dig n) = false := by
  unfold isSpaceCode dig
  simp only [Bool.or_eq_false_iff, decide_eq_false_iff_not]
  omega

theorem dropWhile_space_eq {l : List Nat} (h : ∀ c ∈ l, isSpaceCode c = false) :
    List.dropWhile isSpaceCode l = l := by
  rcases l with _ | ⟨c, t⟩
  · rfl
  · rw [List.dropWhile_cons, h c (List.mem_cons_self _ _)]
    simp

theorem strip_noSpace {l : List Nat} (h : ∀ c ∈ l, isSpaceCode c = false) :
    strip l = l := by
  unfold strip
  rw [dropWhile_space_eq h, dropWhile_space_eq (by
    intro c hc
    exact h c (List.mem_reverse.mp hc)), List.reverse_reverse]

theorem mem_pad4_dig {y c : Nat} (h : c ∈ pad4 y) : ∃ n, c = dig n := by
  simp only [pad4, List.mem_cons, List.not_mem_nil, or_false] at h
  rcases h with h | h | h | h
  · exact ⟨y / 1000, h⟩
  · exact ⟨y / 100, h⟩
  · exact ⟨y / 10, h⟩
  · exact ⟨y, h⟩

theorem mem_pad2_dig {y c : Nat} (h : c ∈ pad2 y) : ∃ n, c = dig n := by
  simp only [pad2, List.mem_cons, List.not_mem_nil, or_false] at h
  rcases h with h | h
  · exact ⟨y / 10, h⟩
  · exact ⟨y, h⟩

theorem digitsVal_pad4 {y : Nat} (hy : y ≤ 9999) : digitsVal (pad4 y) = some y := by
  have hx1 : y / 10 / 10 = y / 100 := by rw [Nat.div_div_eq_div_mul]
  have hx2 : y / 100 / 10 = y / 1000 := by rw [Nat.div_div_eq_div_mul]
  have hx3 : y / 1000 / 10 = y / 10000 := by rw [Nat.div_div_eq_div_mul]
  have hcond : pad4 y ≠ [] ∧ (pad4 y).all isDig = true := by
    refine ⟨by simp [pad4], ?_⟩
    rw [List.all_eq_true]
    intro c hc
    rcases mem_pad4_dig hc with ⟨n, rfl⟩
    exact isDig_dig n
  unfold digitsVal
  rw [if_pos hcond]
  simp only [pad4, List.foldl_cons, List.foldl_nil, dig, Option.some.injEq]
  omega

theorem digitsVal_pad2 {m : Nat} (hm : m ≤ 99) : digitsVal (pad2 m) = some m := by
  have hcond : pad2 m ≠ [] ∧ (pad2 m).all isDig = true := by
    refine ⟨by simp [pad2], ?_⟩
    rw [List.all_eq_true]
    intro c hc
    rcases mem_pad2_dig hc with ⟨n, rfl⟩
    exact isDig_dig n
  unfold digitsVal
  rw [if_pos hcond]
  simp only [pad2, List.foldl_cons, List.foldl_nil, dig, Option.some.injEq]
  omega

theorem intPy_pad4 {y : Nat} (hy : y ≤ 9999) : intPy (pad4 y) = some (y : Int) := by
  have hs : strip (pad4 y) = pad4 y := strip_noSpace (by
    intro c hc
    rcases mem_pad4_dig hc with ⟨n, rfl⟩
    exact isSpaceCode_dig n)
  have h43 : ¬ dig (y / 1000) = 43 := by unfold dig; omega
  have h45 : ¬ dig (y / 1000) = 45 := by unfold dig; omega
  have hshape : pad4 y = dig (y / 1000) :: [dig (y / 100), dig (y / 10), dig y] := rfl
  unfold intPy
  rw [hs, hshape]
  dsimp only
  rw [if_neg h43, if_neg h45, ← hshape, digitsVal_pad4 hy]
  rfl

theorem intPy_pad2 {m : Nat} (hm : m ≤ 99) : intPy (pad2 m) = some (m : Int) := by
  have hs : strip (pad2 m) = pad2 m := strip_noSpace (by
    intro c hc
    rcases mem_pad2_dig hc with ⟨n, rfl⟩
    exact isSpaceCode_dig n)
  have h43 : ¬ dig (m / 10) = 43 := by unfold dig; omega
  have h45 : ¬ dig (m / 10) = 45 := by unfold dig; omega
  have hshape : pad2 m = dig (m / 10) :: [dig m] := rfl
  unfold intPy
  rw [hs, hshape]
  dsimp only
  rw [if_neg h43, if_neg h45, ← hshape, digitsVal_pad2 hm]
  rfl

theorem splitOn45_cons (c : Nat) (t : List Nat) :
    splitOn45 (c :: t) = if c = 45 then [] :: splitOn45 t
      else match splitOn45 t with
        | [] => [[c]]
        | h :: r => (c :: h) :: r := rfl

theorem splitOn45_noDash {l : List Nat} (h : ∀ c ∈ l, c ≠ 45) : splitOn45 l = [l] := by
  induction l with
  | nil => rfl
  | cons c t ih =>
    rw [splitOn45_cons, if_neg (h c (List.mem_cons_self _ _)),
      ih (fun x hx => h x (List.mem_cons_of_mem _ hx))]

theorem splitOn45_append {l r : List Nat} (h : ∀ c ∈ l, c ≠ 45) :
    splitOn45 (l ++ 45 :: r) = l :: splitOn45 r := by
  induction l with
  | nil =>
    show splitOn45 (45 :: r) = [] :: splitOn45 r
    rw [splitOn45_cons, if_pos rfl]
  | cons c t ih =>
    show splitOn45 (c :: (t ++ 45 :: r)) = (c :: t) :: splitOn45 r
    rw [splitOn45_cons, if_neg (h c (List.mem_cons_self _ _)),
      ih (fun x hx => h x (List.mem_cons_of_mem _ hx))]

theorem dig_ne_45 (n : Nat) : dig n ≠ 45 := by unfold dig; omega

theorem ymComponents_fmtYM {y m : Nat} (hy : y ≤ 9999) (hm : m ≤ 99) :
    ymComponents (fmtYM y m) = some ⟨y, m⟩ := by
  unfold ymComponents
  have hsplit : splitOn45 (fmtYM y m) = [pad4 y, pad2 m] := by
    show splitOn45 (pad4 y ++ 45 :: pad2 m) = _
    rw [splitOn45_append (by
      intro c hc
      rcases mem_pad4_dig hc with ⟨n, rfl⟩
      exact dig_ne_45 n)]
    rw [splitOn45_noDash (by
      intro c hc
      rcases mem_pad2_dig hc with ⟨n, rfl⟩
      exact dig_ne_45 n)]
  rw [hsplit]
  show (match intPy (pad4 y), intPy (pad2 m) with
    | some ya, some mb => some (⟨ya.toNat, mb.toNat⟩ : Ym)
    | _, _ => none) = _
  rw [intPy_pad4 hy, intPy_pad2 hm]
  simp

end FinanceAI

namespace FinanceAI

/-! ### `min`/`max` over parsed months -/

def ymMinL : List Ym → Option Ym
  | [] => none
  | x :: xs => some (xs.foldl (fun m q => if ymLtB q m then q else m) x)

def ymMaxL : List Ym → Option Ym
  | [] => none
  | x :: xs => some (xs.foldl (fun m q => if ymLtB m q then q else m) x)

theorem ymFoldMin_mem : ∀ (xs : List Ym) (x0 : Ym),
    xs.foldl (fun m q => if ymLtB q m then q else m) x0 = x0 ∨
      xs.foldl (fun m q => if ymLtB q m then q else m) x0 ∈ xs := by
  intro xs
  induction xs with
  | nil => intro x0; exact Or.inl rfl
  | cons b bs ih =>
    intro x0
    have hstep : (b :: bs).foldl (fun m q => if ymLtB q m then q else m) x0
        = bs.foldl (fun m q => if ymLtB q m then q else m) (if ymLtB b x0 = true then b else x0) :=
      rfl
    rw [hstep]
    rcases ih (if ymLtB b x0 = true then b else x0) with h | h
    · rw [h]
      split
      · exact Or.inr (List.mem_cons_self _ _)
      · exact Or.inl rfl
    · exact Or.inr (List.mem_cons_of_mem _ h)

theorem ymFoldMin_le : ∀ (xs : List Ym) (x0 q : Ym), (q = x0 ∨ q ∈ xs) →
    ymLeB (xs.foldl (fun m p => if ymLtB p m then p else m) x0) q = true := by
  intro xs
  induction xs with
  | nil =>
    intro x0 q hq
    rcases hq with rfl | hq
    · exact ymLeB_refl q
    · cases hq
  | cons b bs ih =>
    intro x0 q hq
    have hstep : (b :: bs).foldl (fun m p => if ymLtB p m then p else m) x0
        = bs.foldl (fun m p => if ymLtB p m then p else m) (if ymLtB b x0 = true then b else x0) :=
      rfl
    rw [hstep]
    have hacc : ∀ z, (z = x0 ∨ z = b) →
        ymLeB (if ymLtB b x0 = true then b else x0) z = true := by
      intro z hz
      rcases hz with rfl | rfl
      · split
        · next hlt => exact ymLeB_of_lt hlt
        · exact ymLeB_refl _
      · split
        · exact ymLeB_refl _
        · next hlt =>
          rw [ymLeB_iff]
          rw [ymLtB_iff] at hlt
          omega
    rcases hq with rfl | hq
    · exact ymLeB_trans (ih _ _ (Or.inl rfl)) (hacc _ (Or.inl rfl))
    · rcases List.mem_cons.mp hq with rfl | hq
      · exact ymLeB_trans (ih _ _ (Or.inl rfl)) (hacc _ (Or.inr rfl))
      · exact ih _ _ (Or.inr hq)

theorem ymFoldMax_mem : ∀ (xs : List Ym) (x0 : Ym),
    xs.foldl (fun m q => if ymLtB m q then q else m) x0 = x0 ∨
      xs.foldl (fun m q => if ymLtB m q then q else m) x0 ∈ xs := by
  intro xs
  induction xs with
  | nil => intro x0; exact Or.inl rfl
  | cons b bs ih =>
    intro x0
    have hstep : (b :: bs).foldl (fun m q => if ymLtB m q then q else m) x0
        = bs.foldl (fun m q => if ymLtB m q then q else m) (if ymLtB x0 b = true then b else x0) :=
      rfl
    rw [hstep]
    rcases ih (if ymLtB x0 b = true then b else x0) with h | h
    · rw [h]
      split
      · exact Or.inr (List.mem_cons_self _ _)
      · exact Or.inl rfl
    · exact Or.inr (List.mem_cons_of_mem _ h)

theorem ymFoldMax_ge : ∀ (xs : List Ym) (x0 q : Ym), (q = x0 ∨ q ∈ xs) →
    ymLeB q (xs.foldl (fun m p => if ymLtB m p then p else m) x0) = true := by
  intro xs
  induction xs with
  | nil =>
    intro x0 q hq
    rcases hq with rfl | hq
    · exact ymLeB_refl q
    · cases hq
  | cons b bs ih =>
    intro x0 q hq
    have hstep : (b :: bs).foldl (fun m p => if ymLtB m p then p else m) x0
        = bs.foldl (fun m p => if ymLtB m p then p else m) (if ymLtB x0 b = true then b else x0) :=
      rfl
    rw [hstep]
    have hacc : ∀ z, (z = x0 ∨ z = b) →
        ymLeB z (if ymLtB x0 b = true then b else x0) = true := by
      intro z hz
      rcases hz with rfl | rfl
      · split
        · next hlt => exact ymLeB_of_lt hlt
        · exact ymLeB_refl _
      · split
        · exact ymLeB_refl _
        · next hlt =>
          rw [ymLeB_iff]
          rw [ymLtB_iff] at hlt
          omega
    rcases hq with rfl | hq
    · exact ymLeB_trans (hacc _ (Or.inl rfl)) (ih _ _ (Or.inl rfl))
    · rcases List.mem_cons.mp hq with rfl | hq
      · exact ymLeB_trans (hacc _ (Or.inr rfl)) (ih _ _ (Or.inl rfl))
      · exact ih _ _ (Or.inr hq)

theorem ymMinL_mem {l : List Ym} {m : Ym} (h : ymMinL l = some m) : m ∈ l := by
  rcases l with _ | ⟨x, xs⟩
  · simp [ymMinL] at h
  · simp only [ymMinL, Option.some.injEq] at h
    subst h
    rcases ymFoldMin_mem xs x with h2 | h2
    · rw [h2]; exact List.mem_cons_self _ _
    · exact List.mem_cons_of_mem _ h2

theorem ymMinL_le {l : List Ym} {m : Ym} (h : ymMinL l = some m) :
    ∀ q ∈ l, ymLeB m q = true := by
  rcases l with _ | ⟨x, xs⟩
  · simp [ymMinL] at h
  · simp only [ymMinL, Option.some.injEq] at h
    subst h
    intro q hq
    rcases List.mem_cons.mp hq with rfl | hq
    · exact ymFoldMin_le xs q q (Or.inl rfl)
    · exact ymFoldMin_le xs x q (Or.inr hq)

theorem ymMaxL_mem {l : List Ym} {m : Ym} (h : ymMaxL l = some m) : m ∈ l := by
  rcases l with _ | ⟨x, xs⟩
  · simp [ymMaxL] at h
  · simp only [ymMaxL, Option.some.injEq] at h
    subst h
    rcases ymFoldMax_mem xs x with h2 | h2
    · rw [h2]; exact List.mem_cons_self _ _
    · exact List.mem_cons_of_mem _ h2

theorem ymMaxL_ge {l : List Ym} {m : Ym} (h : ymMaxL l = some m) :
    ∀ q ∈ l, ymLeB q m = true := by
  rcases l with _ | ⟨x, xs⟩
  · simp [ymMaxL] at h
  · simp only [ymMaxL, Option.some.injEq] at h
    subst h
    intro q hq
    rcases List.mem_cons.mp hq with rfl | hq
    · exact ymFoldMax_ge xs q q (Or.inl rfl)
    · exact ymFoldMax_ge xs x q (Or.inr hq)

end FinanceAI

namespace FinanceAI

/-! ### `fill_monthly_series`: the monthly SeriesBuilder contract -/

/-- Scope of the amended monthly claim: a row whose (stripped) `ym` key passes
the `strptime` validation carries it in the canonical zero-padded `YYYY-MM`
form. -/
def rowMonthlyOkB (r : RawMRow) : Bool :=
  match r with
  | none => true
  | some row =>
    match parseYM (mRowKey row) with
    | none => true
    | some a => decide (mRowKey row = fmtYM a.y a.m)

/-- The year-month pairs of the rows `fill_monthly_series` keeps. -/
def parsedYms (rows : List RawMRow) : List Ym :=
  (rows.filterMap validMonthlyKV).filterMap
    (fun kv => (parseYM kv.1).map (fun a => (⟨a.y, a.m⟩ : Ym)))

def incAtM (rows : List RawMRow) (p : Ym) : ℚ :=
  safeFloat ((lastKV (rows.filterMap validMonthlyKV) (fmtYM p.y p.m)).bind
    (fun r => r.income))

def expAtM (rows : List RawMRow) (p : Ym) : ℚ :=
  safeFloat ((lastKV (rows.filterMap validMonthlyKV) (fmtYM p.y p.m)).bind
    (fun r => r.expense_total))

theorem validMonthlyKV_shape {r : RawMRow} {kv : Key × MRowIn}
    (h : validMonthlyKV r = some kv) :
    r = some kv.2 ∧ kv.1 = mRowKey kv.2 ∧ (parseYM kv.1).isSome = true := by
  rcases r with _ | row
  · simp [validMonthlyKV] at h
  · unfold validMonthlyKV at h
    dsimp only at h
    split at h
    · simp at h
    · split at h
      · next hp =>
        simp only [Option.some.injEq] at h
        subst h
        exact ⟨rfl, rfl, hp⟩
      · simp at h

theorem canon_key_m {rows : List RawMRow} (hcanon : ∀ r ∈ rows, rowMonthlyOkB r = true)
    {kv : Key × MRowIn} (hkv : kv ∈ rows.filterMap validMonthlyKV) :
    ∃ p : Ym, parseYM kv.1 = some ⟨p.y, p.m, 1⟩ ∧ kv.1 = fmtYM p.y p.m ∧
      1 ≤ p.y ∧ p.y ≤ 9999 ∧ 1 ≤ p.m ∧ p.m ≤ 12 := by
  rcases List.mem_filterMap.mp hkv with ⟨r, hr, hv⟩
  obtain ⟨hr2, hkey, hsome⟩ := validMonthlyKV_shape hv
  rcases hp : parseYM kv.1 with _ | a
  · rw [hp] at hsome; simp at hsome
  · have hc := hcanon r hr
    rw [hr2] at hc
    unfold rowMonthlyOkB at hc
    dsimp only at hc
    rw [← hkey, hp] at hc
    dsimp only at hc
    simp only [decide_eq_true_eq] at hc
    have hval : DtValid a := parseYMD_valid hp
    obtain ⟨⟨h1, h3, h4, _, _⟩, h2⟩ := hval
    have hrt := parseYM_fmtYM h1 h2 h3 h4
    rw [← hc, hp] at hrt
    simp only [Option.some.injEq] at hrt
    exact ⟨⟨a.y, a.m⟩, congrArg some hrt, hc, h1, h2, h3, h4⟩

theorem mem_parsedYms {rows : List RawMRow} {q : Ym} :
    q ∈ parsedYms rows ↔ ∃ kv ∈ rows.filterMap validMonthlyKV,
      ∃ a, parseYM kv.1 = some a ∧ (⟨a.y, a.m⟩ : Ym) = q := by
  unfold parsedYms
  rw [List.mem_filterMap]
  constructor
  · rintro ⟨kv, hkv, hmap⟩
    rcases hpk : parseYM kv.1 with _ | a
    · rw [hpk] at hmap; simp at hmap
    · rw [hpk] at hmap
      simp only [Option.map_some', Option.some.injEq] at hmap
      exact ⟨kv, hkv, a, hpk, hmap⟩
  · rintro ⟨kv, hkv, a, hpk, hq⟩
    refine ⟨kv, hkv, ?_⟩
    rw [hpk]
    simp [hq]

theorem parsedYms_nil_iff {rows : List RawMRow} :
    parsedYms rows = [] ↔ rows.filterMap validMonthlyKV = [] := by
  unfold parsedYms
  constructor
  · intro h
    rcases hk : rows.filterMap validMonthlyKV with _ | ⟨kv, t⟩
    · rfl
    · exfalso
      have hmem : kv ∈ rows.filterMap validMonthlyKV := hk ▸ List.mem_cons_self kv t
      rcases List.mem_filterMap.mp hmem with ⟨r, hr, hv⟩
      have hsome := (validMonthlyKV_shape hv).2.2
      rcases hp : parseYM kv.1 with _ | a
      · rw [hp] at hsome; simp at hsome
      · have : (⟨a.y, a.m⟩ : Ym) ∈ (rows.filterMap validMonthlyKV).filterMap
            (fun kv => (parseYM kv.1).map (fun a => (⟨a.y, a.m⟩ : Ym))) := by
          refine List.mem_filterMap.mpr ⟨kv, hmem, ?_⟩
          rw [hp]
          rfl
        rw [h] at this
        cases this
  · intro h
    rw [h]
    rfl

theorem month_seq_canon {a b : Ym} (ha : a.y ≤ 9999) (ham : a.m ≤ 99)
    (hb : b.y ≤ 9999) (hbm : b.m ≤ 99) :
    month_seq (fmtYM a.y a.m) (fmtYM b.y b.m)
      = some ((ymRange (ymM b + 1 - ymM a) a b).map (fun p => fmtYM p.y p.m)) := by
  unfold month_seq
  rw [ymComponents_fmtYM ha ham, ymComponents_fmtYM hb hbm]
  rfl

/-- The SeriesBuilder contract for `fill_monthly_series` on canonical rows. -/
theorem fillMonthly_spec (rows : List RawMRow)
    (hcanon : ∀ r ∈ rows, rowMonthlyOkB r = true) :
    ∃ ps : List Ym,
      fillMonthlySeries rows
        = (ps.map (fun p => fmtYM p.y p.m), ps.map (incAtM rows), ps.map (expAtM rows)) ∧
      (∀ x ∈ ps, YmOk x) ∧
      (parsedYms rows = [] ↔ ps = []) ∧
      (∀ pmin pmax, ymMinL (parsedYms rows) = some pmin →
        ymMaxL (parsedYms rows) = some pmax →
        ps.head? = some pmin ∧ ps.getLast? = some pmax ∧
        List.Chain' (fun a b => b = nextYm a) ps ∧
        List.Pairwise (fun a b => ymLtB a b = true) ps ∧
        (∀ q : Ym, YmOk q → ymLeB pmin q = true → ymLeB q pmax = true → q ∈ ps)) := by
  by_cases hrows : rows = []
  · subst hrows
    refine ⟨[], rfl, by simp, by simp [parsedYms], ?_⟩
    intro pmin pmax h1 _
    simp [parsedYms, ymMinL] at h1
  · rcases hks : dictKeys (buildByYm rows) with _ | ⟨k0, ks⟩
    · have hkvs : rows.filterMap validMonthlyKV = [] := by
        rcases hk : rows.filterMap validMonthlyKV with _ | ⟨kv, t⟩
        · rfl
        · exfalso
          have : kv.1 ∈ dictKeys (buildByYm rows) :=
            mem_keys_byYm.mpr ⟨kv, hk ▸ List.mem_cons_self kv t, rfl⟩
          rw [hks] at this
          cases this
      have hpd : parsedYms rows = [] := parsedYms_nil_iff.mpr hkvs
      refine ⟨[], ?_, by simp, by simp [hpd], ?_⟩
      · unfold fillMonthlySeries
        rw [if_neg hrows]
        dsimp only
        rw [hks]
        rfl
      · intro pmin pmax h1 _
        rw [hpd] at h1
        simp [ymMinL] at h1
    · have hkeys_mem : ∀ k, (k = k0 ∨ k ∈ ks) → k ∈ dictKeys (buildByYm rows) := by
        intro k hk
        rw [hks]
        rcases hk with rfl | hk
        · exact List.mem_cons_self _ _
        · exact List.mem_cons_of_mem _ hk
      have hcanon_key : ∀ k, k ∈ dictKeys (buildByYm rows) →
          ∃ p : Ym, parseYM k = some ⟨p.y, p.m, 1⟩ ∧ k = fmtYM p.y p.m ∧
            1 ≤ p.y ∧ p.y ≤ 9999 ∧ 1 ≤ p.m ∧ p.m ≤ 12 := by
        intro k hk
        rcases mem_keys_byYm.mp hk with ⟨kv, hkv, hk1⟩
        rcases canon_key_m hcanon hkv with ⟨p, h1, h2, h3, h4, h5, h6⟩
        exact ⟨p, hk1 ▸ h1, hk1 ▸ h2, h3, h4, h5, h6⟩
      have hminmem0 := lexMin_mem ks k0
      have hmaxmem0 := lexMax_mem ks k0
      obtain ⟨pmin, hpmin, hfmin, hy1, hy2, hm1, hm2⟩ :=
        hcanon_key (lexMin k0 ks) (hkeys_mem _ hminmem0)
      obtain ⟨pmax, hpmax, hfmax, hy1x, hy2x, hm1x, hm2x⟩ :=
        hcanon_key (lexMax k0 ks) (hkeys_mem _ hmaxmem0)
      have hdate_of_mem : ∀ q ∈ parsedYms rows,
          (1 ≤ q.y ∧ q.y ≤ 9999 ∧ 1 ≤ q.m ∧ q.m ≤ 12) ∧
            fmtYM q.y q.m ∈ dictKeys (buildByYm rows) := by
        intro q hq
        rcases mem_parsedYms.mp hq with ⟨kv, hkv, a, hpk, hqa⟩
        rcases canon_key_m hcanon hkv with ⟨p, h1, h2, h3, h4, h5, h6⟩
        rw [hpk] at h1
        simp only [Option.some.injEq] at h1
        have hay : a.y = p.y := by rw [h1]
        have ham : a.m = p.m := by rw [h1]
        have hqp : q = p := by
          rw [← hqa]
          rcases p with ⟨py, pm⟩
          simp only [Ym.mk.injEq]
          exact ⟨hay, ham⟩
        subst hqp
        exact ⟨⟨h3, h4, h5, h6⟩, mem_keys_byYm.mpr ⟨kv, hkv, h2⟩⟩
      have hlb : ∀ q ∈ parsedYms rows, ymLeB pmin q = true := by
        intro q hq
        obtain ⟨⟨hq1, hq2, hq3, hq4⟩, hmemk⟩ := hdate_of_mem q hq
        have hle := lexMin_le ks k0 (fmtYM q.y q.m) (by
          have := hmemk
          rw [hks] at this
          rcases List.mem_cons.mp this with h | h
          · exact Or.inl h
          · exact Or.inr h)
        rw [hfmin] at hle
        exact (lexLe_fmtYM hy1 hy2 hm2 hq1 hq2 (by omega)).mp hle
      have hub : ∀ q ∈ parsedYms rows, ymLeB q pmax = true := by
        intro q hq
        obtain ⟨⟨hq1, hq2, hq3, hq4⟩, hmemk⟩ := hdate_of_mem q hq
        have hle := lexMax_ge ks k0 (fmtYM q.y q.m) (by
          have := hmemk
          rw [hks] at this
          rcases List.mem_cons.mp this with h | h
          · exact Or.inl h
          · exact Or.inr h)
        rw [hfmax] at hle
        exact (lexLe_fmtYM hq1 hq2 (by omega) hy1x hy2x hm2x).mp hle
      have hminmem : pmin ∈ parsedYms rows := by
        rcases mem_keys_byYm.mp (hkeys_mem _ hminmem0) with ⟨kv, hkv, hk1⟩
        exact mem_parsedYms.mpr ⟨kv, hkv, ⟨pmin.y, pmin.m, 1⟩, hk1 ▸ hpmin, rfl⟩
      have hmaxmem : pmax ∈ parsedYms rows := by
        rcases mem_keys_byYm.mp (hkeys_mem _ hmaxmem0) with ⟨kv, hkv, hk1⟩
        exact mem_parsedYms.mpr ⟨kv, hkv, ⟨pmax.y, pmax.m, 1⟩, hk1 ▸ hpmax, rfl⟩
      have hminmax : ymLeB pmin pmax = true := hlb pmax hmaxmem
      have hmono : ymM pmin ≤ ymM pmax := ymM_mono ⟨hm1, hm2⟩ ⟨hm1x, hm2x⟩ hminmax
      have hfuel : ymM pmax < ymM pmin + (ymM pmax + 1 - ymM pmin) := by omega
      refine ⟨ymRange (ymM pmax + 1 - ymM pmin) pmin pmax, ?_, ?_, ?_, ?_⟩
      · unfold fillMonthlySeries
        rw [if_neg hrows]
        dsimp only
        rw [hks]
        dsimp only
        rw [hfmin, hfmax, month_seq_canon hy2 (by omega) hy2x (by omega)]
        simp only [Option.getD_some, List.map_map]
        have hinc : ((fun ym => safeFloat ((dictGet (buildByYm rows) ym).bind
            (fun r => r.income))) ∘ (fun p : Ym => fmtYM p.y p.m)) = incAtM rows := by
          funext p
          show safeFloat ((dictGet (buildByYm rows) (fmtYM p.y p.m)).bind
            (fun r => r.income)) = _
          rw [dictGet_byYm]
          rfl
        have hexp : ((fun ym => safeFloat ((dictGet (buildByYm rows) ym).bind
            (fun r => r.expense_total))) ∘ (fun p : Ym => fmtYM p.y p.m)) = expAtM rows := by
          funext p
          show safeFloat ((dictGet (buildByYm rows) (fmtYM p.y p.m)).bind
            (fun r => r.expense_total)) = _
          rw [dictGet_byYm]
          rfl
        rw [hinc, hexp]
      · intro x hx
        exact (ymRange_mem ⟨hm1, hm2⟩ x hx).1
      · constructor
        · intro h
          rw [h] at hminmem
          cases hminmem
        · intro h
          have hh := @ymRange_head (ymM pmax + 1 - ymM pmin) _ _ hminmax (by omega)
          rw [h] at hh
          cases hh
      · intro qmin qmax h1 h2
        have hdmin : qmin = pmin := by
          have hmm1 := ymMinL_mem h1
          have hb1 := ymMinL_le h1 pmin hminmem
          have hb2 := hlb qmin hmm1
          exact ymLeB_antisymm hb1 hb2
        have hdmax : qmax = pmax := by
          have hmm1 := ymMaxL_mem h2
          have hb1 := ymMaxL_ge h2 pmax hmaxmem
          have hb2 := hub qmax hmm1
          exact ymLeB_antisymm hb2 hb1
        subst hdmin
        subst hdmax
        refine ⟨ymRange_head hminmax (by omega),
          ymRange_getLast ⟨hm1, hm2⟩ ⟨hm1x, hm2x⟩ hminmax hfuel,
          ymRange_chain _ _ _,
          ymRange_pairwise,
          ?_⟩
        intro q hvq hq1 hq2
        exact ymRange_between ⟨hm1, hm2⟩ ⟨hm1x, hm2x⟩ hvq hq1 hq2 hfuel

end FinanceAI

namespace FinanceAI

/-! ### Claim C1 -/

def c1dRows : List RawRow :=
  [some ⟨some (keyOf "2023-02-27"), some 10, some 5⟩,
   some ⟨some (keyOf "2023-03-01"), some 7, none⟩,
   some ⟨some (keyOf "2023-02-27"), some 3, some 4⟩,
   some ⟨some (keyOf "not a date"), some 1, some 1⟩,
   none]

def c1mRows : List RawMRow :=
  [some ⟨some (keyOf "2023-11"), some 3, some 4⟩,
   some ⟨some (keyOf "2024-01"), none, some 8⟩]

def c1cexRows : List RawRow :=
  [some ⟨some (keyOf "2023-1-1"), some 1, some 1⟩,
   some ⟨some (keyOf "2023-02-01"), some 2, some 2⟩]

/-- C1 (amended): for row lists whose parseable period keys are written in
canonical zero-padded form (`YYYY-MM-DD` strictly before 9999-12-31 for the
daily builder, `YYYY-MM` for the monthly one), `fill_daily_series` and
`fill_monthly_series` raise nothing and return three parallel equal-length
sequences over the strictly increasing, gapless successor chain of periods
from the minimum to the maximum parsed period, each period once, with
last-written-wins values and zeros for absent periods, and empty sequences
exactly when no row has a parseable key. -/
theorem C1_series_contract (drows : List RawRow) (mrows : List RawMRow)
    (hd : ∀ r ∈ drows, rowDailyOkB r = true)
    (hm : ∀ r ∈ mrows, rowMonthlyOkB r = true) :
    (∃ ds : List Dt,
      fillDailySeries drows
        = .ok (ds.map fmtD, ds.map (incAt drows), ds.map (expAt drows)) ∧
      (∀ x ∈ ds, DtValid x) ∧
      (parsedDates drows = [] ↔ ds = []) ∧
      (∀ dmin dmax, dtMinL (parsedDates drows) = some dmin →
        dtMaxL (parsedDates drows) = some dmax →
        ds.head? = some dmin ∧ ds.getLast? = some dmax ∧
        List.Chain' (fun a b => b = nextDay a) ds ∧
        List.Pairwise (fun a b => dtLtB a b = true) ds ∧
        (∀ q, DtValid q → dtLeB dmin q = true → dtLeB q dmax = true → q ∈ ds))) ∧
    (∃ ps : List Ym,
      fillMonthlySeries mrows
        = (ps.map (fun p => fmtYM p.y p.m), ps.map (incAtM mrows), ps.map (expAtM mrows)) ∧
      (∀ x ∈ ps, YmOk x) ∧
      (parsedYms mrows = [] ↔ ps = []) ∧
      (∀ pmin pmax, ymMinL (parsedYms mrows) = some pmin →
        ymMaxL (parsedYms mrows) = some pmax →
        ps.head? = some pmin ∧ ps.getLast? = some pmax ∧
        List.Chain' (fun a b => b = nextYm a) ps ∧
        List.Pairwise (fun a b => ymLtB a b = true) ps ∧
        (∀ q : Ym, YmOk q → ymLeB pmin q = true → ymLeB q pmax = true → q ∈ ps))) :=
  ⟨fillDaily_spec drows hd, fillMonthly_spec mrows hm⟩

/-- Witness for C1 at a concrete daily and monthly row list. -/
theorem C1_series_contract_witness :
    (∀ r ∈ c1dRows, rowDailyOkB r = true) ∧
    (∀ r ∈ c1mRows, rowMonthlyOkB r = true) ∧
    ((∃ ds : List Dt,
      fillDailySeries c1dRows
        = .ok (ds.map fmtD, ds.map (incAt c1dRows), ds.map (expAt c1dRows)) ∧
      (∀ x ∈ ds, DtValid x) ∧
      (parsedDates c1dRows = [] ↔ ds = []) ∧
      (∀ dmin dmax, dtMinL (parsedDates c1dRows) = some dmin →
        dtMaxL (parsedDates c1dRows) = some dmax →
        ds.head? = some dmin ∧ ds.getLast? = some dmax ∧
        List.Chain' (fun a b => b = nextDay a) ds ∧
        List.Pairwise (fun a b => dtLtB a b = true) ds ∧
        (∀ q, DtValid q → dtLeB dmin q = true → dtLeB q dmax = true → q ∈ ds))) ∧
    (∃ ps : List Ym,
      fillMonthlySeries c1mRows
        = (ps.map (fun p => fmtYM p.y p.m), ps.map (incAtM c1mRows), ps.map (expAtM c1mRows)) ∧
      (∀ x ∈ ps, YmOk x) ∧
      (parsedYms c1mRows = [] ↔ ps = []) ∧
      (∀ pmin pmax, ymMinL (parsedYms c1mRows) = some pmin →
        ymMaxL (parsedYms c1mRows) = some pmax →
        ps.head? = some pmin ∧ ps.getLast? = some pmax ∧
        List.Chain' (fun a b => b = nextYm a) ps ∧
        List.Pairwise (fun a b => ymLtB a b = true) ps ∧
        (∀ q : Ym, YmOk q → ymLeB pmin q = true → ymLeB q pmax = true → q ∈ ps)))) :=
  ⟨by decide, by decide, C1_series_contract c1dRows c1mRows (by decide) (by decide)⟩

/-- C1 counterexample to the unrestricted claim: both rows carry parseable
dates (2023-01-01, written noncanonically as `2023-1-1`, and 2023-02-01), yet
`fill_daily_series` returns three empty sequences — the period range
[min, max] is not covered. -/
theorem C1_series_contract_counterexample :
    parsedDates c1cexRows = [⟨2023, 1, 1⟩, ⟨2023, 2, 1⟩] ∧
    fillDailySeries c1cexRows = .ok ([], [], []) :=
  ⟨by decide, rfl⟩

end FinanceAI

namespace FinanceAI

/-! ### Basic statistics (`_py_mean`, `_py_std`, `_mean`, `_std`, `_mae`,
`_rolling_mean`), floats embedded as exact rationals.  `sqrt` is abstracted
as a parameter: no claim depends on its values. -/

def pyMean (xs : List ℚ) : ℚ := if xs = [] then 0 else xs.sum / xs.length

/-- Population variance, as in `_py_std` / `np.std`. -/
def popVar (xs : List ℚ) : ℚ := (xs.map (fun x => (x - pyMean xs) ^ 2)).sum / xs.length

/-- `_std` / `_py_std`: 0 for length ≤ 1, else the square root of the
population variance (`sqrtQ` abstract). -/
def stdQ (sqrtQ : ℚ → ℚ) (xs : List ℚ) : ℚ :=
  if xs.length ≤ 1 then 0 else sqrtQ (popVar xs)

/-- `_mae` over two equal-length series (`np.mean(np.abs(y_true - y_pred))`;
the source's `np.mean` of an empty array is NaN, which no reachable call
produces — the claims only use nonempty windows). -/
def maeQ (ts ps : List ℚ) : ℚ := pyMean ((ts.zip ps).map (fun p => |p.1 - p.2|))

/-- `_rolling_mean(vals, w)`: mean of the last `max(1, min(w, len))` values. -/
def rollingMean (vals : List ℚ) (w : ℤ) : ℚ :=
  if vals = [] then 0
  else
    let wn := (max 1 (min w (vals.length : ℤ))).toNat
    (vals.drop (vals.length - wn)).sum / (wn : ℚ)

/-- Stable insertion used to model CPython's stable `sorted`: a new element
goes after every existing element the preorder `le` puts (weakly) before it. -/
def pyInsort {α : Type} (le : α → α → Bool) (a : α) : List α → List α
  | [] => [a]
  | y :: t => if le y a then y :: pyInsort le a t else a :: y :: t

/-- `sorted(l, key=...)`: a stable sort by the total preorder `le` (CPython's
Timsort and this insertion sort agree on every total preorder, both being
stable). -/
def pySorted {α : Type} (le : α → α → Bool) (l : List α) : List α :=
  l.foldl (fun acc x => pyInsort le x acc) []

theorem mem_pyInsort {α : Type} {le : α → α → Bool} {a x : α} :
    ∀ {l : List α}, x ∈ pyInsort le a l ↔ x = a ∨ x ∈ l := by
  intro l
  induction l with
  | nil => simp [pyInsort]
  | cons y t ih =>
    unfold pyInsort
    split
    · simp only [List.mem_cons, ih]
      tauto
    · simp only [List.mem_cons]

theorem mem_pySorted {α : Type} {le : α → α → Bool} {l : List α} {x : α} :
    x ∈ pySorted le l ↔ x ∈ l := by
  have hgen : ∀ (l acc : List α),
      (x ∈ l.foldl (fun acc x => pyInsort le x acc) acc ↔ x ∈ acc ∨ x ∈ l) := by
    intro l
    induction l with
    | nil => intro acc; simp
    | cons y t ih =>
      intro acc
      rw [List.foldl_cons, ih]
      simp only [mem_pyInsort, List.mem_cons]
      tauto
  have := hgen l []
  simp only [List.not_mem_nil, false_or] at this
  exact this

/-- Python `sorted(set(...))`'s dedup phase (first occurrences kept; only the
element set matters, since the result is re-sorted). -/
def dedupAcc {α : Type} [DecidableEq α] : List α → List α → List α
  | _, [] => []
  | seen, x :: t => if x ∈ seen then dedupAcc seen t else x :: dedupAcc (x :: seen) t

/-! ### `allocate_expense_to_categories` -/

def outrosKey : Key := keyOf "Outros"

/-- `allocate_expense_to_categories(expense_value, cat_weights, top_k)`.
The weight dict is an insertion-ordered association list with (as in any
Python dict) pairwise distinct keys, so building `alloc` is a `map`.
Returns (full allocation dict, top-k list of (category, amount, share)). -/
def allocate_expense_to_categories (expense_value : ℚ) (cat_weights : List (Key × ℚ))
    (top_k : ℤ) : List (Key × ℚ) × List (Key × ℚ × ℚ) :=
  let ev := max 0 expense_value
  if cat_weights = [] then
    ([(outrosKey, ev)], [(outrosKey, ev, 1)])
  else
    let total_w := (cat_weights.map (fun kv => max 0 kv.2)).sum
    if total_w ≤ 0 then
      ([(outrosKey, ev)], [(outrosKey, ev, 1)])
    else
      let alloc := cat_weights.map (fun kv => (kv.1, ev * (max 0 kv.2 / total_w)))
      let items := pySorted (fun a b => decide (b.2 ≤ a.2)) alloc
      let top := (items.take (max 1 top_k).toNat).map
        (fun kv => (kv.1, kv.2, if 0 < ev then kv.2 / ev else 0))
      (alloc, top)

theorem totalW_pos {w : List (Key × ℚ)} {kv : Key × ℚ} (hm : kv ∈ w) (hp : 0 < kv.2) :
    0 < (w.map (fun kv => max 0 kv.2)).sum := by
  have hmem : max 0 kv.2 ∈ w.map (fun kv => max 0 kv.2) := List.mem_map_of_mem _ hm
  have hle : max 0 kv.2 ≤ (w.map (fun kv => max 0 kv.2)).sum :=
    List.single_le_sum (by
      intro x hx
      rcases List.mem_map.mp hx with ⟨p, _, hpx⟩
      rw [← hpx]
      exact le_max_left 0 p.2) _ hmem
  have : 0 < max 0 kv.2 := lt_max_of_lt_right hp
  linarith

theorem alloc_sum {ev : ℚ} {w : List (Key × ℚ)}
    (hT : 0 < (w.map (fun kv => max 0 kv.2)).sum) :
    ((w.map (fun kv => (kv.1, ev * (max 0 kv.2 / (w.map (fun kv => max 0 kv.2)).sum)))).map
      Prod.snd).sum = ev := by
  set T := (w.map (fun kv => max 0 kv.2)).sum with hTdef
  rw [List.map_map]
  have h1 : (Prod.snd ∘ fun kv : Key × ℚ => (kv.1, ev * (max 0 kv.2 / T)))
      = fun kv : Key × ℚ => ev * (max 0 kv.2 / T) := rfl
  rw [h1]
  have h2 : (fun kv : Key × ℚ => ev * (max 0 kv.2 / T))
      = fun kv : Key × ℚ => (ev / T) * max 0 kv.2 := by
    funext kv
    field_simp
  rw [h2, List.sum_map_mul_left, ← hTdef]
  field_simp

/-- C8: with a non-negative expense total: when every weight map entry with a
positive weight exists the allocation sums exactly to the total; every
reported share lies in [0,1]; and an empty or all-non-positive weight map
sends the whole total to the default category with share 1. -/
theorem C8_allocation (ev : ℚ) (w : List (Key × ℚ)) (k : ℤ) (hev : 0 ≤ ev) :
    ((∃ kv ∈ w, 0 < kv.2) →
      (((allocate_expense_to_categories ev w k).1.map Prod.snd).sum = ev)) ∧
    (∀ e ∈ (allocate_expense_to_categories ev w k).2, 0 ≤ e.2.2 ∧ e.2.2 ≤ 1) ∧
    ((w = [] ∨ ∀ kv ∈ w, kv.2 ≤ 0) →
      allocate_expense_to_categories ev w k = ([(outrosKey, ev)], [(outrosKey, ev, 1)])) := by
  have hev' : max 0 ev = ev := max_eq_right hev
  by_cases hw : w = []
  · subst hw
    refine ⟨?_, ?_, ?_⟩
    · rintro ⟨kv, hkv, _⟩
      cases hkv
    · intro e he
      unfold allocate_expense_to_categories at he
      simp only [if_pos rfl] at he
      rw [hev'] at he
      rcases List.mem_cons.mp he with h | h
      · rw [h]
        norm_num
      · cases h
    · intro _
      unfold allocate_expense_to_categories
      rw [if_pos rfl, hev']
  · set T := (w.map (fun kv => max 0 kv.2)).sum with hTdef
    by_cases hT : T ≤ 0
    · have hout : allocate_expense_to_categories ev w k
          = ([(outrosKey, ev)], [(outrosKey, ev, 1)]) := by
        unfold allocate_expense_to_categories
        rw [if_neg hw]
        dsimp only
        rw [← hTdef, if_pos hT, hev']
      refine ⟨?_, ?_, fun _ => hout⟩
      · rintro ⟨kv, hkv, hp⟩
        exact absurd (totalW_pos hkv hp) (not_lt.mpr hT)
      · intro e he
        rw [hout] at he
        rcases List.mem_cons.mp he with h | h
        · rw [h]
          norm_num
        · cases h
    · push_neg at hT
      have hmain : allocate_expense_to_categories ev w k
          = (w.map (fun kv => (kv.1, ev * (max 0 kv.2 / T))),
             ((pySorted (fun a b => decide (b.2 ≤ a.2))
                 (w.map (fun kv => (kv.1, ev * (max 0 kv.2 / T))))).take (max 1 k).toNat).map
               (fun kv => (kv.1, kv.2, if 0 < ev then kv.2 / ev else 0))) := by
        unfold allocate_expense_to_categories
        rw [if_neg hw]
        dsimp only
        rw [← hTdef, if_neg (not_le.mpr hT), hev']
      refine ⟨?_, ?_, ?_⟩
      · intro _
        rw [hmain]
        exact alloc_sum hT
      · intro e he
        rw [hmain] at he
        rcases List.mem_map.mp he with ⟨kv, hkv, hkve⟩
        have hkv2 : kv ∈ (w.map (fun kv => (kv.1, ev * (max 0 kv.2 / T)))) :=
          mem_pySorted.mp (List.mem_of_mem_take hkv)
        rcases List.mem_map.mp hkv2 with ⟨p, hpw, hpkv⟩
        have hshape : kv.2 = ev * (max 0 p.2 / T) := by rw [← hpkv]
        have hmle : max 0 p.2 ≤ T := by
          rw [hTdef]
          exact List.single_le_sum (by
            intro x hx
            rcases List.mem_map.mp hx with ⟨q, _, hqx⟩
            rw [← hqx]
            exact le_max_left 0 q.2) _ (List.mem_map_of_mem _ hpw)
        have hm0 : (0 : ℚ) ≤ max 0 p.2 := le_max_left 0 p.2
        rw [← hkve]
        dsimp only
        by_cases hevp : 0 < ev
        · rw [if_pos hevp, hshape]
          have hne : ev ≠ 0 := ne_of_gt hevp
          have heq : ev * (max 0 p.2 / T) / ev = max 0 p.2 / T :=
            mul_div_cancel_left₀ _ hne
          rw [heq]
          exact ⟨div_nonneg hm0 (le_of_lt hT), (div_le_one hT).mpr hmle⟩
        · rw [if_neg hevp]
          norm_num
      · rintro (h | h)
        · exact absurd h hw
        · exfalso
          rcases List.exists_mem_of_ne_nil w hw with ⟨kv, hkv⟩
          have hall : ∀ x ∈ w.map (fun kv => max 0 kv.2), x = 0 := by
            intro x hx
            rcases List.mem_map.mp hx with ⟨q, hq, hqx⟩
            rw [← hqx]
            exact max_eq_left (h q hq)
          have hz : T = 0 := by
            rw [hTdef]
            exact List.sum_eq_zero hall
          rw [hz] at hT
          exact lt_irrefl 0 hT

end FinanceAI

namespace FinanceAI

def c8w : List (Key × ℚ) := [(keyOf "a", 3), (keyOf "b", 1)]

/-- Witness for C8 at a concrete total and weight map. -/
theorem C8_allocation_witness :
    (0 : ℚ) ≤ 100 ∧
    (((∃ kv ∈ c8w, 0 < kv.2) →
      (((allocate_expense_to_categories 100 c8w 8).1.map Prod.snd).sum = 100)) ∧
    (∀ e ∈ (allocate_expense_to_categories 100 c8w 8).2, 0 ≤ e.2.2 ∧ e.2.2 ≤ 1) ∧
    ((c8w = [] ∨ ∀ kv ∈ c8w, kv.2 ≤ 0) →
      allocate_expense_to_categories 100 c8w 8 = ([(outrosKey, 100)], [(outrosKey, 100, 1)]))) :=
  ⟨by norm_num, C8_allocation 100 c8w 8 (by norm_num)⟩

end FinanceAI

namespace FinanceAI

/-! ### `_walk_forward_mae` -/

/-- A candidate's fit/predict callback: training features `Xtr`, training
targets `ytr`, the one-row query block `Xte`; the result models
`float(fit_predict_fn(Xtr, ytr, Xte)[0])` and, like any Python call, may
raise. -/
abbrev FitPredictE (α : Type) : Type := List α → List ℚ → List α → Except PyErr ℚ

/-- `n_start = max(5, min(int(n_start), n - 2))`. -/
def nStartEff (n : ℕ) (nStart : ℤ) : ℕ := (max 5 (min nStart ((n : ℤ) - 2))).toNat

/-- `end = min(n, n_start + max(1, int(n_steps)))`. -/
def endEff (n : ℕ) (nStart nSteps : ℤ) : ℕ :=
  (min (n : ℤ) ((nStartEff n nStart : ℤ) + max 1 nSteps)).toNat

/-- The walk-forward loop's step indices `range(n_start, end)`. -/
def stepIndices (n : ℕ) (nStart nSteps : ℤ) : List ℕ :=
  List.range' (nStartEff n nStart) (endEff n nStart nSteps - nStartEff n nStart)

/-- One step of the loop: `fit_predict_fn(X[:t], y[:t], X[t:t+1])[0]`. -/
def predAtStep (X : List α) (y : List ℚ) (fn : FitPredictE α) (t : ℕ) :
    Except PyErr ℚ :=
  fn (X.take t) (y.take t) ((X.drop t).take 1)

/-- The predictions the loop collects, in step order. -/
def walkForwardPreds (X : List α) (y : List ℚ) (fn : FitPredictE α)
    (nStart nSteps : ℤ) : Except PyErr (List ℚ) :=
  (stepIndices y.length nStart nSteps).mapM (predAtStep X y fn)

/-- The true values the loop collects: `float(y[t])`. -/
def walkForwardTrues (y : List ℚ) (nStart nSteps : ℤ) : List ℚ :=
  (stepIndices y.length nStart nSteps).map (fun t => y.getD t 0)

/-- `_walk_forward_mae`. -/
def walkForwardMae (X : List α) (y : List ℚ) (fn : FitPredictE α)
    (nStart nSteps : ℤ) : Except PyErr ℚ := do
  let ps ← walkForwardPreds X y fn nStart nSteps
  pure (maeQ (walkForwardTrues y nStart nSteps) ps)

/-- C2: walk-forward evaluation is strictly causal.  The step-`t` prediction
depends only on the prefixes `X[0:t]`, `y[0:t]` and the query row `X[t]`:
two runs whose inputs agree there (and on the length of `y`, which fixes the
step range) collect the same prediction at step `t`, for every candidate
`fn` — and the collected predictions are exactly the prefix-fed calls. -/
theorem C2_walk_forward_causal (α : Type) (X X' : List α) (y y' : List ℚ)
    (fn : FitPredictE α) (nStart nSteps : ℤ) (t : ℕ)
    (hy : y'.length = y.length)
    (hyt : y'.take t = y.take t)
    (hXt : X'.take (t + 1) = X.take (t + 1)) :
    predAtStep X' y' fn t = predAtStep X y fn t ∧
    stepIndices y'.length nStart nSteps = stepIndices y.length nStart nSteps ∧
    walkForwardPreds X y fn nStart nSteps
      = (stepIndices y.length nStart nSteps).mapM
          (fun s => fn (X.take s) (y.take s) ((X.drop s).take 1)) := by
  refine ⟨?_, by rw [hy], rfl⟩
  unfold predAtStep
  have hXtake : X'.take t = X.take t := by
    have h1 : X'.take t = (X'.take (t + 1)).take t := by
      rw [List.take_take]
      have : min t (t + 1) = t := by omega
      rw [this]
    have h2 : X.take t = (X.take (t + 1)).take t := by
      rw [List.take_take]
      have : min t (t + 1) = t := by omega
      rw [this]
    rw [h1, h2, hXt]
  have hXq : (X'.drop t).take 1 = (X.drop t).take 1 := by
    have hsub : t + 1 - t = 1 := by omega
    have h1 : (X'.drop t).take 1 = (X'.take (t + 1)).drop t := by
      rw [List.drop_take, hsub]
    have h2 : (X.drop t).take 1 = (X.take (t + 1)).drop t := by
      rw [List.drop_take, hsub]
    rw [h1, h2, hXt]
  rw [hXtake, hXq, hyt]

end FinanceAI

namespace FinanceAI

def c2X : List ℚ := [1, 2, 3, 4, 5, 6, 7, 8]

def c2Xm : List ℚ := [1, 2, 3, 9, 9, 9, 9, 9]

def c2y : List ℚ := [10, 20, 30, 40, 50, 60, 70, 80]

def c2ym : List ℚ := [10, 20, 99, 41, 51, 61, 71, 81]

def c2fn : FitPredictE ℚ := fun a b c => Except.ok (a.sum + b.sum + c.sum)

/-- Witness for C2 at concrete inputs: the run with data modified at
indices ≥ 2 collects the same step-2 prediction. -/
theorem C2_walk_forward_causal_witness :
    c2ym.length = c2y.length ∧
    c2ym.take 2 = c2y.take 2 ∧
    c2Xm.take 3 = c2X.take 3 ∧
    (predAtStep c2Xm c2ym c2fn 2 = predAtStep c2X c2y c2fn 2 ∧
     stepIndices c2ym.length 5 2 = stepIndices c2y.length 5 2 ∧
     walkForwardPreds c2X c2y c2fn 5 2
       = (stepIndices c2y.length 5 2).mapM
           (fun s => c2fn (c2X.take s) (c2y.take s) ((c2X.drop s).take 1))) :=
  ⟨by decide, by decide, by decide,
   C2_walk_forward_causal ℚ c2X c2Xm c2y c2ym c2fn 5 2 2 (by decide) (by decide) (by decide)⟩

end FinanceAI

namespace FinanceAI

/-! ### `_baseline_seasonal_predict_one`, features, and the external bundle.

The call sites all use the default `fallback_w=7`, `alpha=0.6`; those
constants are inlined. -/

def baselineSeasonalPredictOne (hd : List Key) (hv : List ℚ) (target : Key) :
    Except PyErr ℚ :=
  if hv = [] then .ok 0
  else
    let ma := rollingMean hv 7
    match parseYMD target with
    | none => .error .valueError
    | some dtT =>
      let dowT := weekday dtT
      let lookback := min hd.length 56
      let pairs := (hd.drop (hd.length - lookback)).zip (hv.drop (hv.length - lookback))
      let same := pairs.filterMap (fun p =>
        match parseYMD p.1 with
        | none => none
        | some d => if weekday d = dowT then some p.2 else none)
      if same = [] then .ok ma
      else .ok ((3/5) * (same.sum / (same.length : ℚ)) + (1 - 3/5) * ma)

/-- External functions (numpy/sklearn/math), abstracted: `sqrt`, the
day-of-week and month-of-year sine/cosine features, the two sklearn
candidates' fit/predict callbacks, the final-model serializers and
full-history predictors, and the pickle decoder with the loaded models'
`predict` (`try`/`except` modelled as `Option`).  No claim depends on their
values. -/
structure Ext (μ : Type) where
  sqrtQ : ℚ → ℚ
  sin7 : ℕ → ℚ
  cos7 : ℕ → ℚ
  sin12 : ℕ → ℚ
  cos12 : ℕ → ℚ
  ridgeFP : FitPredictE (List ℚ)
  hgbFP : FitPredictE (List ℚ)
  ridgeDump : List (List ℚ) → List ℚ → Key
  hgbDump : List (List ℚ) → List ℚ → Key
  ridgePredFull : List (List ℚ) → List ℚ → List ℚ
  hgbPredFull : List (List ℚ) → List ℚ → List ℚ
  decode : Key → Option μ
  predictM : μ → List (List ℚ) → Option ℚ

/-- `_date_feats(date_str, t_idx)`; raises ValueError on an unparseable date
(its `strptime` is outside any `try`). -/
def dateFeats (e : Ext μ) (ds : Key) (tIdx : ℤ) : Except PyErr (List ℚ) :=
  match parseYMD ds with
  | none => .error .valueError
  | some dt =>
    .ok [(tIdx : ℚ), (weekday dt : ℚ), e.sin7 (weekday dt), e.cos7 (weekday dt),
         (dt.d : ℚ), (dt.m : ℚ), e.sin12 dt.m, e.cos12 dt.m]

def baselineKey : Key := keyOf "baseline_seasonal"

def ridgeKey : Key := keyOf "ridge"

def hgbKey : Key := keyOf "hgb"

structure TrainedTarget where
  algo : Key
  model_b64 : Option Key
  mae_val : ℚ
  baseline_mae_val : ℚ
  resid_std : ℚ
deriving DecidableEq

/-- `n_val = max(10, int(0.2 * n))` (for these magnitudes the float product
truncates to `n / 5`). -/
def nValOf (n : ℕ) : ℕ := max 10 (n / 5)

/-- The baseline walk-forward closure of `_fit_one_target` (both variants,
by `dates_for_baseline`); it captures the full `y` and the dates. -/
def baselineFP (y : List ℚ) (dfb : Option (List Key)) : FitPredictE (List ℚ) :=
  fun _Xtr ytr _Xte =>
    match dfb with
    | none =>
      match ytr.getLast? with
      | none => .error .indexError
      | some last => .ok last
    | some ds =>
      let t := ytr.length
      if t < 1 then .ok 0
      else if ds.length ≤ t then
        match ytr.getLast? with
        | none => .error .indexError
        | some last => .ok last
      else
        baselineSeasonalPredictOne (ds.take t) (y.take t) (ds.getD t [])

/-- The candidate-selection block of `_fit_one_target` (lines 444-461):
best-of-three by walk-forward MAE, then the 2% hysteresis reversion unless
`force_ml`. -/
def selectTarget (forceMl : Bool) (base ridge hgb : ℚ) : Key × ℚ :=
  let bestAlgo1 := if ridge < base then ridgeKey else baselineKey
  let bestMae1 := if ridge < base then ridge else base
  let bestAlgo2 := if hgb < bestMae1 then hgbKey else bestAlgo1
  let bestMae2 := if hgb < bestMae1 then hgb else bestMae1
  let revert := forceMl = false ∧ bestAlgo2 ≠ baselineKey ∧
    ((1 : ℚ) - 2/100) * base ≤ bestMae2
  let bestAlgo3 := if revert then baselineKey else bestAlgo2
  let bestMae3 := if revert then base else bestMae2
  (bestAlgo3, bestMae3)

/-- `_fit_one_target`; `avail` is "numpy and the sklearn imports are all
present". -/
def fitOneTarget (e : Ext μ) (avail : Bool) (X : List (List ℚ)) (y : List ℚ)
    (dfb : Option (List Key)) (forceMl : Bool) : Except PyErr TrainedTarget :=
  if avail = false then
    let s := stdQ e.sqrtQ y
    .ok ⟨baselineKey, none, s, s, s⟩
  else
    let n := y.length
    if n < 20 then
      let resid := y.map (fun v => v - pyMean y)
      let s := if 1 < resid.length then e.sqrtQ (popVar resid) else 0
      .ok ⟨baselineKey, none, s, s, s⟩
    else
      let nv := nValOf n
      let nStart : ℤ := (n : ℤ) - (nv : ℤ)
      do
      let base ← walkForwardMae X y (baselineFP y dfb) nStart (nv : ℤ)
      let ridge ← walkForwardMae X y e.ridgeFP nStart (nv : ℤ)
      let hgb ← walkForwardMae X y e.hgbFP nStart (nv : ℤ)
      let sel := selectTarget forceMl base ridge hgb
      if sel.1 = ridgeKey then
        let resid := (e.ridgePredFull X y).zipWith (fun a b => a - b) y
        let rs := if 1 < resid.length then e.sqrtQ (popVar resid) else 0
        pure ⟨sel.1, some (e.ridgeDump X y), sel.2, base, rs⟩
      else if sel.1 = hgbKey then
        let resid := (e.hgbPredFull X y).zipWith (fun a b => a - b) y
        let rs := if 1 < resid.length then e.sqrtQ (popVar resid) else 0
        pure ⟨sel.1, some (e.hgbDump X y), sel.2, base, rs⟩
      else
        let tail := y.drop (y.length - max 14 (y.length / 5))
        let rs := if 1 < tail.length then
          e.sqrtQ (popVar (tail.map (fun v => v - pyMean tail))) else 0
        pure ⟨sel.1, none, sel.2, base, rs⟩

end FinanceAI

namespace FinanceAI

theorem except_bind_ok_eq {γ δ : Type} {x : Except PyErr γ} {f : γ → Except PyErr δ}
    {a : γ} (h : x = .ok a) : (x >>= f) = f a := by rw [h]; rfl

theorem except_bind_err_eq {γ δ : Type} {x : Except PyErr γ} {f : γ → Except PyErr δ}
    {e : PyErr} (h : x = .error e) : (x >>= f) = .error e := by rw [h]; rfl

theorem pyMean_nonneg {xs : List ℚ} (h : ∀ x ∈ xs, 0 ≤ x) : 0 ≤ pyMean xs := by
  unfold pyMean
  split
  · exact le_refl 0
  · exact div_nonneg (List.sum_nonneg h) (by positivity)

theorem maeQ_nonneg (ts ps : List ℚ) : 0 ≤ maeQ ts ps := by
  apply pyMean_nonneg
  intro x hx
  rcases List.mem_map.mp hx with ⟨p, _, hpx⟩
  rw [← hpx]
  exact abs_nonneg _

theorem walkForwardMae_ok_nonneg {α : Type} {X : List α} {y : List ℚ}
    {fn : FitPredictE α} {s v : ℤ} {bm : ℚ}
    (h : walkForwardMae X y fn s v = .ok bm) : 0 ≤ bm := by
  unfold walkForwardMae at h
  rcases hp : walkForwardPreds X y fn s v with e | ps
  · rw [except_bind_err_eq hp] at h
    cases h
  · rw [except_bind_ok_eq hp] at h
    have : maeQ (walkForwardTrues y s v) ps = bm := by
      have := h
      simp only [pure, Except.pure, Except.ok.injEq] at this
      exact this
    rw [← this]
    exact maeQ_nonneg _ _

theorem selectTarget_eq (f : Bool) (bm rm hm : ℚ) :
    selectTarget f bm rm hm =
      if hm < (if rm < bm then rm else bm) then
        (if f = false ∧ ((1:ℚ) - 2/100) * bm ≤ hm then (baselineKey, bm) else (hgbKey, hm))
      else if rm < bm then
        (if f = false ∧ ((1:ℚ) - 2/100) * bm ≤ rm then (baselineKey, bm) else (ridgeKey, rm))
      else (baselineKey, bm) := by
  have hrb : ridgeKey ≠ baselineKey := by decide
  have hhb : hgbKey ≠ baselineKey := by decide
  simp only [selectTarget]
  by_cases h1 : rm < bm
  · simp only [if_pos h1]
    by_cases h2 : hm < rm
    · simp only [if_pos h2, ne_eq, hhb, not_false_eq_true, true_and]
      split <;> rfl
    · simp only [if_neg h2, ne_eq, hrb, not_false_eq_true, true_and]
      split <;> rfl
  · simp only [if_neg h1]
    by_cases h2 : hm < bm
    · simp only [if_pos h2, ne_eq, hhb, not_false_eq_true, true_and]
      split <;> rfl
    · simp only [if_neg h2, ne_eq, not_true_eq_false, false_and, and_false, if_neg,
        not_false_eq_true]

theorem selectTarget_false (bm rm hm : ℚ) (hbm : 0 ≤ bm) :
    ((selectTarget false bm rm hm).1 ≠ baselineKey ↔ min rm hm < (1 - 2/100) * bm) ∧
    ((selectTarget false bm rm hm).1 = baselineKey → (selectTarget false bm rm hm).2 = bm) ∧
    ((selectTarget false bm rm hm).1 ≠ baselineKey → (selectTarget false bm rm hm).2 = min rm hm) := by
  have hrb : ridgeKey ≠ baselineKey := by decide
  have hhb : hgbKey ≠ baselineKey := by decide
  have h98 : ((1 : ℚ) - 2/100) * bm ≤ bm := by nlinarith
  rw [selectTarget_eq]
  by_cases h1 : rm < bm
  · rw [if_pos h1]
    by_cases h2 : hm < rm
    · rw [if_pos h2]
      have hmin : min rm hm = hm := min_eq_right (le_of_lt h2)
      by_cases h3 : ((1 : ℚ) - 2/100) * bm ≤ hm
      · rw [if_pos ⟨rfl, h3⟩]
        refine ⟨⟨fun hne => absurd rfl hne, fun hlt => ?_⟩, fun _ => rfl,
          fun hne => absurd rfl hne⟩
        rw [hmin] at hlt
        exact absurd hlt (not_lt.mpr h3)
      · rw [if_neg (fun hc => h3 hc.2)]
        refine ⟨⟨fun _ => ?_, fun _ => hhb⟩, fun he => absurd he hhb, fun _ => hmin.symm⟩
        rw [hmin]
        linarith
    · rw [if_neg h2]
      rw [if_pos h1]
      have hmin : min rm hm = rm := min_eq_left (by linarith)
      by_cases h3 : ((1 : ℚ) - 2/100) * bm ≤ rm
      · rw [if_pos ⟨rfl, h3⟩]
        refine ⟨⟨fun hne => absurd rfl hne, fun hlt => ?_⟩, fun _ => rfl,
          fun hne => absurd rfl hne⟩
        rw [hmin] at hlt
        exact absurd hlt (not_lt.mpr h3)
      · rw [if_neg (fun hc => h3 hc.2)]
        refine ⟨⟨fun _ => ?_, fun _ => hrb⟩, fun he => absurd he hrb, fun _ => hmin.symm⟩
        rw [hmin]
        linarith
  · rw [if_neg h1]
    by_cases h2 : hm < bm
    · rw [if_pos h2]
      have hmin : min rm hm = hm := min_eq_right (by linarith)
      by_cases h3 : ((1 : ℚ) - 2/100) * bm ≤ hm
      · rw [if_pos ⟨rfl, h3⟩]
        refine ⟨⟨fun hne => absurd rfl hne, fun hlt => ?_⟩, fun _ => rfl,
          fun hne => absurd rfl hne⟩
        rw [hmin] at hlt
        exact absurd hlt (not_lt.mpr h3)
      · rw [if_neg (fun hc => h3 hc.2)]
        refine ⟨⟨fun _ => ?_, fun _ => hhb⟩, fun he => absurd he hhb, fun _ => hmin.symm⟩
        rw [hmin]
        linarith
    · rw [if_neg h2, if_neg h1]
      refine ⟨⟨fun hne => absurd rfl hne, fun hlt => ?_⟩, fun _ => rfl,
        fun hne => absurd rfl hne⟩
      rcases min_cases rm hm with ⟨he, _⟩ | ⟨he, _⟩ <;> rw [he] at hlt <;> linarith

theorem selectTarget_true (bm rm hm : ℚ) :
    (selectTarget true bm rm hm).2 = min bm (min rm hm) ∧
    ((selectTarget true bm rm hm).1 = baselineKey ↔ bm ≤ rm ∧ bm ≤ hm) ∧
    ((selectTarget true bm rm hm).1 = ridgeKey ↔ rm < bm ∧ rm ≤ hm) ∧
    ((selectTarget true bm rm hm).1 = hgbKey ↔ hm < bm ∧ hm < rm) := by
  have hrb : ridgeKey ≠ baselineKey := by decide
  have hhb : hgbKey ≠ baselineKey := by decide
  have hhr : hgbKey ≠ ridgeKey := by decide
  have hnp : ∀ q : ℚ, ¬(true = false ∧ ((1:ℚ) - 2/100) * bm ≤ q) := fun q hc => by cases hc.1
  rw [selectTarget_eq]
  by_cases h1 : rm < bm
  · rw [if_pos h1]
    by_cases h2 : hm < rm
    · rw [if_pos h2, if_neg (hnp hm)]
      refine ⟨?_, ?_, ?_, ?_⟩
      · have e1 : min rm hm = hm := min_eq_right (le_of_lt h2)
        have e2 : min bm hm = hm := min_eq_right (by linarith)
        rw [e1, e2]
      · exact ⟨fun h => absurd h hhb, fun ha => absurd h1 (not_lt.mpr ha.1)⟩
      · exact ⟨fun h => absurd h hhr, fun hb => absurd h2 (not_lt.mpr hb.2)⟩
      · exact ⟨fun _ => ⟨by linarith, h2⟩, fun _ => rfl⟩
    · rw [if_neg h2, if_pos h1, if_neg (hnp rm)]
      refine ⟨?_, ?_, ?_, ?_⟩
      · have e1 : min rm hm = rm := min_eq_left (by linarith)
        have e2 : min bm rm = rm := min_eq_right (le_of_lt h1)
        rw [e1, e2]
      · exact ⟨fun h => absurd h hrb, fun ha => absurd h1 (not_lt.mpr ha.1)⟩
      · exact ⟨fun _ => ⟨h1, by linarith⟩, fun _ => rfl⟩
      · exact ⟨fun h => absurd h.symm hhr, fun hb => absurd hb.2 h2⟩
  · rw [if_neg h1]
    by_cases h2 : hm < bm
    · rw [if_pos h2, if_neg (hnp hm)]
      refine ⟨?_, ?_, ?_, ?_⟩
      · have e1 : min rm hm = hm := min_eq_right (by linarith)
        have e2 : min bm hm = hm := min_eq_right (le_of_lt h2)
        rw [e1, e2]
      · exact ⟨fun h => absurd h hhb, fun hb => absurd h2 (not_lt.mpr hb.2)⟩
      · exact ⟨fun h => absurd h hhr, fun ha => absurd ha.1 h1⟩
      · exact ⟨fun _ => ⟨h2, by linarith⟩, fun _ => rfl⟩
    · rw [if_neg h2, if_neg h1]
      refine ⟨?_, ?_, ?_, ?_⟩
      · have e3 : min bm (min rm hm) = bm := by
          rcases min_cases rm hm with ⟨he, _⟩ | ⟨he, _⟩ <;> rw [he] <;>
            exact min_eq_left (by linarith)
        rw [e3]
      · exact ⟨fun _ => ⟨by linarith, by linarith⟩, fun _ => rfl⟩
      · exact ⟨fun h => absurd h.symm hrb, fun ha => absurd ha.1 h1⟩
      · exact ⟨fun h => absurd h.symm hhb, fun ha => absurd ha.1 h2⟩

end FinanceAI

namespace FinanceAI

/-- C3: model selection with hysteresis in `_fit_one_target` (runtime
available, at least 20 samples).  With `force_ml` false, the returned
target's algo is non-baseline iff the best ML candidate's walk-forward MAE
is strictly below `(1 - 0.02) ·` the baseline's walk-forward MAE (otherwise
the result reverts to `baseline_seasonal` and the baseline MAE); with
`force_ml` true the reversion is skipped and the lowest-MAE candidate wins
(ties kept by the earlier candidate: baseline, then ridge). -/
theorem C3_hysteresis (μ : Type) (e : Ext μ) (X : List (List ℚ)) (y : List ℚ)
    (dfb : Option (List Key)) (force : Bool) (bm rm hm : ℚ) (tt : TrainedTarget)
    (hn : 20 ≤ y.length)
    (hb : walkForwardMae X y (baselineFP y dfb)
      ((y.length : ℤ) - (nValOf y.length : ℤ)) (nValOf y.length : ℤ) = .ok bm)
    (hr : walkForwardMae X y e.ridgeFP
      ((y.length : ℤ) - (nValOf y.length : ℤ)) (nValOf y.length : ℤ) = .ok rm)
    (hh : walkForwardMae X y e.hgbFP
      ((y.length : ℤ) - (nValOf y.length : ℤ)) (nValOf y.length : ℤ) = .ok hm)
    (htt : fitOneTarget e true X y dfb force = .ok tt) :
    tt.baseline_mae_val = bm ∧
    (force = false →
      ((tt.algo ≠ baselineKey ↔ min rm hm < (1 - 2/100) * bm) ∧
       (tt.algo = baselineKey → tt.mae_val = bm) ∧
       (tt.algo ≠ baselineKey → tt.mae_val = min rm hm))) ∧
    (force = true →
      (tt.mae_val = min bm (min rm hm) ∧
       (tt.algo = baselineKey ↔ bm ≤ rm ∧ bm ≤ hm) ∧
       (tt.algo = ridgeKey ↔ rm < bm ∧ rm ≤ hm) ∧
       (tt.algo = hgbKey ↔ hm < bm ∧ hm < rm))) := by
  have hbm := walkForwardMae_ok_nonneg hb
  have hlt20 : ¬(y.length < 20) := by omega
  unfold fitOneTarget at htt
  rw [if_neg (by decide : ¬(true = false))] at htt
  dsimp only at htt
  rw [if_neg hlt20] at htt
  rw [except_bind_ok_eq hb] at htt
  rw [except_bind_ok_eq hr] at htt
  rw [except_bind_ok_eq hh] at htt
  have hfields : tt.algo = (selectTarget force bm rm hm).1 ∧
      tt.mae_val = (selectTarget force bm rm hm).2 ∧ tt.baseline_mae_val = bm := by
    split at htt
    · simp only [pure, Except.pure, Except.ok.injEq] at htt
      rw [← htt]
      exact ⟨rfl, rfl, rfl⟩
    · split at htt
      · simp only [pure, Except.pure, Except.ok.injEq] at htt
        rw [← htt]
        exact ⟨rfl, rfl, rfl⟩
      · simp only [pure, Except.pure, Except.ok.injEq] at htt
        rw [← htt]
        exact ⟨rfl, rfl, rfl⟩
  obtain ⟨ha, hmv, hbv⟩ := hfields
  refine ⟨hbv, ?_, ?_⟩
  · intro hf
    subst hf
    obtain ⟨p1, p2, p3⟩ := selectTarget_false bm rm hm hbm
    rw [ha, hmv]
    exact ⟨p1, p2, p3⟩
  · intro hf
    subst hf
    obtain ⟨q1, q2, q3, q4⟩ := selectTarget_true bm rm hm
    rw [ha, hmv]
    exact ⟨q1, q2, q3, q4⟩

end FinanceAI

namespace FinanceAI

/-- A concrete external bundle for witnesses (all abstract functions
constant). -/
def extW : Ext Unit :=
  ⟨fun _ => 0, fun _ => 0, fun _ => 0, fun _ => 0, fun _ => 0,
   fun _ _ _ => .ok 0, fun _ _ _ => .ok 1,
   fun _ _ => [], fun _ _ => [], fun _ _ => [], fun _ _ => [],
   fun _ => none, fun _ _ => none⟩

def c3y : List ℚ := List.replicate 20 5

def c3X : List (List ℚ) := List.replicate 20 []

def c3tt : TrainedTarget := ⟨baselineKey, none, 0, 0, 0⟩

unseal Rat.mul Rat.inv Rat.add Rat.sub Nat.gcd in
/-- Witness for C3 at a concrete 20-sample training set. -/
theorem C3_hysteresis_witness :
    20 ≤ c3y.length ∧
    walkForwardMae c3X c3y (baselineFP c3y none)
      ((c3y.length : ℤ) - (nValOf c3y.length : ℤ)) (nValOf c3y.length : ℤ) = .ok 0 ∧
    walkForwardMae c3X c3y extW.ridgeFP
      ((c3y.length : ℤ) - (nValOf c3y.length : ℤ)) (nValOf c3y.length : ℤ) = .ok 5 ∧
    walkForwardMae c3X c3y extW.hgbFP
      ((c3y.length : ℤ) - (nValOf c3y.length : ℤ)) (nValOf c3y.length : ℤ) = .ok 4 ∧
    fitOneTarget extW true c3X c3y none false = .ok c3tt ∧
    (c3tt.baseline_mae_val = 0 ∧
     (false = false →
       ((c3tt.algo ≠ baselineKey ↔ min 5 4 < ((1 : ℚ) - 2/100) * 0) ∧
        (c3tt.algo = baselineKey → c3tt.mae_val = 0) ∧
        (c3tt.algo ≠ baselineKey → c3tt.mae_val = min 5 4))) ∧
     (false = true →
       (c3tt.mae_val = min 0 (min 5 4) ∧
        (c3tt.algo = baselineKey ↔ (0 : ℚ) ≤ 5 ∧ (0 : ℚ) ≤ 4) ∧
        (c3tt.algo = ridgeKey ↔ (5 : ℚ) < 0 ∧ (5 : ℚ) ≤ 4) ∧
        (c3tt.algo = hgbKey ↔ (4 : ℚ) < 0 ∧ (4 : ℚ) < 5)))) :=
  ⟨by decide, by decide, by decide, by decide, by decide,
   C3_hysteresis Unit extW c3X c3y none false 0 5 4 c3tt (by decide) (by decide) (by decide)
     (by decide) (by decide)⟩

end FinanceAI

namespace FinanceAI

/-! ### `_make_supervised_daily` and `train_daily_sklearn` -/

/-- `_make_supervised_daily(dates, inc, exp, lags)`.  Call sites guarantee
`lags ≥ 3` and equal-length series; out-of-range positive indexing raises
IndexError as in Python. -/
def makeSupervisedDaily (e : Ext μ) (dates : List Key) (inc exp : List ℚ)
    (lags : ℕ) : Except PyErr (List (List ℚ) × List ℚ × List ℚ) :=
  ((List.range' lags (dates.length - lags)).mapM (fun i =>
    if inc.length < i + 1 ∨ exp.length < i + 1 then .error .indexError
    else
      (dateFeats e (dates.getD i []) (i : ℤ)).map (fun feats =>
        let incLags := (List.range' 1 lags).map (fun k => inc.getD (i - k) 0)
        let expLags := (List.range' 1 lags).map (fun k => exp.getD (i - k) 0)
        let incMa7 := rollingMean (inc.take i) 7
        let incMa14 := rollingMean (inc.take i) 14
        let expMa7 := rollingMean (exp.take i) 7
        let expMa14 := rollingMean (exp.take i) 14
        let netLast := inc.getD (i - 1) 0 - exp.getD (i - 1) 0
        let netMa7 := rollingMean (((inc.take i).zip (exp.take i)).map (fun p => p.1 - p.2)) 7
        (feats ++ incLags ++ expLags
           ++ [incMa7, incMa14, expMa7, expMa14, netLast, netMa7],
         inc.getD i 0, exp.getD i 0)))).map
    (fun rows => (rows.map (fun r => r.1), rows.map (fun r => r.2.1),
      rows.map (fun r => r.2.2)))

/-- The payload `train_daily_sklearn` returns: `targets = none` models the
empty `targets` dict of the no-history branch. -/
structure TrainPayload where
  basis : Key
  trained_at : Key
  lags : ℤ
  warning : Option Key
  history_tail : List (Key × ℚ × ℚ × ℚ)
  targets : Option (TrainedTarget × TrainedTarget)
deriving DecidableEq

/-- `history_tail`: the last `n` days zipped with their values and nets. -/
def histTail (dates : List Key) (inc exp : List ℚ) (n : ℕ) :
    List (Key × ℚ × ℚ × ℚ) :=
  ((dates.drop (dates.length - n)).zip
      ((inc.drop (inc.length - n)).zip (exp.drop (exp.length - n)))).map
    (fun p => (p.1, p.2.1, p.2.2, p.2.1 - p.2.2))

def basisDaily : Key := keyOf "cash_daily_sklearn"

def warnNoHist : Key := keyOf "Sem histórico diário."

def warnShortHist : Key := keyOf "Histórico insuficiente para ML. Usando baseline sazonal."

/-- The "ML unavailable" warning (the source interpolates the import error
into it; the text stands for that family of strings). -/
def warnNoMl : Key := keyOf "ML indisponível. Usando baseline sazonal."

/-- `train_daily_sklearn(rows, lags, force_ml)`; `nowStr` abstracts
`datetime.utcnow().isoformat() + "Z"`, `avail` the numpy/sklearn imports. -/
def trainDailySklearn (e : Ext μ) (avail : Bool) (nowStr : Key)
    (rows : List RawRow) (lags0 : ℤ) (force : Bool) : Except PyErr TrainPayload :=
  fillDailySeries rows >>= fun triple =>
    let dates := triple.1
    let inc := triple.2.1
    let exp := triple.2.2
    if dates = [] then
      pure ⟨basisDaily, nowStr, lags0, some warnNoHist, [], none⟩
    else
      let lags1 : ℤ := max 3 (min lags0 30)
      let lagsF : ℤ :=
        if (dates.length : ℤ) ≤ lags1 + 5 then
          max 3 (min lags1 (max 3 ((dates.length : ℤ) / 3)))
        else lags1
      if (dates.length : ℤ) ≤ lagsF + 2 then
        pure ⟨basisDaily, nowStr, lagsF, some warnShortHist,
          histTail dates inc exp 60,
          some (⟨baselineKey, none, 0, 0, stdQ e.sqrtQ inc⟩,
                ⟨baselineKey, none, 0, 0, stdQ e.sqrtQ exp⟩)⟩
      else if avail = false then
        pure ⟨basisDaily, nowStr, lagsF, some warnNoMl,
          histTail dates inc exp 90,
          some (⟨baselineKey, none, 0, 0, stdQ e.sqrtQ inc⟩,
                ⟨baselineKey, none, 0, 0, stdQ e.sqrtQ exp⟩)⟩
      else
        makeSupervisedDaily e dates inc exp lagsF.toNat >>= fun sup =>
        fitOneTarget e avail sup.1 sup.2.1 (some (dates.drop lagsF.toNat)) force >>= fun tInc =>
        fitOneTarget e avail sup.1 sup.2.2 (some (dates.drop lagsF.toNat)) force >>= fun tExp =>
        pure ⟨basisDaily, nowStr, lagsF, none,
          histTail dates inc exp 90, some (tInc, tExp)⟩

/-- C4 (amended): with the numeric/ML runtime unavailable, for canonical row
lists with at least one parseable-dated row, `train_daily_sklearn` raises
nothing and returns a payload whose income and expense targets both carry
algo `baseline_seasonal` and which carries a warning.  (Unrestricted the
claim fails: rows whose parseable keys are non-canonical can produce an
empty filled series, whose payload has an empty `targets` dict.) -/
theorem C4_ml_unavailable (μ : Type) (e : Ext μ) (nowStr : Key)
    (rows : List RawRow) (lags0 : ℤ) (force : Bool)
    (hcanon : ∀ r ∈ rows, rowDailyOkB r = true)
    (hne : parsedDates rows ≠ []) :
    ∃ p : TrainPayload, trainDailySklearn e false nowStr rows lags0 force = .ok p ∧
      (∃ ti te, p.targets = some (ti, te) ∧
        ti.algo = baselineKey ∧ te.algo = baselineKey) ∧
      p.warning.isSome = true := by
  obtain ⟨ds, hfill, _, hiff, _⟩ := fillDaily_spec rows hcanon
  have hds : ds ≠ [] := fun h => hne (hiff.mpr h)
  have hdates : ds.map fmtD ≠ [] := fun h => hds (List.map_eq_nil.mp h)
  unfold trainDailySklearn
  rw [except_bind_ok_eq hfill]
  dsimp only
  rw [if_neg hdates]
  split
  all_goals
    split
    · exact ⟨_, rfl, ⟨_, _, rfl, rfl, rfl⟩, rfl⟩
    · rw [if_pos rfl]
      exact ⟨_, rfl, ⟨_, _, rfl, rfl, rfl⟩, rfl⟩

end FinanceAI

namespace FinanceAI

def c4rows : List RawRow := [some ⟨some (keyOf "2023-05-10"), some 1, some 2⟩]

def c4bad : List RawRow :=
  [some ⟨some (keyOf "2023-1-1"), some 1, some 1⟩,
   some ⟨some (keyOf "2023-02-01"), some 2, some 2⟩]

/-- Witness for C4 at a concrete one-row canonical history. -/
theorem C4_ml_unavailable_witness :
    (∀ r ∈ c4rows, rowDailyOkB r = true) ∧
    parsedDates c4rows ≠ [] ∧
    (∃ p : TrainPayload, trainDailySklearn extW false [] c4rows 14 false = .ok p ∧
      (∃ ti te, p.targets = some (ti, te) ∧
        ti.algo = baselineKey ∧ te.algo = baselineKey) ∧
      p.warning.isSome = true) :=
  ⟨by decide, by decide,
   C4_ml_unavailable Unit extW [] c4rows 14 false (by decide) (by decide)⟩

/-- C4 counterexample to the unrestricted claim: two rows with parseable
dates (one non-canonical) make the filled series empty, so the ML-unavailable
training call returns a payload with an empty `targets` dict — no
`baseline_seasonal` income target exists. -/
theorem C4_ml_unavailable_counterexample :
    parsedDates c4bad ≠ [] ∧
    trainDailySklearn extW false [] c4bad 14 false
      = .ok ⟨basisDaily, [], 14, some warnNoHist, [], none⟩ :=
  ⟨by decide, by decide⟩

end FinanceAI

namespace FinanceAI

/-! ### `_sort_unique_daily_hist`, `_safe_load_model`, anchor extension,
`_predict_one`, `build_category_profile`, and `forecast_next_days_daily_v2` -/

structure HistRow where
  date : Key
  income : ℚ
  expense : ℚ
  net : ℚ
deriving DecidableEq

def buildHistDict (rows : List RawRow) : List (Key × (ℚ × ℚ)) :=
  rows.foldl (fun acc r =>
    match r with
    | none => acc
    | some row =>
      let d := strip (row.date.getD [])
      if d = [] then acc
      else dictInsert acc d (safeFloat row.income, safeFloat row.expense)) []

/-- `_sort_unique_daily_hist`.  Sorting a dict-key list that mixes parseable
dates (`datetime` sort keys) with unparseable ones (`str` sort keys) makes
CPython's sort compare a `datetime` with a `str` and raise TypeError; a pure
list sorts by date (stably, so equal-date keys keep insertion order), and a
purely unparseable list sorts lexicographically. -/
def sortUniqueDailyHist (rows : List RawRow) : Except PyErr (List HistRow) :=
  if rows = [] then .ok []
  else
    let tmp := buildHistDict rows
    let ks := dictKeys tmp
    if ks.any (fun k => (parseYMD k).isSome) && ks.any (fun k => (parseYMD k).isNone) then
      .error .typeError
    else
      let sorted :=
        if ks.all (fun k => (parseYMD k).isSome) then
          pySorted (fun a b =>
            dtLeB ((parseYMD a).getD ⟨1, 1, 1⟩) ((parseYMD b).getD ⟨1, 1, 1⟩)) ks
        else pySorted (fun a b => lexLe a b) ks
      .ok (sorted.map (fun k =>
        let v := (dictGet tmp k).getD (0, 0)
        ⟨k, v.1, v.2, v.1 - v.2⟩))

/-- `_safe_load_model(b64)`; `decode` abstracts base64+unpickle (`none` = any
decoding failure). -/
def safeLoadModel (decode : Key → Option μ) (tok : Option Key) : Option μ :=
  match tok with
  | none => none
  | some k => if k = [] then none else decode k

/-- The per-target algo/model resolution of both forecast functions: falsy
algo defaults to baseline, a missing model forces a non-baseline algo back to
baseline, and an absent numpy forces baseline with no model. -/
def resolveTarget (decode : Key → Option μ) (npAvail : Bool) (algo0 : Option Key)
    (tok : Option Key) : Key × Option μ :=
  let a1 := match algo0 with
    | none => baselineKey
    | some k => if k = [] then baselineKey else k
  let m := safeLoadModel decode tok
  let a2 := if a1 ≠ baselineKey ∧ m.isNone = true then baselineKey else a1
  if npAvail = true then (a2, m) else (baselineKey, none)

/-- `_extend_series_until_anchor_with_zeros`.  `adt - timedelta(1)` is
computed before any comparison, so an anchor of 0001-01-01 raises
OverflowError. -/
def extendSeriesUntilAnchor (dates : List Key) (inc exp : List ℚ) (anchor : Key) :
    Except PyErr (List Key × List ℚ × List ℚ) :=
  if dates = [] then .ok (dates, inc, exp)
  else
    match parseYMD anchor with
    | none => .ok (dates, inc, exp)
    | some adt =>
      match parseYMD ((dates.getLast?).getD []) with
      | none => .ok (dates, inc, exp)
      | some last =>
        if adt = ⟨1, 1, 1⟩ then .error .overflowError
        else
          let targetLast := prevDay adt
          if dtLeB targetLast last then .ok (dates, inc, exp)
          else
            let ext := dateRange (dtM targetLast + 1 - dtM (nextDay last)) (nextDay last)
              targetLast
            .ok (dates ++ ext.map fmtD, inc ++ ext.map (fun _ => 0),
              exp ++ ext.map (fun _ => 0))

/-- `_predict_one`. -/
def predictOne (e : Ext μ) (algo : Key) (model : Option μ)
    (bd : List Key) (bv : List ℚ) (target : Key) (X : Option (List (List ℚ))) :
    Except PyErr ℚ :=
  if algo = baselineKey then baselineSeasonalPredictOne bd bv target
  else
    match model, X with
    | some m, some xq =>
      match e.predictM m xq with
      | some v => .ok v
      | none => baselineSeasonalPredictOne bd bv target
    | _, _ => baselineSeasonalPredictOne bd bv target

structure TargetSpec where
  algo : Option Key
  model_b64 : Option Key
  resid_std : Option ℚ
deriving DecidableEq

/-- The payload `forecast_next_days_daily_v2` consumes. -/
structure FPayload where
  basis : Option Key
  trained_at : Option Key
  lags : Option ℤ
  history_tail : List RawRow
  t_income : Option TargetSpec
  t_expense : Option TargetSpec
deriving DecidableEq

structure PointOut where
  date : Key
  income_pred : ℚ
  expense_pred : ℚ
  net_pred : ℚ
  income_low : ℚ
  income_high : ℚ
  expense_low : ℚ
  expense_high : ℚ
  expense_by_category : List (Key × ℚ)
deriving DecidableEq

structure MetaOut where
  basis : Option Key
  trained_at : Option Key
  lags : Option ℤ
  income_algo : Option Key
  expense_algo : Option Key
  anchor_date : Key
  history_last_date : Option Key
deriving DecidableEq

structure ForecastOut where
  meta : MetaOut
  horizon_days : ℤ
  kpis : ℚ × ℚ × ℚ
  series : List PointOut
  top_categories : List (Key × ℚ × ℚ)
  alerts : List (Key × Key)
  risk_score : ℤ
deriving DecidableEq

structure CatRowIn where
  date : Option Key
  category : Option Key
  expense : Option ℚ
deriving DecidableEq

abbrev RawCatRow : Type := Option CatRowIn

/-- `build_category_profile` with `decay=0.965`, `smooth=1.0` (the call site
uses the defaults). -/
def buildCategoryProfile (rows : List RawCatRow) : List (Key × ℚ) :=
  if rows = [] then []
  else
    let valid := rows.filterMap (fun r =>
      match r with
      | none => none
      | some row =>
        let d := strip (row.date.getD [])
        if d = [] then none
        else if (parseYMD d).isSome then some row else none)
    if valid = [] then []
    else
      let rowsS := pySorted (fun a b => lexLe (a.date.getD []) (b.date.getD [])) valid
      let uniq := pySorted (fun a b => lexLe a b)
        (dedupAcc [] (valid.map (fun r => r.date.getD [])))
      let T := uniq.length
      let wDate := fun d => ((193 : ℚ)/200) ^ (T - 1 - uniq.indexOf d)
      let weights := rowsS.foldl (fun acc r =>
        let cat := match r.category with
          | none => outrosKey
          | some c => if c = [] then outrosKey else c
        let v := safeFloat r.expense
        if v ≤ 0 then acc
        else dictInsert acc cat ((dictGet acc cat).getD 0 + v * wDate (r.date.getD []))) []
      if weights = [] then weights
      else weights.map (fun p => (p.1, p.2 + 1))

/-- The loop-invariant context of the daily forecast loop. -/
structure StepCtx (μ : Type) where
  e : Ext μ
  npAvail : Bool
  incAlgo : Key
  incModel : Option μ
  expAlgo : Key
  expModel : Option μ
  incStd : ℚ
  expStd : ℚ
  catProfile : List (Key × ℚ)
  topK : ℤ
  lags : ℤ
  lastDt : Dt

abbrev StepState : Type := List Key × List ℚ × List ℚ × List PointOut

/-- One iteration `h` of the daily forecast loop (lines 939-1010). -/
def forecastStepDaily (c : StepCtx μ) (st : StepState) (h : ℕ) :
    Except PyErr StepState :=
  let dates := st.1
  let incVals := st.2.1
  let expVals := st.2.2.1
  let preds := st.2.2.2
  if dtLtB maxDt (iterNext h c.lastDt) = true then .error .overflowError
  else
    let fdt := iterNext h c.lastDt
    let fdate := fmtD fdt
    let tIdx : ℤ := (dates.length : ℤ) - 1 + h
    let effLags := max 3 (min c.lags (min (incVals.length : ℤ) (min (expVals.length : ℤ) 30)))
    if (incVals.length : ℤ) < effLags ∨ (expVals.length : ℤ) < effLags then
      .error .indexError
    else
      let el := effLags.toNat
      let incLags := (List.range' 1 el).map (fun k => incVals.getD (incVals.length - k) 0)
      let expLags := (List.range' 1 el).map (fun k => expVals.getD (expVals.length - k) 0)
      (dateFeats c.e fdate tIdx) >>= fun feats =>
      let incMa7 := rollingMean incVals 7
      let incMa14 := rollingMean incVals 14
      let expMa7 := rollingMean expVals 7
      let expMa14 := rollingMean expVals 14
      let netLast := incVals.getD (incVals.length - 1) 0 - expVals.getD (expVals.length - 1) 0
      let netMa7 := rollingMean
        (((incVals.drop (incVals.length - 30)).zip (expVals.drop (expVals.length - 30))).map
          (fun p => p.1 - p.2)) 7
      let X := if c.npAvail = true ∧
          ((c.incAlgo ≠ baselineKey ∧ c.incModel.isSome = true) ∨
           (c.expAlgo ≠ baselineKey ∧ c.expModel.isSome = true)) then
        some [feats ++ incLags ++ expLags
          ++ [incMa7, incMa14, expMa7, expMa14, netLast, netMa7]]
      else none
      predictOne c.e c.incAlgo c.incModel dates incVals fdate X >>= fun incP0 =>
      predictOne c.e c.expAlgo c.expModel dates expVals fdate X >>= fun expP0 =>
      let incPred := max 0 incP0
      let expPred := max 0 expP0
      let z : ℚ := 32/25
      let pt : PointOut := ⟨fdate, incPred, expPred, incPred - expPred,
        max 0 (incPred - z * c.incStd), incPred + z * c.incStd,
        max 0 (expPred - z * c.expStd), expPred + z * c.expStd,
        (allocate_expense_to_categories expPred c.catProfile c.topK).1⟩
      .ok (dates ++ [fdate], incVals ++ [incPred], expVals ++ [expPred], preds ++ [pt])

/-- `anchor_date or _today_ymd_local()` (falsy anchors fall back to today). -/
def anchorOrToday (anchor : Option Key) (todayStr : Key) : Key :=
  match anchor with
  | none => todayStr
  | some k => if k = [] then todayStr else k

def warnKey : Key := keyOf "warn"

def infoKey : Key := keyOf "info"

def msgNoHist : Key := keyOf "Sem histórico no payload."

def msgHighExpense : Key := keyOf "Despesa média prevista acima do padrão recente."

def msgNegNet : Key := keyOf "Saldo líquido previsto negativo no horizonte."

def msgUncertain : Key := keyOf "Incerteza elevada: histórico instável ou esparso."

/-- `forecast_next_days_daily_v2`; `todayStr` abstracts
`_today_ymd_local()`, `npAvail` the numpy import. -/
def forecastV2 (e : Ext μ) (npAvail : Bool) (todayStr : Key) (payload : FPayload)
    (days : ℤ) (catRows : List RawCatRow) (topK : ℤ) (anchor : Option Key) :
    Except PyErr ForecastOut :=
  if days < 1 ∨ 60 < days then .error .valueError
  else
    sortUniqueDailyHist payload.history_tail >>= fun hist =>
    let anch0 := anchorOrToday anchor todayStr
    if hist = [] then
      .ok ⟨⟨payload.basis, payload.trained_at, none, none, none, anch0, none⟩,
        days, (0, 0, 0), [], [], [(warnKey, msgNoHist)], 0⟩
    else
      let lags0 : ℤ := payload.lags.getD 14
      let dates0 := hist.map (fun r => r.date)
      let incVals0 := hist.map (fun r => r.income)
      let expVals0 := hist.map (fun r => r.expense)
      let lags : ℤ :=
        if (incVals0.length : ℤ) < max 3 lags0 ∨ (expVals0.length : ℤ) < max 3 lags0 then
          max 3 (min lags0 (min ((incVals0.length : ℤ) - 1) ((expVals0.length : ℤ) - 1)))
        else lags0
      let effAnchor := strip anch0
      extendSeriesUntilAnchor dates0 incVals0 expVals0 effAnchor >>= fun ext =>
      let dates1 := ext.1
      let incVals1 := ext.2.1
      let expVals1 := ext.2.2
      let ti := payload.t_income.getD ⟨none, none, none⟩
      let te := payload.t_expense.getD ⟨none, none, none⟩
      let ri := resolveTarget e.decode npAvail ti.algo ti.model_b64
      let rx := resolveTarget e.decode npAvail te.algo te.model_b64
      let incStd := ti.resid_std.getD 0
      let expStd := te.resid_std.getD 0
      let catProfile := buildCategoryProfile catRows
      (match parseYMD ((dates1.getLast?).getD []) with
       | none => .error .valueError
       | some d => .ok d) >>= fun lastDt =>
      (List.range' 1 days.toNat).foldlM
        (forecastStepDaily ⟨e, npAvail, ri.1, ri.2, rx.1, rx.2, incStd, expStd,
          catProfile, topK, lags, lastDt⟩)
        (dates1, incVals1, expVals1, ([] : List PointOut)) >>= fun fin =>
      let preds := fin.2.2.2
      let expValsF := fin.2.2.1
      let incomeTotal := (preds.map (fun p => p.income_pred)).sum
      let expenseTotal := (preds.map (fun p => p.expense_pred)).sum
      let netTotal := incomeTotal - expenseTotal
      let catSum := preds.foldl (fun acc p =>
        p.expense_by_category.foldl (fun a kv =>
          dictInsert a kv.1 ((dictGet a kv.1).getD 0 + kv.2)) acc) []
      let sortedCats := pySorted (fun a b => decide (b.2 ≤ a.2)) catSum
      let topCats := (sortedCats.take (max 1 topK).toNat).map
        (fun kv => (kv.1, kv.2, if 0 < expenseTotal then kv.2 / expenseTotal else 0))
      let histExp := expValsF.drop (expValsF.length - 60)
      let mu := pyMean histExp
      let sigma := stdQ e.sqrtQ histExp
      let expAvgPred := if 0 < days then expenseTotal / (days : ℚ) else 0
      let a1 := 0 < sigma ∧ mu + sigma < expAvgPred
      let a2 := netTotal < 0
      let a3 := 0 < incStd + expStd ∧ (6/10) * (mu + 1/1000000000) < incStd + expStd
      let alertsL :=
        (if a1 then [(warnKey, msgHighExpense)] else [])
        ++ (if a2 then [(warnKey, msgNegNet)] else [])
        ++ (if a3 then [(infoKey, msgUncertain)] else [])
      let risk : ℤ := (if a1 then 3 else 0) + (if a2 then 4 else 0) + (if a3 then 2 else 0)
      .ok ⟨⟨payload.basis, payload.trained_at, payload.lags, some ri.1, some rx.1,
        effAnchor, (hist.getLast?).map (fun r => r.date)⟩,
        days, (incomeTotal, expenseTotal, netTotal), preds, topCats, alertsL,
        max 0 (min 10 risk)⟩

end FinanceAI

namespace FinanceAI

/-! ### `_add_months`, `_ym_feats`, `forecast_next_months` -/

def pad3 (n : ℕ) : Key := [dig (n / 100), dig (n / 10), dig n]

def natDecimal (n : ℕ) : Key := (Nat.digits 10 n).reverse.map (fun d => 48 + d)

/-- `f"{n:04d}"` for `n ≥ 0`: zero-padded to width 4, full decimal beyond. -/
def fmtW4 (n : ℕ) : Key := if n ≤ 9999 then pad4 n else natDecimal n

def fmtW3 (n : ℕ) : Key := if n ≤ 999 then pad3 n else natDecimal n

/-- `f"{z:04d}"`: the sign counts toward the width. -/
def fmtIntW4 (z : ℤ) : Key := if z < 0 then 45 :: fmtW3 z.natAbs else fmtW4 z.toNat

/-- `_add_months(ym, delta)`; ValueError when the 2-way unpacking of
`ym.split("-")` or an `int()` raises. -/
def addMonths (ym : Key) (delta : ℤ) : Except PyErr Key :=
  match splitOn45 ym with
  | [ys, ms] =>
    match intPy ys, intPy ms with
    | some y, some m =>
      let m0 := (m - 1) + delta
      let y2 := y + m0.fdiv 12
      let m2 := (m0.fmod 12) + 1
      .ok (fmtIntW4 y2 ++ (45 :: pad2 m2.toNat))
    | _, _ => .error .valueError
  | _ => .error .valueError

/-- `_ym_feats(ym, t_idx)`. -/
def ymFeats (e : Ext μ) (ym : Key) (tIdx : ℤ) : Except PyErr (List ℚ) :=
  match splitOn45 ym with
  | [_, ms] =>
    match intPy ms with
    | some m => .ok [(tIdx : ℚ), (m : ℚ), e.sin12 m.toNat, e.cos12 m.toNat]
    | none => .error .valueError
  | _ => .error .valueError

structure MPayload where
  basis : Option Key
  trained_at : Option Key
  lags : Option ℤ
  history : List MRowIn
  t_income : Option TargetSpec
  t_expense : Option TargetSpec
deriving DecidableEq

structure PointOutM where
  ym : Key
  income_pred : ℚ
  expense_pred : ℚ
  balance_pred : ℚ
  income_low : ℚ
  income_high : ℚ
  expense_low : ℚ
  expense_high : ℚ
deriving DecidableEq

structure MForecastOut where
  meta_basis : Option Key
  meta_trained_at : Option Key
  meta_lags : Option ℤ
  meta_income_algo : Option Key
  meta_expense_algo : Option Key
  horizon : ℤ
  kpis : ℚ × ℚ × ℚ
  series : List PointOutM
deriving DecidableEq

structure StepCtxM (μ : Type) where
  e : Ext μ
  npAvail : Bool
  incAlgo : Key
  incModel : Option μ
  expAlgo : Key
  expModel : Option μ
  incStd : ℚ
  expStd : ℚ
  lags : ℤ
  lastYm : Key
  yms0 : ℕ

abbrev StepStateM : Type := List ℚ × List ℚ × List PointOutM

/-- One iteration `h` of the monthly forecast loop (lines 1285-1342). -/
def forecastStepMonthly (c : StepCtxM μ) (st : StepStateM) (h : ℕ) :
    Except PyErr StepStateM :=
  let incVals := st.1
  let expVals := st.2.1
  let preds := st.2.2
  addMonths c.lastYm (h : ℤ) >>= fun fym =>
  let tIdx : ℤ := (c.yms0 : ℤ) - 1 + h
  if (incVals.length : ℤ) < c.lags ∨ (expVals.length : ℤ) < c.lags then
    .error .indexError
  else
    let el := c.lags.toNat
    let incLags := (List.range' 1 el).map (fun k => incVals.getD (incVals.length - k) 0)
    let expLags := (List.range' 1 el).map (fun k => expVals.getD (expVals.length - k) 0)
    ymFeats c.e fym tIdx >>= fun feats =>
    let incMa3 := rollingMean incVals 3
    let incMa6 := rollingMean incVals 6
    let expMa3 := rollingMean expVals 3
    let expMa6 := rollingMean expVals 6
    let netLast := incVals.getD (incVals.length - 1) 0 - expVals.getD (expVals.length - 1) 0
    let netMa3 := rollingMean
      (((incVals.drop (incVals.length - 18)).zip (expVals.drop (expVals.length - 18))).map
        (fun p => p.1 - p.2)) 3
    let X := if c.npAvail = true ∧
        ((c.incAlgo ≠ baselineKey ∧ c.incModel.isSome = true) ∨
         (c.expAlgo ≠ baselineKey ∧ c.expModel.isSome = true)) then
      some [feats ++ incLags ++ expLags ++ [incMa3, incMa6, expMa3, expMa6, netLast, netMa3]]
    else none
    let incPred0 :=
      if c.incAlgo = baselineKey ∨ c.incModel.isNone = true ∨ X.isNone = true then
        rollingMean incVals 3
      else
        match c.incModel, X with
        | some m, some xq =>
          match c.e.predictM m xq with
          | some v => v
          | none => rollingMean incVals 3
        | _, _ => rollingMean incVals 3
    let incPred := max 0 incPred0
    let expPred0 :=
      if c.expAlgo = baselineKey ∨ c.expModel.isNone = true ∨ X.isNone = true then
        rollingMean expVals 3
      else
        match c.expModel, X with
        | some m, some xq =>
          match c.e.predictM m xq with
          | some v => v
          | none => rollingMean expVals 3
        | _, _ => rollingMean expVals 3
    let expPred := max 0 expPred0
    let z : ℚ := 32/25
    let pt : PointOutM := ⟨fym, incPred, expPred, incPred - expPred,
      max 0 (incPred - z * c.incStd), incPred + z * c.incStd,
      max 0 (expPred - z * c.expStd), expPred + z * c.expStd⟩
    .ok (incVals ++ [incPred], expVals ++ [expPred], preds ++ [pt])

/-- `forecast_next_months(payload, horizon)`. -/
def forecastNextMonths (e : Ext μ) (npAvail : Bool) (payload : MPayload)
    (horizon : ℤ) : Except PyErr MForecastOut :=
  if horizon < 1 ∨ 24 < horizon then .error .valueError
  else if payload.history = [] then
    .ok ⟨payload.basis, payload.trained_at, none, none, none, horizon, (0, 0, 0), []⟩
  else
    let lags0 : ℤ := payload.lags.getD 6
    let kept := payload.history.filter (fun r => decide (strip (r.ym.getD []) ≠ []))
    let yms := kept.map (fun r => strip (r.ym.getD []))
    let incVals0 := kept.map (fun r => safeFloat r.income)
    let expVals0 := kept.map (fun r => safeFloat r.expense_total)
    if yms = [] then
      .ok ⟨payload.basis, payload.trained_at, none, none, none, horizon, (0, 0, 0), []⟩
    else
      let lags : ℤ :=
        if incVals0.length ≤ 2 ∨ expVals0.length ≤ 2 then 2
        else max 2 (min lags0 (min ((incVals0.length : ℤ) - 1) ((expVals0.length : ℤ) - 1)))
      let ti := payload.t_income.getD ⟨none, none, none⟩
      let te := payload.t_expense.getD ⟨none, none, none⟩
      let ri := resolveTarget e.decode npAvail ti.algo ti.model_b64
      let rx := resolveTarget e.decode npAvail te.algo te.model_b64
      let incStd := ti.resid_std.getD 0
      let expStd := te.resid_std.getD 0
      let lastYm := (yms.getLast?).getD []
      (List.range' 1 horizon.toNat).foldlM
        (forecastStepMonthly ⟨e, npAvail, ri.1, ri.2, rx.1, rx.2, incStd, expStd,
          lags, lastYm, yms.length⟩)
        (incVals0, expVals0, ([] : List PointOutM)) >>= fun fin =>
      let preds := fin.2.2
      let incomeTotal := (preds.map (fun p => p.income_pred)).sum
      let expenseTotal := (preds.map (fun p => p.expense_pred)).sum
      let balTotal := (preds.map (fun p => p.balance_pred)).sum
      .ok ⟨payload.basis, payload.trained_at, payload.lags, some ri.1, some rx.1,
        horizon, (incomeTotal, expenseTotal, balTotal), preds⟩

end FinanceAI

namespace FinanceAI

/-! ### C7: the shape of every forecast point -/

theorem except_bind_eq_ok {γ δ : Type} {x : Except PyErr γ} {f : γ → Except PyErr δ}
    {b : δ} (h : (x >>= f) = .ok b) : ∃ a, x = .ok a ∧ f a = .ok b := by
  rcases x with e | a
  · exact Except.noConfusion h
  · exact ⟨a, rfl, h⟩

/-- The fields of one daily forecast point, as the claim states them. -/
def PointShape (istd estd : ℚ) (p : PointOut) : Prop :=
  0 ≤ p.income_pred ∧ 0 ≤ p.expense_pred ∧
  p.net_pred = p.income_pred - p.expense_pred ∧
  p.income_low = max 0 (p.income_pred - (32/25) * istd) ∧
  p.income_high = p.income_pred + (32/25) * istd ∧
  p.expense_low = max 0 (p.expense_pred - (32/25) * estd) ∧
  p.expense_high = p.expense_pred + (32/25) * estd

/-- The monthly analogue. -/
def PointShapeM (istd estd : ℚ) (p : PointOutM) : Prop :=
  0 ≤ p.income_pred ∧ 0 ≤ p.expense_pred ∧
  p.balance_pred = p.income_pred - p.expense_pred ∧
  p.income_low = max 0 (p.income_pred - (32/25) * istd) ∧
  p.income_high = p.income_pred + (32/25) * istd ∧
  p.expense_low = max 0 (p.expense_pred - (32/25) * estd) ∧
  p.expense_high = p.expense_pred + (32/25) * estd

theorem forecastStepDaily_preds {μ : Type} {c : StepCtx μ} {st st' : StepState} {h : ℕ}
    (hok : forecastStepDaily c st h = .ok st') :
    ∃ pt, st'.2.2.2 = st.2.2.2 ++ [pt] ∧ PointShape c.incStd c.expStd pt := by
  unfold forecastStepDaily at hok
  dsimp only at hok
  split at hok
  · exact Except.noConfusion hok
  · split at hok
    · exact Except.noConfusion hok
    · obtain ⟨feats, hfe, hok⟩ := except_bind_eq_ok hok
      obtain ⟨ip, hip, hok⟩ := except_bind_eq_ok hok
      obtain ⟨ep, hep, hok⟩ := except_bind_eq_ok hok
      have h2 := Except.ok.inj hok
      subst h2
      exact ⟨_, rfl, le_max_left _ _, le_max_left _ _, rfl, rfl, rfl, rfl, rfl⟩

theorem forecastStepMonthly_preds {μ : Type} {c : StepCtxM μ} {st st' : StepStateM} {h : ℕ}
    (hok : forecastStepMonthly c st h = .ok st') :
    ∃ pt, st'.2.2 = st.2.2 ++ [pt] ∧ PointShapeM c.incStd c.expStd pt := by
  unfold forecastStepMonthly at hok
  obtain ⟨fym, hfym, hok⟩ := except_bind_eq_ok hok
  split at hok
  · exact Except.noConfusion hok
  · obtain ⟨feats, hfe, hok⟩ := except_bind_eq_ok hok
    have h2 := Except.ok.inj hok
    subst h2
    exact ⟨_, rfl, le_max_left _ _, le_max_left _ _, rfl, rfl, rfl, rfl, rfl⟩

theorem foldDaily_shape {μ : Type} {c : StepCtx μ} :
    ∀ (hs : List ℕ) (st0 st1 : StepState),
      hs.foldlM (forecastStepDaily c) st0 = .ok st1 →
      (∀ p ∈ st0.2.2.2, PointShape c.incStd c.expStd p) →
      ∀ p ∈ st1.2.2.2, PointShape c.incStd c.expStd p := by
  intro hs
  induction hs with
  | nil =>
    intro st0 st1 h hinv
    have h2 := Except.ok.inj h
    subst h2
    exact hinv
  | cons a t ih =>
    intro st0 st1 h hinv
    rw [List.foldlM_cons] at h
    obtain ⟨stm, hstep, hrest⟩ := except_bind_eq_ok h
    obtain ⟨pt, heq, hshape⟩ := forecastStepDaily_preds hstep
    refine ih stm st1 hrest ?_
    rw [heq]
    intro p hp
    rcases List.mem_append.mp hp with h1 | h1
    · exact hinv p h1
    · rw [List.mem_singleton] at h1
      subst h1
      exact hshape

theorem foldMonthly_shape {μ : Type} {c : StepCtxM μ} :
    ∀ (hs : List ℕ) (st0 st1 : StepStateM),
      hs.foldlM (forecastStepMonthly c) st0 = .ok st1 →
      (∀ p ∈ st0.2.2, PointShapeM c.incStd c.expStd p) →
      ∀ p ∈ st1.2.2, PointShapeM c.incStd c.expStd p := by
  intro hs
  induction hs with
  | nil =>
    intro st0 st1 h hinv
    have h2 := Except.ok.inj h
    subst h2
    exact hinv
  | cons a t ih =>
    intro st0 st1 h hinv
    rw [List.foldlM_cons] at h
    obtain ⟨stm, hstep, hrest⟩ := except_bind_eq_ok h
    obtain ⟨pt, heq, hshape⟩ := forecastStepMonthly_preds hstep
    refine ih stm st1 hrest ?_
    rw [heq]
    intro p hp
    rcases List.mem_append.mp hp with h1 | h1
    · exact hinv p h1
    · rw [List.mem_singleton] at h1
      subst h1
      exact hshape

end FinanceAI

namespace FinanceAI

/-- C7: every point of a successful daily or monthly forecast has
non-negative income and expense predictions, lower confidence bounds
`max(0, pred − 1.28·resid_std)` (never negative) and upper bounds
`pred + 1.28·resid_std`, at every step of the recursive horizon. -/
theorem C7_confidence_bounds (μ : Type) (e : Ext μ) (npAvail : Bool) (todayStr : Key)
    (payload : FPayload) (days : ℤ) (catRows : List RawCatRow) (topK : ℤ)
    (anchor : Option Key) (out : ForecastOut)
    (mpayload : MPayload) (horizon : ℤ) (mout : MForecastOut)
    (hout : forecastV2 e npAvail todayStr payload days catRows topK anchor = .ok out)
    (hmout : forecastNextMonths e npAvail mpayload horizon = .ok mout) :
    (∀ p ∈ out.series,
      PointShape ((payload.t_income.getD ⟨none, none, none⟩).resid_std.getD 0)
        ((payload.t_expense.getD ⟨none, none, none⟩).resid_std.getD 0) p) ∧
    (∀ p ∈ mout.series,
      PointShapeM ((mpayload.t_income.getD ⟨none, none, none⟩).resid_std.getD 0)
        ((mpayload.t_expense.getD ⟨none, none, none⟩).resid_std.getD 0) p) := by
  constructor
  · unfold forecastV2 at hout
    split at hout
    · exact Except.noConfusion hout
    · obtain ⟨hist, hh, hout⟩ := except_bind_eq_ok hout
      dsimp only at hout
      split at hout
      · have h2 := Except.ok.inj hout
        subst h2
        intro p hp
        cases hp
      · obtain ⟨ext, hx, hout⟩ := except_bind_eq_ok hout
        obtain ⟨lastDt, hl, hout⟩ := except_bind_eq_ok hout
        obtain ⟨fin, hf, hout⟩ := except_bind_eq_ok hout
        have h2 := Except.ok.inj hout
        subst h2
        intro p hp
        exact foldDaily_shape _ _ _ hf (by intro q hq; cases hq) p hp
  · unfold forecastNextMonths at hmout
    split at hmout
    · exact Except.noConfusion hmout
    · split at hmout
      · have h2 := Except.ok.inj hmout
        subst h2
        intro p hp
        cases hp
      · dsimp only at hmout
        split at hmout
        · have h2 := Except.ok.inj hmout
          subst h2
          intro p hp
          cases hp
        · obtain ⟨fin, hf, hmout⟩ := except_bind_eq_ok hmout
          have h2 := Except.ok.inj hmout
          subst h2
          intro p hp
          exact foldMonthly_shape _ _ _ hf (by intro q hq; cases hq) p hp

end FinanceAI

namespace FinanceAI

def c7payload : FPayload :=
  ⟨none, none, none,
   [some ⟨some (keyOf "2024-01-02"), some 0, some 0⟩,
    some ⟨some (keyOf "2024-01-03"), some 0, some 0⟩,
    some ⟨some (keyOf "2024-01-04"), some 0, some 0⟩], none, none⟩

def c7out : ForecastOut :=
  (forecastV2 extW true (keyOf "2024-01-05") c7payload 1 [] 8 none).toOption.getD
    ⟨⟨none, none, none, none, none, [], none⟩, 0, (0, 0, 0), [], [], [], 0⟩

def c7mpayload : MPayload :=
  ⟨none, none, none,
   [⟨some (keyOf "2024-01"), some 0, some 0⟩,
    ⟨some (keyOf "2024-02"), some 0, some 0⟩,
    ⟨some (keyOf "2024-03"), some 0, some 0⟩], none, none⟩

def c7mout : MForecastOut :=
  (forecastNextMonths extW true c7mpayload 1).toOption.getD
    ⟨none, none, none, none, none, 0, (0, 0, 0), []⟩

unseal Rat.mul Rat.inv Rat.add Rat.sub Nat.gcd in
/-- Witness for C7 at a concrete one-day and one-month forecast. -/
theorem C7_confidence_bounds_witness :
    forecastV2 extW true (keyOf "2024-01-05") c7payload 1 [] 8 none = .ok c7out ∧
    forecastNextMonths extW true c7mpayload 1 = .ok c7mout ∧
    ((∀ p ∈ c7out.series,
      PointShape ((c7payload.t_income.getD ⟨none, none, none⟩).resid_std.getD 0)
        ((c7payload.t_expense.getD ⟨none, none, none⟩).resid_std.getD 0) p) ∧
     (∀ p ∈ c7mout.series,
      PointShapeM ((c7mpayload.t_income.getD ⟨none, none, none⟩).resid_std.getD 0)
        ((c7mpayload.t_expense.getD ⟨none, none, none⟩).resid_std.getD 0) p)) :=
  ⟨by decide, by decide,
   C7_confidence_bounds Unit extW true (keyOf "2024-01-05") c7payload 1 [] 8 none c7out
     c7mpayload 1 c7mout (by decide) (by decide)⟩

end FinanceAI

namespace FinanceAI

/-! ### C10: the degenerate no-history response -/

/-- A row `_sort_unique_daily_hist` drops: a non-dict, or one whose stripped
date string is empty. -/
def rowDatelessB (r : RawRow) : Bool :=
  match r with
  | none => true
  | some row => decide (strip (row.date.getD []) = [])

theorem buildHistDict_dateless {rows : List RawRow}
    (h : ∀ r ∈ rows, rowDatelessB r = true) : buildHistDict rows = [] := by
  have hgen : ∀ (l : List RawRow) (acc : List (Key × (ℚ × ℚ))),
      (∀ r ∈ l, rowDatelessB r = true) →
      l.foldl (fun acc r =>
        match r with
        | none => acc
        | some row =>
          let d := strip (row.date.getD [])
          if d = [] then acc
          else dictInsert acc d (safeFloat row.income, safeFloat row.expense)) acc = acc := by
    intro l
    induction l with
    | nil => intro acc _; rfl
    | cons r t ih =>
      intro acc hall
      rw [List.foldl_cons]
      have hr := hall r (List.mem_cons_self r t)
      have ht := fun x hx => hall x (List.mem_cons_of_mem r hx)
      rcases r with _ | row
      · exact ih acc ht
      · unfold rowDatelessB at hr
        simp only [decide_eq_true_eq] at hr
        dsimp only
        rw [if_pos hr]
        exact ih acc ht
  exact hgen rows [] h

theorem sortUnique_dateless {rows : List RawRow}
    (h : ∀ r ∈ rows, rowDatelessB r = true) : sortUniqueDailyHist rows = .ok [] := by
  unfold sortUniqueDailyHist
  by_cases hr : rows = []
  · rw [if_pos hr]
  · rw [if_neg hr]
    dsimp only
    rw [buildHistDict_dateless h]
    rfl

/-- C10: for a payload whose `history_tail` has no row with a non-empty date
string, and any `days` in [1, 60], `forecast_next_days_daily_v2` raises
nothing and returns the degenerate response: empty series, zero kpis, empty
top categories, risk 0, one warning alert, and a null
`meta.history_last_date`. -/
theorem C10_degenerate_response (μ : Type) (e : Ext μ) (npAvail : Bool)
    (todayStr : Key) (payload : FPayload) (days : ℤ) (catRows : List RawCatRow)
    (topK : ℤ) (anchor : Option Key)
    (hd1 : 1 ≤ days) (hd2 : days ≤ 60)
    (hrows : ∀ r ∈ payload.history_tail, rowDatelessB r = true) :
    forecastV2 e npAvail todayStr payload days catRows topK anchor
      = .ok ⟨⟨payload.basis, payload.trained_at, none, none, none,
          anchorOrToday anchor todayStr, none⟩,
        days, (0, 0, 0), [], [], [(warnKey, msgNoHist)], 0⟩ := by
  unfold forecastV2
  rw [if_neg (by omega)]
  rw [except_bind_ok_eq (sortUnique_dateless hrows)]
  rfl

def c10payload : FPayload :=
  ⟨some (keyOf "cash_daily_sklearn"), none, some 14,
   [none,
    some ⟨some (keyOf "   "), some 1, some 2⟩,
    some ⟨none, some 3, none⟩,
    some ⟨some [], none, some 4⟩], none, none⟩

/-- Witness for C10 at a concrete dateless payload. -/
theorem C10_degenerate_response_witness :
    (1 : ℤ) ≤ 7 ∧ (7 : ℤ) ≤ 60 ∧
    (∀ r ∈ c10payload.history_tail, rowDatelessB r = true) ∧
    forecastV2 extW true (keyOf "2024-02-01") c10payload 7 [] 8 (some (keyOf "2024-02-03"))
      = .ok ⟨⟨c10payload.basis, c10payload.trained_at, none, none, none,
          anchorOrToday (some (keyOf "2024-02-03")) (keyOf "2024-02-01"), none⟩,
        7, (0, 0, 0), [], [], [(warnKey, msgNoHist)], 0⟩ :=
  ⟨by decide, by decide, by decide,
   C10_degenerate_response Unit extW true (keyOf "2024-02-01") c10payload 7 [] 8
     (some (keyOf "2024-02-03")) (by decide) (by decide) (by decide)⟩

end FinanceAI

namespace FinanceAI

/-! ### C5: safe model loading and the caller-side fallback -/

theorem resolveTarget_noload {μ : Type} (decode : Key → Option μ) (npAvail : Bool)
    (algo0 tok : Option Key) (hload : safeLoadModel decode tok = none) :
    resolveTarget decode npAvail algo0 tok = (baselineKey, none) := by
  unfold resolveTarget
  rw [hload]
  rcases npAvail with _ | _
  · rfl
  · rw [if_pos rfl]
    by_cases h1 : (match algo0 with
      | none => baselineKey
      | some k => if k = [] then baselineKey else k) = baselineKey
    · rw [if_neg (fun hc => hc.1 h1), h1]
    · rw [if_pos ⟨h1, rfl⟩]

/-- C5: `_safe_load_model` is total; a missing token, an empty token, or a
token the decoder rejects all yield "no model", and the forecast path's
target resolution turns any target whose model fails to load into
`baseline_seasonal` — every successful forecast's reported income algo is
either absent (degenerate response) or exactly that resolution. -/
theorem C5_safe_load (μ : Type) (e : Ext μ) (npAvail : Bool) (todayStr : Key)
    (payload : FPayload) (days : ℤ) (catRows : List RawCatRow) (topK : ℤ)
    (anchor : Option Key) (k : Key) (algo0 tok : Option Key) :
    safeLoadModel e.decode none = none ∧
    safeLoadModel e.decode (some []) = none ∧
    (e.decode k = none → safeLoadModel e.decode (some k) = none) ∧
    (safeLoadModel e.decode tok = none →
      resolveTarget e.decode npAvail algo0 tok = (baselineKey, none)) ∧
    (∀ out, forecastV2 e npAvail todayStr payload days catRows topK anchor = .ok out →
      out.meta.income_algo = none ∨
      out.meta.income_algo = some (resolveTarget e.decode npAvail
        (payload.t_income.getD ⟨none, none, none⟩).algo
        (payload.t_income.getD ⟨none, none, none⟩).model_b64).1) := by
  refine ⟨rfl, rfl, ?_, resolveTarget_noload e.decode npAvail algo0 tok, ?_⟩
  · intro hd
    unfold safeLoadModel
    dsimp only
    by_cases hk : k = []
    · rw [if_pos hk]
    · rw [if_neg hk]
      exact hd
  · intro out hout
    unfold forecastV2 at hout
    split at hout
    · exact Except.noConfusion hout
    · obtain ⟨hist, hh, hout⟩ := except_bind_eq_ok hout
      dsimp only at hout
      split at hout
      · have h2 := Except.ok.inj hout
        subst h2
        exact Or.inl rfl
      · obtain ⟨ext, hx, hout⟩ := except_bind_eq_ok hout
        obtain ⟨lastDt, hl, hout⟩ := except_bind_eq_ok hout
        obtain ⟨fin, hf, hout⟩ := except_bind_eq_ok hout
        have h2 := Except.ok.inj hout
        subst h2
        exact Or.inr rfl

end FinanceAI

namespace FinanceAI

def c5payload : FPayload :=
  ⟨none, none, none,
   [some ⟨some (keyOf "2024-03-01"), some 5, some 1⟩,
    some ⟨some (keyOf "2024-03-02"), some 5, some 1⟩,
    some ⟨some (keyOf "2024-03-03"), some 5, some 1⟩],
   some ⟨some (keyOf "ridge"), some (keyOf "bad-token"), some 2⟩, none⟩

def c5out : ForecastOut :=
  (forecastV2 extW true (keyOf "2024-03-04") c5payload 1 [] 8 none).toOption.getD
    ⟨⟨none, none, none, none, none, [], none⟩, 0, (0, 0, 0), [], [], [], 0⟩

unseal Rat.mul Rat.inv Rat.add Rat.sub Nat.gcd in
/-- Witness for C5: an undecodable token loads as "no model" and the
concrete forecast run reports the resolved (baseline) algo. -/
theorem C5_safe_load_witness :
    safeLoadModel extW.decode none = none ∧
    safeLoadModel extW.decode (some []) = none ∧
    safeLoadModel extW.decode (some (keyOf "not-valid-base64")) = none ∧
    resolveTarget extW.decode true (some ridgeKey) (some (keyOf "bad-token"))
      = (baselineKey, none) ∧
    (c5out.meta.income_algo = none ∨
     c5out.meta.income_algo = some (resolveTarget extW.decode true
       (c5payload.t_income.getD ⟨none, none, none⟩).algo
       (c5payload.t_income.getD ⟨none, none, none⟩).model_b64).1) := by
  obtain ⟨h1, h2, h3, h4, h5⟩ := C5_safe_load Unit extW true (keyOf "2024-03-04")
    c5payload 1 [] 8 none (keyOf "not-valid-base64") (some ridgeKey)
    (some (keyOf "bad-token"))
  exact ⟨h1, h2, h3 (by decide), h4 (by decide), h5 c5out (by decide)⟩

end FinanceAI

namespace FinanceAI

/-! ### C9: where each exception class can come from -/

/-- The row filter of `_sort_unique_daily_hist` as a `filterMap`. -/
def histKV (r : RawRow) : Option (Key × (ℚ × ℚ)) :=
  match r with
  | none => none
  | some row =>
    let d := strip (row.date.getD [])
    if d = [] then none else some (d, (safeFloat row.income, safeFloat row.expense))

theorem buildHistDict_eq (rows : List RawRow) :
    buildHistDict rows
      = (rows.filterMap histKV).foldl (fun acc p => dictInsert acc p.1 p.2) [] := by
  unfold buildHistDict
  generalize ([] : List (Key × (ℚ × ℚ))) = acc
  induction rows generalizing acc with
  | nil => rfl
  | cons r t ih =>
    rcases r with _ | row
    · simp only [List.foldl_cons, List.filterMap_cons, histKV, ih]
    · simp only [List.foldl_cons, List.filterMap_cons, histKV]
      by_cases hd : strip (row.date.getD []) = []
      · rw [if_pos hd, if_pos hd, ih]
      · rw [if_neg hd, if_neg hd]
        simp only [List.foldl_cons, ih]

theorem mem_keys_histDict {rows : List RawRow} {k : Key} :
    k ∈ dictKeys (buildHistDict rows) ↔ ∃ kv ∈ rows.filterMap histKV, kv.1 = k := by
  rw [← dictGet_isSome_iff]
  rw [buildHistDict_eq, dictGet_fold]
  have h2 : (orElseO (lastKV (rows.filterMap histKV) k) (dictGet [] k))
      = lastKV (rows.filterMap histKV) k := by
    rcases lastKV (rows.filterMap histKV) k with _ | x <;> rfl
  rw [h2, lastKV_isSome_iff]

/-- A row `_sort_unique_daily_hist` either drops or keys by a parseable
date. -/
def rowParseableB (r : RawRow) : Bool :=
  match r with
  | none => true
  | some row =>
    decide (strip (row.date.getD []) = []) ||
      (parseYMD (strip (row.date.getD []))).isSome

theorem sortUnique_err {rows : List RawRow} {e0 : PyErr}
    (h : sortUniqueDailyHist rows = .error e0) : e0 = .typeError := by
  unfold sortUniqueDailyHist at h
  split at h
  · exact Except.noConfusion h
  · dsimp only at h
    split at h
    · exact (Except.error.inj h).symm
    · exact Except.noConfusion h

theorem sortUnique_ok_parse {rows : List RawRow} {hs : List HistRow}
    (hp : ∀ r ∈ rows, rowParseableB r = true)
    (hok : sortUniqueDailyHist rows = .ok hs) :
    ∀ x ∈ hs, (parseYMD x.date).isSome = true := by
  intro x hx
  unfold sortUniqueDailyHist at hok
  split at hok
  · have h2 := Except.ok.inj hok
    rw [← h2] at hx
    cases hx
  · dsimp only at hok
    split at hok
    · exact Except.noConfusion hok
    · have h2 := Except.ok.inj hok
      rw [← h2] at hx
      rcases List.mem_map.mp hx with ⟨k, hk, hkx⟩
      have hkmem : k ∈ dictKeys (buildHistDict rows) := by
        rcases hsplit : (dictKeys (buildHistDict rows)).all
            (fun k => (parseYMD k).isSome) with _ | _
        · rw [hsplit] at hk
          simp only [Bool.false_eq_true, if_false] at hk
          exact mem_pySorted.mp hk
        · rw [hsplit] at hk
          simp only [if_true] at hk
          exact mem_pySorted.mp hk
      rcases mem_keys_histDict.mp hkmem with ⟨kv, hkv, hk1⟩
      rcases List.mem_filterMap.mp hkv with ⟨r, hr, hv⟩
      have hrp := hp r hr
      rcases r with _ | row
      · simp [histKV] at hv
      · unfold histKV at hv
        dsimp only at hv
        split at hv
        · exact Option.noConfusion hv
        · next hd =>
          simp only [Option.some.injEq] at hv
          unfold rowParseableB at hrp
          simp only [Bool.or_eq_true, decide_eq_true_eq] at hrp
          rcases hrp with hrp | hrp
          · exact absurd hrp hd
          · rw [← hkx]
            dsimp only
            rw [hk1.symm, ← hv]
            exact hrp

end FinanceAI

namespace FinanceAI

theorem extendSeries_err {dates : List Key} {inc exp : List ℚ} {anchor : Key} {e0 : PyErr}
    (h : extendSeriesUntilAnchor dates inc exp anchor = .error e0) :
    e0 = .overflowError := by
  unfold extendSeriesUntilAnchor at h
  split at h
  · exact Except.noConfusion h
  · split at h
    · exact Except.noConfusion h
    · split at h
      · exact Except.noConfusion h
      · split at h
        · exact (Except.error.inj h).symm
        · dsimp only at h
          split at h
          · exact Except.noConfusion h
          · exact Except.noConfusion h

theorem extendSeries_parse {dates : List Key} {inc exp : List ℚ} {anchor : Key}
    {res : List Key × List ℚ × List ℚ}
    (h : extendSeriesUntilAnchor dates inc exp anchor = .ok res)
    (hall : ∀ k ∈ dates, (parseYMD k).isSome = true) :
    ∀ k ∈ res.1, (parseYMD k).isSome = true := by
  unfold extendSeriesUntilAnchor at h
  split at h
  · have h2 := Except.ok.inj h
    subst h2
    exact hall
  · split at h
    · have h2 := Except.ok.inj h
      subst h2
      exact hall
    · next adt hadt =>
      split at h
      · have h2 := Except.ok.inj h
        subst h2
        exact hall
      · next last hlast =>
        split at h
        · exact Except.noConfusion h
        · next hmin =>
          dsimp only at h
          split at h
          · have h2 := Except.ok.inj h
            subst h2
            exact hall
          · next hgt =>
            have h2 := Except.ok.inj h
            subst h2
            intro k hk
            dsimp only at hk
            rcases List.mem_append.mp hk with hk | hk
            · exact hall k hk
            · rcases List.mem_map.mp hk with ⟨x, hx, hxk⟩
              have hlastv : DtValid last := parseYMD_valid hlast
              obtain ⟨hxok, _, hxle⟩ := dateRange_mem (nextDay_ok hlastv.1) x hx
              have hva : DtValid adt := parseYMD_valid hadt
              have hxv : DtValid x := by
                refine ⟨hxok, ?_⟩
                have hple : (prevDay adt).y ≤ adt.y := by
                  unfold prevDay
                  split
                  · dsimp only
                    omega
                  · split
                    · dsimp only
                      omega
                    · dsimp only
                      omega
                rw [dtLeB_iff] at hxle
                have := hva.2
                omega
              rw [← hxk, parseYMD_fmtD hxv]
              rfl

end FinanceAI

namespace FinanceAI

theorem baselineSeasonal_ok {bd : List Key} {bv : List ℚ} {target : Key}
    (h : (parseYMD target).isSome = true) :
    ∃ v, baselineSeasonalPredictOne bd bv target = .ok v := by
  unfold baselineSeasonalPredictOne
  split
  · exact ⟨0, rfl⟩
  · obtain ⟨dtT, hp⟩ := Option.isSome_iff_exists.mp h
    rw [hp]
    dsimp only
    split
    · exact ⟨_, rfl⟩
    · exact ⟨_, rfl⟩

theorem predictOne_ok {e : Ext μ} {algo : Key} {model : Option μ} {bd : List Key}
    {bv : List ℚ} {target : Key} {X : Option (List (List ℚ))}
    (h : (parseYMD target).isSome = true) :
    ∃ v, predictOne e algo model bd bv target X = .ok v := by
  unfold predictOne
  split
  · exact baselineSeasonal_ok h
  · split
    · split
      · exact ⟨_, rfl⟩
      · exact baselineSeasonal_ok h
    · exact baselineSeasonal_ok h

theorem dateFeats_ok {e : Ext μ} {d : Dt} {t : ℤ} (h : DtValid d) :
    ∃ fs, dateFeats e (fmtD d) t = .ok fs := by
  unfold dateFeats
  rw [parseYMD_fmtD h]
  exact ⟨_, rfl⟩

theorem iterNext_valid_of_not_over {d : Dt} (hok : DtOk d) {h : ℕ}
    (hov : ¬dtLtB maxDt (iterNext h d) = true) : DtValid (iterNext h d) := by
  refine ⟨iterNext_ok hok h, ?_⟩
  have hle : dtLeB (iterNext h d) maxDt = true := by
    unfold dtLeB
    rw [Bool.eq_false_iff.mpr hov]
    rfl
  rw [dtLeB_iff] at hle
  have h1 : maxDt.y = 9999 := rfl
  omega

/-- Every exception the daily forecast loop itself raises is an
OverflowError (horizon past 9999-12-31) or an IndexError (series shorter
than the effective lag count) — never a ValueError. -/
theorem forecastStepDaily_err {c : StepCtx μ} {st : StepState} {h : ℕ} {e0 : PyErr}
    (hva : DtValid c.lastDt)
    (herr : forecastStepDaily c st h = .error e0) :
    e0 = .overflowError ∨ e0 = .indexError := by
  unfold forecastStepDaily at herr
  dsimp only at herr
  split at herr
  · exact Or.inl (Except.error.inj herr).symm
  · next hov =>
    split at herr
    · exact Or.inr (Except.error.inj herr).symm
    · exfalso
      have hfv : DtValid (iterNext h c.lastDt) :=
        iterNext_valid_of_not_over hva.1 (by simpa using hov)
      obtain ⟨fs, hfs⟩ := dateFeats_ok (e := c.e) (t := (st.1.length : ℤ) - 1 + h) hfv
      rw [except_bind_ok_eq hfs] at herr
      have hparse : (parseYMD (fmtD (iterNext h c.lastDt))).isSome = true := by
        rw [parseYMD_fmtD hfv]
        rfl
      obtain ⟨v1, hv1⟩ := @predictOne_ok μ c.e c.incAlgo c.incModel
        st.1 st.2.1 (fmtD (iterNext h c.lastDt)) (if c.npAvail = true ∧
          ((c.incAlgo ≠ baselineKey ∧ c.incModel.isSome = true) ∨
           (c.expAlgo ≠ baselineKey ∧ c.expModel.isSome = true)) then
          some [fs ++ (List.range' 1 (max 3 (c.lags ⊓ (↑st.2.1.length ⊓ (↑st.2.2.1.length ⊓ 30)))).toNat).map
              (fun k => st.2.1.getD (st.2.1.length - k) 0)
            ++ (List.range' 1 (max 3 (c.lags ⊓ (↑st.2.1.length ⊓ (↑st.2.2.1.length ⊓ 30)))).toNat).map
              (fun k => st.2.2.1.getD (st.2.2.1.length - k) 0)
            ++ [rollingMean st.2.1 7, rollingMean st.2.1 14, rollingMean st.2.2.1 7,
                rollingMean st.2.2.1 14,
                st.2.1.getD (st.2.1.length - 1) 0 - st.2.2.1.getD (st.2.2.1.length - 1) 0,
                rollingMean (((st.2.1.drop (st.2.1.length - 30)).zip
                  (st.2.2.1.drop (st.2.2.1.length - 30))).map (fun p => p.1 - p.2)) 7]]
        else none) hparse
      rw [except_bind_ok_eq hv1] at herr
      obtain ⟨v2, hv2⟩ := @predictOne_ok μ c.e c.expAlgo c.expModel
        st.1 st.2.2.1 (fmtD (iterNext h c.lastDt)) (if c.npAvail = true ∧
          ((c.incAlgo ≠ baselineKey ∧ c.incModel.isSome = true) ∨
           (c.expAlgo ≠ baselineKey ∧ c.expModel.isSome = true)) then
          some [fs ++ (List.range' 1 (max 3 (c.lags ⊓ (↑st.2.1.length ⊓ (↑st.2.2.1.length ⊓ 30)))).toNat).map
              (fun k => st.2.1.getD (st.2.1.length - k) 0)
            ++ (List.range' 1 (max 3 (c.lags ⊓ (↑st.2.1.length ⊓ (↑st.2.2.1.length ⊓ 30)))).toNat).map
              (fun k => st.2.2.1.getD (st.2.2.1.length - k) 0)
            ++ [rollingMean st.2.1 7, rollingMean st.2.1 14, rollingMean st.2.2.1 7,
                rollingMean st.2.2.1 14,
                st.2.1.getD (st.2.1.length - 1) 0 - st.2.2.1.getD (st.2.2.1.length - 1) 0,
                rollingMean (((st.2.1.drop (st.2.1.length - 30)).zip
                  (st.2.2.1.drop (st.2.2.1.length - 30))).map (fun p => p.1 - p.2)) 7]]
        else none) hparse
      rw [except_bind_ok_eq hv2] at herr
      exact Except.noConfusion herr

end FinanceAI

namespace FinanceAI

theorem except_bind_eq_err {γ δ : Type} {x : Except PyErr γ} {f : γ → Except PyErr δ}
    {e : PyErr} (h : (x >>= f) = .error e) :
    x = .error e ∨ ∃ a, x = .ok a ∧ f a = .error e := by
  rcases x with e1 | a
  · have he : e1 = e := Except.error.inj
      ((@except_bind_err_eq γ δ (Except.error e1) f e1 rfl).symm.trans h)
    exact Or.inl (by rw [he])
  · exact Or.inr ⟨a, rfl, h⟩

theorem foldDaily_err {μ : Type} {c : StepCtx μ} (hva : DtValid c.lastDt) :
    ∀ (hs : List ℕ) (st0 : StepState) {e0 : PyErr},
      hs.foldlM (forecastStepDaily c) st0 = .error e0 →
      e0 = .overflowError ∨ e0 = .indexError := by
  intro hs
  induction hs with
  | nil =>
    intro st0 e0 h
    exact Except.noConfusion h
  | cons a t ih =>
    intro st0 e0 h
    rw [List.foldlM_cons] at h
    rcases except_bind_eq_err h with h1 | ⟨stm, _, hrest⟩
    · exact forecastStepDaily_err hva h1
    · exact ih stm hrest

theorem extendSeries_ne_nil {dates : List Key} {inc exp : List ℚ} {anchor : Key}
    {res : List Key × List ℚ × List ℚ}
    (h : extendSeriesUntilAnchor dates inc exp anchor = .ok res)
    (hne : dates ≠ []) : res.1 ≠ [] := by
  unfold extendSeriesUntilAnchor at h
  split at h
  · have h2 := Except.ok.inj h
    subst h2
    exact hne
  · split at h
    · have h2 := Except.ok.inj h
      subst h2
      exact hne
    · split at h
      · have h2 := Except.ok.inj h
        subst h2
        exact hne
      · split at h
        · exact Except.noConfusion h
        · dsimp only at h
          split at h
          · have h2 := Except.ok.inj h
            subst h2
            exact hne
          · have h2 := Except.ok.inj h
            subst h2
            dsimp only
            intro hc
            exact hne (List.append_eq_nil.mp hc).1

/-- The daily half of C9's amended only-if direction: with every history row
either dateless or carrying a parseable date, an in-range `days` never
produces a ValueError. -/
theorem forecastV2_no_valueError {μ : Type} (e : Ext μ) (npAvail : Bool) (todayStr : Key)
    (payload : FPayload) (days : ℤ) (catRows : List RawCatRow) (topK : ℤ)
    (anchor : Option Key)
    (hd1 : 1 ≤ days) (hd2 : days ≤ 60)
    (hrows : ∀ r ∈ payload.history_tail, rowParseableB r = true) :
    forecastV2 e npAvail todayStr payload days catRows topK anchor
      ≠ .error .valueError := by
  intro heq
  unfold forecastV2 at heq
  rw [if_neg (by omega)] at heq
  rcases hh : sortUniqueDailyHist payload.history_tail with e1 | hist
  · rw [except_bind_err_eq hh] at heq
    have h1 := sortUnique_err hh
    have h2 := Except.error.inj heq
    rw [h2] at h1
    exact PyErr.noConfusion h1
  · rw [except_bind_ok_eq hh] at heq
    dsimp only at heq
    split at heq
    · exact Except.noConfusion heq
    · next hne =>
      have hparse := sortUnique_ok_parse hrows hh
      rcases except_bind_eq_err heq with h1 | ⟨ext, hx, heq⟩
      · have := extendSeries_err h1
        have h2 := congrArg id this
        exact PyErr.noConfusion h2
      · have hextp : ∀ k ∈ ext.1, (parseYMD k).isSome = true :=
          extendSeries_parse hx (by
            intro k hk
            rcases List.mem_map.mp hk with ⟨r, hr, hrk⟩
            rw [← hrk]
            exact hparse r hr)
        have hextne : ext.1 ≠ [] := extendSeries_ne_nil hx (by
          intro hc
          exact hne (List.map_eq_nil.mp hc))
        have hlastp : (parseYMD ((ext.1.getLast?).getD [])).isSome = true := by
          rcases hgl : ext.1.getLast? with _ | k
          · rw [List.getLast?_eq_none_iff] at hgl
            exact absurd hgl hextne
          · have hkmem := List.mem_of_mem_getLast? hgl
            exact hextp k hkmem
        rcases except_bind_eq_err heq with h2 | ⟨lastDt, hl, heq⟩
        · obtain ⟨d, hd⟩ := Option.isSome_iff_exists.mp hlastp
          rw [hd] at h2
          exact Except.noConfusion h2
        · have hlv : DtValid lastDt := by
            rcases hp : parseYMD ((ext.1.getLast?).getD []) with _ | d
            · rw [hp] at hl
              exact Except.noConfusion hl
            · rw [hp] at hl
              have := Except.ok.inj hl
              rw [← this]
              exact parseYMD_valid hp
          rcases except_bind_eq_err heq with h3 | ⟨fin, hf, heq⟩
          · rcases foldDaily_err hlv _ _ h3 with h4 | h4 <;> exact PyErr.noConfusion h4
          · exact Except.noConfusion heq

end FinanceAI

namespace FinanceAI

theorem natDecimal_isDig {n : ℕ} : ∀ c ∈ natDecimal n, isDig c = true := by
  intro c hc
  unfold natDecimal at hc
  rcases List.mem_map.mp hc with ⟨d, hd, hdc⟩
  have hd10 : d < 10 := Nat.digits_lt_base (by norm_num) (List.mem_reverse.mp hd)
  rw [← hdc]
  unfold isDig
  simp only [Bool.and_eq_true, decide_eq_true_eq]
  omega

theorem fmtW4_isDig {n : ℕ} : ∀ c ∈ fmtW4 n, isDig c = true := by
  intro c hc
  unfold fmtW4 at hc
  split at hc
  · rcases mem_pad4_dig hc with ⟨k, rfl⟩
    exact isDig_dig k
  · exact natDecimal_isDig c hc

theorem natDecimal_ne_nil {n : ℕ} (h : 0 < n) : natDecimal n ≠ [] := by
  unfold natDecimal
  intro hc
  rw [List.map_eq_nil, List.reverse_eq_nil_iff] at hc
  rw [Nat.digits_eq_nil_iff_eq_zero] at hc
  omega

theorem fmtW4_ne_nil (n : ℕ) : fmtW4 n ≠ [] := by
  unfold fmtW4
  split
  · intro hc
    exact List.noConfusion hc
  · next hgt =>
    exact natDecimal_ne_nil (by omega)

theorem intPy_digitKey {l : List ℕ} (hne : l ≠ []) (hd : ∀ c ∈ l, isDig c = true) :
    ∃ v : ℕ, intPy l = some (v : ℤ) := by
  unfold intPy
  have hstrip : strip l = l := strip_noSpace (by
    intro c hc
    have := hd c hc
    unfold isDig at this
    simp only [Bool.and_eq_true, decide_eq_true_eq] at this
    rw [Bool.eq_false_iff]
    intro hsp
    unfold isSpaceCode at hsp
    simp only [Bool.or_eq_true, decide_eq_true_eq] at hsp
    omega)
  rw [hstrip]
  rcases l with _ | ⟨c, r⟩
  · exact absurd rfl hne
  · have hc := hd c (List.mem_cons_self c r)
    unfold isDig at hc
    simp only [Bool.and_eq_true, decide_eq_true_eq] at hc
    dsimp only
    rw [if_neg (by omega), if_neg (by omega)]
    have hdv : digitsVal (c :: r) = some ((c :: r).foldl (fun a x => 10 * a + (x - 48)) 0) := by
      unfold digitsVal
      rw [if_pos ⟨List.cons_ne_nil c r, List.all_eq_true.mpr hd⟩]
    rw [hdv]
    exact ⟨_, rfl⟩

theorem addMonths_fmtYM_ok {y m : ℕ} (hy : y ≤ 9999) (hm : m ≤ 99) {d : ℤ}
    (hd : 0 ≤ d) (hm1 : 1 ≤ m) :
    ∃ a b : ℕ, addMonths (fmtYM y m) d = .ok (fmtW4 a ++ 45 :: pad2 b) ∧
      1 ≤ b ∧ b ≤ 12 := by
  unfold addMonths
  have hsplit : splitOn45 (fmtYM y m) = [pad4 y, pad2 m] := by
    show splitOn45 (pad4 y ++ 45 :: pad2 m) = _
    rw [splitOn45_append (by
      intro c hc
      rcases mem_pad4_dig hc with ⟨n, rfl⟩
      exact dig_ne_45 n)]
    rw [splitOn45_noDash (by
      intro c hc
      rcases mem_pad2_dig hc with ⟨n, rfl⟩
      exact dig_ne_45 n)]
  rw [hsplit]
  dsimp only
  rw [intPy_pad4 hy, intPy_pad2 hm]
  dsimp only
  have hm0 : (0 : ℤ) ≤ (m : ℤ) - 1 + d := by omega
  have hfd : (0 : ℤ) ≤ ((m : ℤ) - 1 + d).fdiv 12 := Int.fdiv_nonneg hm0 (by omega)
  have hfm := Int.fmod_eq_emod ((m : ℤ) - 1 + d) (by omega : (0 : ℤ) ≤ 12)
  refine ⟨((y : ℤ) + ((m : ℤ) - 1 + d).fdiv 12).toNat,
    (((m : ℤ) - 1 + d).fmod 12 + 1).toNat, ?_, ?_, ?_⟩
  · unfold fmtIntW4
    rw [if_neg (by omega)]
  · rw [hfm]
    omega
  · rw [hfm]
    omega

theorem ymFeats_shape_ok {e : Ext μ} {a b : ℕ} (hb : b ≤ 99) {t : ℤ} :
    ∃ v, ymFeats e (fmtW4 a ++ 45 :: pad2 b) t = .ok v := by
  unfold ymFeats
  rw [splitOn45_append (by
    intro c hc
    have := fmtW4_isDig c hc
    unfold isDig at this
    simp only [Bool.and_eq_true, decide_eq_true_eq] at this
    omega)]
  rw [splitOn45_noDash (by
    intro c hc
    rcases mem_pad2_dig hc with ⟨n, rfl⟩
    exact dig_ne_45 n)]
  dsimp only
  rw [intPy_pad2 hb]
  exact ⟨_, rfl⟩

/-- Every exception the monthly forecast loop raises from a canonical last
month key is an IndexError. -/
theorem forecastStepMonthly_err {c : StepCtxM μ} {st : StepStateM} {h : ℕ} {e0 : PyErr}
    (hlast : ∃ y m : ℕ, c.lastYm = fmtYM y m ∧ 1 ≤ m ∧ m ≤ 99 ∧ y ≤ 9999)
    (herr : forecastStepMonthly c st h = .error e0) : e0 = .indexError := by
  obtain ⟨y, m, hym, hm1, hm99, hy⟩ := hlast
  obtain ⟨a, b, hadd, hb1, hb12⟩ :=
    addMonths_fmtYM_ok hy hm99 (d := (h : ℤ)) (by omega) hm1
  unfold forecastStepMonthly at herr
  rw [hym] at herr
  rw [except_bind_ok_eq hadd] at herr
  dsimp only at herr
  split at herr
  · exact (Except.error.inj herr).symm
  · obtain ⟨v, hv⟩ := ymFeats_shape_ok (e := c.e) (a := a) (b := b) (by omega)
      (t := (c.yms0 : ℤ) - 1 + h)
    rw [except_bind_ok_eq hv] at herr
    exact Except.noConfusion herr

theorem foldMonthly_err {μ : Type} {c : StepCtxM μ}
    (hlast : ∃ y m : ℕ, c.lastYm = fmtYM y m ∧ 1 ≤ m ∧ m ≤ 99 ∧ y ≤ 9999) :
    ∀ (hs : List ℕ) (st0 : StepStateM) {e0 : PyErr},
      hs.foldlM (forecastStepMonthly c) st0 = .error e0 → e0 = .indexError := by
  intro hs
  induction hs with
  | nil =>
    intro st0 e0 h
    exact Except.noConfusion h
  | cons a t ih =>
    intro st0 e0 h
    rw [List.foldlM_cons] at h
    rcases except_bind_eq_err h with h1 | ⟨stm, _, hrest⟩
    · exact forecastStepMonthly_err hlast h1
    · exact ih stm hrest

end FinanceAI

namespace FinanceAI

/-- A monthly history row is canonical when its stripped key is empty or is
exactly the zero-padded `YYYY-MM` rendering of the month it parses to. -/
def mRowCanonB (r : MRowIn) : Bool :=
  decide (mRowKey r = []) ||
    (match parseYM (mRowKey r) with
     | none => false
     | some a => decide (mRowKey r = fmtYM a.y a.m))

theorem mRowCanon_shape {r : MRowIn} (hc : mRowCanonB r = true)
    (hne : mRowKey r ≠ []) :
    ∃ a : Dt, mRowKey r = fmtYM a.y a.m ∧ 1 ≤ a.m ∧ a.m ≤ 12 ∧ a.y ≤ 9999 := by
  unfold mRowCanonB at hc
  rw [Bool.or_eq_true] at hc
  rcases hc with hc | hc
  · exact absurd (of_decide_eq_true hc) hne
  · rcases hp : parseYM (mRowKey r) with _ | a
    · rw [hp] at hc
      exact Bool.noConfusion hc
    · rw [hp] at hc
      have hp2 : parseYMD (mRowKey r ++ ([45, 48, 49] : List Nat)) = some a := hp
      have hval : DtValid a := parseYMD_valid hp2
      exact ⟨a, of_decide_eq_true hc, hval.1.2.1, hval.1.2.2.1, hval.2⟩

theorem lastYm_canon {rows : List MRowIn}
    (hcanon : ∀ r ∈ rows, mRowCanonB r = true)
    (hyne : (rows.filter (fun r => decide (strip (r.ym.getD []) ≠ []))).map
      (fun r => strip (r.ym.getD [])) ≠ []) :
    ∃ y m : ℕ,
      ((((rows.filter (fun r => decide (strip (r.ym.getD []) ≠ []))).map
        (fun r => strip (r.ym.getD []))).getLast?).getD []) = fmtYM y m ∧
      1 ≤ m ∧ m ≤ 99 ∧ y ≤ 9999 := by
  have hmem := List.getLast_mem hyne
  rcases List.mem_map.mp hmem with ⟨r, hrf, hrl⟩
  rcases List.mem_filter.mp hrf with ⟨hrh, hpred⟩
  have hne : mRowKey r ≠ [] := of_decide_eq_true hpred
  obtain ⟨a, hkey, hm1, hm12, hy⟩ := mRowCanon_shape (hcanon r hrh) hne
  refine ⟨a.y, a.m, ?_, hm1, by omega, hy⟩
  rw [List.getLast?_eq_getLast _ hyne, Option.getD_some, ← hrl]
  exact hkey

theorem forecastNextMonths_no_valueError {μ : Type} {e : Ext μ} {npAvail : Bool}
    {payload : MPayload} {horizon : ℤ}
    (h1 : 1 ≤ horizon) (h2 : horizon ≤ 24)
    (hcanon : ∀ r ∈ payload.history, mRowCanonB r = true) :
    forecastNextMonths e npAvail payload horizon ≠ .error .valueError := by
  intro hc
  unfold forecastNextMonths at hc
  rw [if_neg (by omega)] at hc
  split at hc
  · exact Except.noConfusion hc
  · dsimp only at hc
    split at hc
    · exact Except.noConfusion hc
    · next hyne =>
      rcases except_bind_eq_err hc with hfold | ⟨fin, _, hrest⟩
      · exact absurd (foldMonthly_err (lastYm_canon hcanon hyne) _ _ hfold) (by decide)
      · exact Except.noConfusion hrest

end FinanceAI

namespace FinanceAI

def c9payload : FPayload :=
  ⟨none, none, none, [some ⟨some (keyOf "2024-01-02"), some 0, some 0⟩], none, none⟩

def c9mpayload : MPayload :=
  ⟨none, none, none, [⟨some (keyOf "2024-01"), some 0, some 0⟩], none, none⟩

def c9badPayload : FPayload :=
  ⟨none, none, none, [some ⟨some (keyOf "abc"), some 1, some 1⟩], none, none⟩

/-- C9: the daily forecaster raises ValueError exactly when `days` lies
outside `[1, 60]`, and the monthly forecaster exactly when `horizon` lies
outside `[1, 24]` — the "only if" direction holding whenever every daily
history row has an empty or parseable date and every monthly row key, once
stripped, is empty or canonically zero-padded.  In range nothing is
clamped: the functions proceed and can never raise ValueError under that
scope. -/
theorem C9_horizon_validation {μ : Type} (e : Ext μ) (npAvail : Bool)
    (todayStr : Key) (payload : FPayload) (mpayload : MPayload)
    (days horizon : ℤ) (catRows : List RawCatRow) (topK : ℤ)
    (anchor : Option Key) :
    ((days < 1 ∨ 60 < days) →
      forecastV2 e npAvail todayStr payload days catRows topK anchor
        = .error .valueError) ∧
    (1 ≤ days → days ≤ 60 →
      (∀ r ∈ payload.history_tail, rowParseableB r = true) →
      forecastV2 e npAvail todayStr payload days catRows topK anchor
        ≠ .error .valueError) ∧
    ((horizon < 1 ∨ 24 < horizon) →
      forecastNextMonths e npAvail mpayload horizon = .error .valueError) ∧
    (1 ≤ horizon → horizon ≤ 24 →
      (∀ r ∈ mpayload.history, mRowCanonB r = true) →
      forecastNextMonths e npAvail mpayload horizon ≠ .error .valueError) := by
  refine ⟨fun h => ?_,
    fun h1 h2 h3 =>
      forecastV2_no_valueError e npAvail todayStr payload days catRows topK anchor h1 h2 h3,
    fun h => ?_,
    fun h1 h2 h3 => forecastNextMonths_no_valueError h1 h2 h3⟩
  · unfold forecastV2
    rw [if_pos h]
  · unfold forecastNextMonths
    rw [if_pos h]

/-- Witness for C9: a rejected and an accepted horizon on each of the two
concrete forecasters. -/
theorem C9_horizon_validation_witness :
    forecastV2 extW true (keyOf "2024-01-05") c9payload 0 [] 5 none
      = .error .valueError ∧
    forecastV2 extW true (keyOf "2024-01-05") c9payload 7 [] 5 none
      ≠ .error .valueError ∧
    forecastNextMonths extW true c9mpayload 0 = .error .valueError ∧
    forecastNextMonths extW true c9mpayload 6 ≠ .error .valueError :=
  ⟨(C9_horizon_validation extW true (keyOf "2024-01-05") c9payload c9mpayload
      0 0 [] 5 none).1 (by decide),
   (C9_horizon_validation extW true (keyOf "2024-01-05") c9payload c9mpayload
      7 0 [] 5 none).2.1 (by decide) (by decide) (by decide),
   (C9_horizon_validation extW true (keyOf "2024-01-05") c9payload c9mpayload
      0 0 [] 5 none).2.2.1 (by decide),
   (C9_horizon_validation extW true (keyOf "2024-01-05") c9payload c9mpayload
      0 6 [] 5 none).2.2.2 (by decide) (by decide) (by decide)⟩

unseal Rat.mul Rat.inv Rat.add Rat.sub Nat.gcd in
/-- Counterexample to the unrestricted C9: a history row dated `"abc"`
makes the daily forecaster raise ValueError even though `days = 7` is in
range — the error is not a horizon rejection but the `strptime` of the
last history date. -/
theorem C9_horizon_validation_counterexample :
    (1 : ℤ) ≤ 7 ∧ (7 : ℤ) ≤ 60 ∧
    forecastV2 extW true (keyOf "2024-01-05") c9badPayload 7 [] 5 none
      = .error .valueError := by
  refine ⟨by decide, by decide, ?_⟩
  decide

end FinanceAI

namespace FinanceAI

theorem daysInMonth_12 (y : Nat) : daysInMonth y 12 = 31 := by
  simp [daysInMonth]

theorem prevDay_nextDay {a : Dt} (h : DtOk a) : prevDay (nextDay a) = a := by
  rcases a with ⟨ay, am, ad⟩
  obtain ⟨h1, h2, h3, h4, h5⟩ := h
  simp only at h1 h2 h3 h4 h5
  unfold nextDay
  split
  · next hc =>
    dsimp only at hc
    unfold prevDay
    rw [if_pos (by dsimp only; omega)]
    rfl
  · next hc =>
    dsimp only at hc
    split
    · next hc2 =>
      dsimp only at hc2
      unfold prevDay
      rw [if_neg (by dsimp only; omega), if_pos (by dsimp only; omega)]
      show Dt.mk ay am (daysInMonth ay am) = Dt.mk ay am ad
      have hd : daysInMonth ay am = ad := by omega
      rw [hd]
    · next hc2 =>
      dsimp only at hc2
      unfold prevDay
      rw [if_neg (by dsimp only; omega), if_neg (by dsimp only; omega)]
      show Dt.mk ay 12 31 = Dt.mk ay am ad
      have hm12 : am = 12 := by omega
      have h31 : daysInMonth ay am = 31 := by rw [hm12]; exact daysInMonth_12 ay
      have hd : ad = 31 := by omega
      rw [hm12, hd]

theorem iterNext_succ_in : ∀ (n : Nat) (a : Dt), iterNext (n + 1) a = nextDay (iterNext n a) := by
  intro n
  induction n with
  | zero => intro a; rfl
  | succ m ih =>
    intro a
    rw [iterNext_succ_out (m + 1) a, ih (nextDay a), ← iterNext_succ_out m a]

theorem iterNext_add (i j : Nat) (a : Dt) : iterNext j (iterNext i a) = iterNext (i + j) a := by
  induction i generalizing a with
  | zero => rw [show iterNext 0 a = a from rfl, Nat.zero_add]
  | succ m ih =>
    rw [iterNext_succ_out m a, ih (nextDay a),
      show m + 1 + j = (m + j) + 1 from by omega, iterNext_succ_out (m + j) a]

theorem prevDay_iterNext {a : Dt} (h : DtOk a) {k : Nat} (hk : 1 ≤ k) :
    prevDay (iterNext k a) = iterNext (k - 1) a := by
  rcases k with _ | j
  · omega
  · rw [iterNext_succ_in j a, prevDay_nextDay (iterNext_ok h j)]
    rfl

theorem dtLt_of_le_of_lt {a b c : Dt} (h1 : dtLeB a b = true) (h2 : dtLtB b c = true) :
    dtLtB a c = true := by
  rw [dtLeB_iff] at h1
  rw [dtLtB_iff] at h2 ⊢
  omega

theorem dtLtB_iterNext_pos {a : Dt} (h : DtOk a) {k : Nat} (hk : 1 ≤ k) :
    dtLtB a (iterNext k a) = true := by
  rcases k with _ | j
  · omega
  · rw [iterNext_succ_in j a]
    exact dtLt_of_le_of_lt (dtLeB_iterNext h j) (dtLt_nextDay (iterNext j a))

theorem prevDay_lt {a : Dt} (h : DtOk a) (hne : a ≠ ⟨1, 1, 1⟩) :
    dtLtB (prevDay a) a = true := by
  rcases a with ⟨ay, am, ad⟩
  obtain ⟨h1, h2, h3, h4, h5⟩ := h
  simp only at h1 h2 h3 h4 h5
  unfold prevDay
  split
  · next hc => dsimp only at hc; rw [dtLtB_iff]; dsimp only; omega
  · next hc =>
    dsimp only at hc
    split
    · next hc2 => dsimp only at hc2; rw [dtLtB_iff]; dsimp only; omega
    · next hc2 =>
      dsimp only at hc2
      rw [dtLtB_iff]
      dsimp only
      have hcomp : ay ≠ 1 ∨ am ≠ 1 ∨ ad ≠ 1 := by
        by_contra hcon
        push_neg at hcon
        exact hne (by rw [hcon.1, hcon.2.1, hcon.2.2])
      omega

theorem dtLtB_maxDt_false {a : Dt} (h : DtValid a) : dtLtB maxDt a = false := by
  obtain ⟨⟨h1, h2, h3, h4, h5⟩, h6⟩ := h
  have h31 := daysInMonth_le_31 a.y a.m
  rw [Bool.eq_false_iff]
  intro hc
  rw [dtLtB_iff] at hc
  have hy : maxDt.y = 9999 := rfl
  have hm : maxDt.m = 12 := rfl
  have hd : maxDt.d = 31 := rfl
  omega

end FinanceAI

namespace FinanceAI

theorem extendSeries_anchor {dates : List Key} {inc exp : List ℚ} {anchor : Key}
    {lastH : Dt} {k : Nat}
    (hne : dates ≠ [])
    (hlast : parseYMD ((dates.getLast?).getD []) = some lastH)
    (hanch : parseYMD anchor = some (iterNext k lastH))
    (hk : 1 ≤ k) :
    ∃ ext : List Dt,
      extendSeriesUntilAnchor dates inc exp anchor
        = .ok (dates ++ ext.map fmtD, inc ++ ext.map (fun _ => (0 : ℚ)),
            exp ++ ext.map (fun _ => (0 : ℚ))) ∧
      ext.length = k - 1 ∧
      parseYMD (((dates ++ ext.map fmtD).getLast?).getD [])
        = some (iterNext (k - 1) lastH) := by
  have hlv : DtValid lastH := parseYMD_valid hlast
  have hav : DtValid (iterNext k lastH) := parseYMD_valid hanch
  have hok1 : DtOk lastH := hlv.1
  have hne111 : ¬(iterNext k lastH = ⟨1, 1, 1⟩) := by
    intro he
    have hlt := dtLtB_iterNext_pos hok1 hk
    rw [he] at hlt
    rw [dtLtB_iff] at hlt
    dsimp only at hlt
    obtain ⟨hq1, hq2, hq3, hq4, hq5⟩ := hok1
    omega
  unfold extendSeriesUntilAnchor
  rw [if_neg hne, hanch, hlast]
  dsimp only
  rw [if_neg hne111]
  rw [prevDay_iterNext hok1 hk]
  rcases hle : dtLeB (iterNext (k - 1) lastH) lastH with _ | _
  · -- anchor at least two days ahead: the zero extension is appended
    have hk2 : 2 ≤ k := by
      by_contra hcon
      have hk1 : k = 1 := by omega
      rw [hk1] at hle
      rw [show iterNext (1 - 1) lastH = lastH from rfl, dtLeB_refl lastH] at hle
      exact Bool.noConfusion hle
    have hT : iterNext (k - 2) (nextDay lastH) = iterNext (k - 1) lastH := by
      rw [show nextDay lastH = iterNext 1 lastH from rfl, iterNext_add 1 (k - 2) lastH]
      congr 1
      omega
    have hokc : DtOk (nextDay lastH) := nextDay_ok hok1
    have hokT : DtOk (iterNext (k - 1) lastH) := iterNext_ok hok1 (k - 1)
    have hcurT : dtLeB (nextDay lastH) (iterNext (k - 1) lastH) = true := by
      rw [← hT]
      exact dtLeB_iterNext hokc (k - 2)
    have hmono : dtM (nextDay lastH) ≤ dtM (iterNext (k - 1) lastH) :=
      dtM_mono hokc hokT hcurT
    have hrange : dateRange (dtM (iterNext (k - 1) lastH) + 1 - dtM (nextDay lastH))
        (nextDay lastH) (iterNext (k - 1) lastH)
        = (List.range (k - 2 + 1)).map (fun i => iterNext i (nextDay lastH)) := by
      rw [← hT]
      exact dateRange_iterNext hokc (by rw [hT]; omega)
    have hglast : (dateRange (dtM (iterNext (k - 1) lastH) + 1 - dtM (nextDay lastH))
        (nextDay lastH) (iterNext (k - 1) lastH)).getLast?
        = some (iterNext (k - 1) lastH) :=
      dateRange_getLast hokc hokT hcurT (by omega)
    have hvT : DtValid (iterNext (k - 1) lastH) := by
      refine ⟨hokT, ?_⟩
      have h1k : iterNext 1 (iterNext (k - 1) lastH) = iterNext k lastH := by
        rw [iterNext_add (k - 1) 1 lastH]
        congr 1
        omega
      have hleT : dtLeB (iterNext (k - 1) lastH) (iterNext k lastH) = true := by
        rw [← h1k]
        exact dtLeB_iterNext hokT 1
      rw [dtLeB_iff] at hleT
      have := hav.2
      omega
    have hmnil : (dateRange (dtM (iterNext (k - 1) lastH) + 1 - dtM (nextDay lastH))
        (nextDay lastH) (iterNext (k - 1) lastH)).map fmtD ≠ [] := by
      rw [hrange]
      intro hemp
      simp only [List.map_eq_nil, List.range_eq_nil] at hemp
      omega
    refine ⟨dateRange (dtM (iterNext (k - 1) lastH) + 1 - dtM (nextDay lastH))
        (nextDay lastH) (iterNext (k - 1) lastH), ?_, ?_, ?_⟩
    · rw [if_neg (by exact Bool.false_ne_true)]
    · rw [hrange]
      simp only [List.length_map, List.length_range]
      omega
    · rw [List.getLast?_append_of_ne_nil dates hmnil, List.getLast?_map, hglast]
      rw [show (Option.map fmtD (some (iterNext (k - 1) lastH))).getD []
        = fmtD (iterNext (k - 1) lastH) from rfl]
      exact parseYMD_fmtD hvT
  · -- anchor exactly one day after the last date: nothing is appended
    have hk1 : k = 1 := by
      by_contra hcon
      have hk2 : 2 ≤ k := by omega
      have hlt : dtLtB lastH (iterNext (k - 1) lastH) = true :=
        dtLtB_iterNext_pos hok1 (by omega)
      unfold dtLeB at hle
      rw [hlt] at hle
      exact Bool.noConfusion hle
    subst hk1
    refine ⟨[], ?_, rfl, ?_⟩
    · rw [if_pos rfl]
      simp only [List.map_nil, List.append_nil]
    · simp only [List.map_nil, List.append_nil]
      exact hlast

end FinanceAI

namespace FinanceAI

theorem dateFeats_no_err {e : Ext μ} {target : Key} {t : ℤ} {e0 : PyErr}
    (hp : (parseYMD target).isSome = true) :
    dateFeats e target t ≠ .error e0 := by
  intro hc
  unfold dateFeats at hc
  obtain ⟨d, hd⟩ := Option.isSome_iff_exists.mp hp
  rw [hd] at hc
  exact Except.noConfusion hc

theorem predictOne_no_err {e : Ext μ} {algo : Key} {model : Option μ} {bd : List Key}
    {bv : List ℚ} {target : Key} {X : Option (List (List ℚ))} {e0 : PyErr}
    (hp : (parseYMD target).isSome = true) :
    predictOne e algo model bd bv target X ≠ .error e0 := by
  obtain ⟨v, hv⟩ := @predictOne_ok μ e algo model bd bv target X hp
  rw [hv]
  intro hc
  exact Except.noConfusion hc

theorem forecastStepDaily_ok {μ : Type} {c : StepCtx μ} {st : StepState} {h : ℕ}
    (hva : DtValid c.lastDt)
    (hov : dtLtB maxDt (iterNext h c.lastDt) = false)
    (hinc : 3 ≤ st.2.1.length) (hexp : 3 ≤ st.2.2.1.length) :
    ∃ st2, forecastStepDaily c st h = .ok st2 ∧
      st2.1 = st.1 ++ [fmtD (iterNext h c.lastDt)] ∧
      st2.2.1.length = st.2.1.length + 1 ∧
      st2.2.2.1.length = st.2.2.1.length + 1 ∧
      ∃ pt : PointOut, st2.2.2.2 = st.2.2.2 ++ [pt] ∧
        pt.date = fmtD (iterNext h c.lastDt) := by
  have hvf : DtValid (iterNext h c.lastDt) :=
    iterNext_valid_of_not_over hva.1 (by rw [hov]; exact Bool.false_ne_true)
  have hp : (parseYMD (fmtD (iterNext h c.lastDt))).isSome = true := by
    rw [parseYMD_fmtD hvf]
    rfl
  rcases hres : forecastStepDaily c st h with e0 | st2
  · exfalso
    unfold forecastStepDaily at hres
    dsimp only at hres
    split at hres
    · next hcond =>
      rw [hov] at hcond
      exact Bool.noConfusion hcond
    · split at hres
      · next hcond2 =>
        omega
      · rcases except_bind_eq_err hres with h1 | ⟨fs, hfs, hres2⟩
        · exact dateFeats_no_err hp h1
        · rcases except_bind_eq_err hres2 with h2 | ⟨ip, hip, hres3⟩
          · exact predictOne_no_err hp h2
          · rcases except_bind_eq_err hres3 with h3 | ⟨ep, hep, hres4⟩
            · exact predictOne_no_err hp h3
            · exact Except.noConfusion hres4
  · unfold forecastStepDaily at hres
    dsimp only at hres
    split at hres
    · exact Except.noConfusion hres
    · split at hres
      · exact Except.noConfusion hres
      · obtain ⟨fs, hfs, hres2⟩ := except_bind_eq_ok hres
        obtain ⟨ip, hip, hres3⟩ := except_bind_eq_ok hres2
        obtain ⟨ep, hep, hres4⟩ := except_bind_eq_ok hres3
        have h2 := Except.ok.inj hres4
        subst h2
        refine ⟨_, rfl, rfl, ?_, ?_, ⟨_, rfl, rfl⟩⟩
        · simp
        · simp

theorem foldDaily_ok {μ : Type} {c : StepCtx μ} (hva : DtValid c.lastDt) :
    ∀ (hs : List ℕ) (st : StepState),
      (∀ h0 ∈ hs, dtLtB maxDt (iterNext h0 c.lastDt) = false) →
      3 ≤ st.2.1.length → 3 ≤ st.2.2.1.length →
      ∃ stf, hs.foldlM (forecastStepDaily c) st = .ok stf ∧
        ∃ pts, stf.2.2.2 = st.2.2.2 ++ pts ∧
          pts.map (fun p => p.date) = hs.map (fun h0 => fmtD (iterNext h0 c.lastDt)) := by
  intro hs
  induction hs with
  | nil =>
    intro st _ _ _
    exact ⟨st, rfl, [], by simp, by simp⟩
  | cons a t ih =>
    intro st hov h1 h2
    obtain ⟨st2, hst2, hdts, hl1, hl2, pt, hpt, hptd⟩ :=
      forecastStepDaily_ok hva (hov a (List.mem_cons_self a t)) h1 h2
    obtain ⟨stf, hstf, pts, hpts, hmap⟩ :=
      ih st2 (fun h0 hm => hov h0 (List.mem_cons_of_mem _ hm)) (by omega) (by omega)
    refine ⟨stf, ?_, pt :: pts, ?_, ?_⟩
    · rw [List.foldlM_cons, except_bind_ok_eq hst2]
      exact hstf
    · rw [hpts, hpt, List.append_assoc]
      rfl
    · rw [List.map_cons, List.map_cons, hptd, hmap]

end FinanceAI

namespace FinanceAI

/-- C6: with a non-empty history whose last date parses, an effective anchor
parsing to a date `k ≥ 1` days later makes the working series grow by exactly
`k - 1` synthetic zero-income/zero-expense days so that its last date is
anchor − 1 day; an anchor on or before the last date (other than 0001-01-01)
leaves the series unchanged; and — provided the extended series is at least 3
long and the horizon stays representable — the forecast succeeds and its
first point is dated exactly on the anchor. -/
theorem C6_anchor_extension {μ : Type} (e : Ext μ) (npAvail : Bool) (todayStr : Key)
    (payload : FPayload) (days : ℤ) (catRows : List RawCatRow) (topK : ℤ)
    (anchor : Option Key) {hist : List HistRow} {lastH : Dt} {k : ℕ}
    (hd1 : 1 ≤ days) (hd2 : days ≤ 60)
    (hsort : sortUniqueDailyHist payload.history_tail = .ok hist)
    (hne : hist ≠ [])
    (hlast : parseYMD (((hist.map (fun r => r.date)).getLast?).getD []) = some lastH)
    (hanch : parseYMD (strip (anchorOrToday anchor todayStr)) = some (iterNext k lastH))
    (hk : 1 ≤ k)
    (hlen : 3 ≤ hist.length + (k - 1))
    (hov : ∀ h0 ∈ List.range' 1 days.toNat,
      dtLtB maxDt (iterNext h0 (iterNext (k - 1) lastH)) = false) :
    (∃ ext : List Dt,
       extendSeriesUntilAnchor (hist.map (fun r => r.date))
         (hist.map (fun r => r.income)) (hist.map (fun r => r.expense))
         (strip (anchorOrToday anchor todayStr))
         = .ok ((hist.map (fun r => r.date)) ++ ext.map fmtD,
             (hist.map (fun r => r.income)) ++ ext.map (fun _ => (0 : ℚ)),
             (hist.map (fun r => r.expense)) ++ ext.map (fun _ => (0 : ℚ))) ∧
       ext.length = k - 1 ∧
       parseYMD ((((hist.map (fun r => r.date)) ++ ext.map fmtD).getLast?).getD [])
         = some (iterNext (k - 1) lastH)) ∧
    (∀ anchor2 : Key, ∀ adt2 : Dt, parseYMD anchor2 = some adt2 →
       dtLeB adt2 lastH = true → adt2 ≠ ⟨1, 1, 1⟩ →
       extendSeriesUntilAnchor (hist.map (fun r => r.date))
         (hist.map (fun r => r.income)) (hist.map (fun r => r.expense)) anchor2
         = .ok (hist.map (fun r => r.date), hist.map (fun r => r.income),
             hist.map (fun r => r.expense))) ∧
    (∃ out, forecastV2 e npAvail todayStr payload days catRows topK anchor = .ok out ∧
       out.series.head?.map (fun p => p.date) = some (fmtD (iterNext k lastH))) := by
  have hmapne : hist.map (fun r => r.date) ≠ [] := by
    intro hemp
    rw [List.map_eq_nil] at hemp
    exact hne hemp
  obtain ⟨ext, hextOk, hextLen, hextLast⟩ :=
    @extendSeries_anchor (hist.map (fun r => r.date)) (hist.map (fun r => r.income))
      (hist.map (fun r => r.expense)) (strip (anchorOrToday anchor todayStr)) lastH k
      hmapne hlast hanch hk
  refine ⟨⟨ext, hextOk, hextLen, hextLast⟩, ?_, ?_⟩
  · intro anchor2 adt2 hp2 hle2 hne2
    unfold extendSeriesUntilAnchor
    rw [if_neg hmapne, hp2, hlast]
    dsimp only
    rw [if_neg hne2]
    rw [if_pos (dtLeB_trans (dtLeB_of_lt (prevDay_lt (parseYMD_valid hp2).1 hne2)) hle2)]
  · have hokL : DtOk lastH := (parseYMD_valid hlast).1
    have hav : DtValid (iterNext k lastH) := parseYMD_valid hanch
    have h1k : iterNext 1 (iterNext (k - 1) lastH) = iterNext k lastH := by
      rw [iterNext_add (k - 1) 1 lastH]
      congr 1
      omega
    have hvT : DtValid (iterNext (k - 1) lastH) := by
      refine ⟨iterNext_ok hokL (k - 1), ?_⟩
      have hleT : dtLeB (iterNext (k - 1) lastH) (iterNext k lastH) = true := by
        rw [← h1k]
        exact dtLeB_iterNext (iterNext_ok hokL (k - 1)) 1
      rw [dtLeB_iff] at hleT
      have := hav.2
      omega
    unfold forecastV2
    rw [if_neg (by omega), except_bind_ok_eq hsort]
    dsimp only
    rw [if_neg hne]
    rw [except_bind_ok_eq hextOk]
    dsimp only
    rw [hextLast]
    dsimp only
    rw [except_bind_ok_eq (rfl : (Except.ok (iterNext (k - 1) lastH) : Except PyErr Dt)
      = .ok (iterNext (k - 1) lastH))]
    obtain ⟨stf, hfold, pts, hpts, hmap⟩ := foldDaily_ok
      (c := ⟨e, npAvail,
        (resolveTarget e.decode npAvail (payload.t_income.getD ⟨none, none, none⟩).algo
          (payload.t_income.getD ⟨none, none, none⟩).model_b64).1,
        (resolveTarget e.decode npAvail (payload.t_income.getD ⟨none, none, none⟩).algo
          (payload.t_income.getD ⟨none, none, none⟩).model_b64).2,
        (resolveTarget e.decode npAvail (payload.t_expense.getD ⟨none, none, none⟩).algo
          (payload.t_expense.getD ⟨none, none, none⟩).model_b64).1,
        (resolveTarget e.decode npAvail (payload.t_expense.getD ⟨none, none, none⟩).algo
          (payload.t_expense.getD ⟨none, none, none⟩).model_b64).2,
        (payload.t_income.getD ⟨none, none, none⟩).resid_std.getD 0,
        (payload.t_expense.getD ⟨none, none, none⟩).resid_std.getD 0,
        buildCategoryProfile catRows, topK,
        (if ((hist.map (fun r => r.income)).length : ℤ) < max 3 (payload.lags.getD 14) ∨
            ((hist.map (fun r => r.expense)).length : ℤ) < max 3 (payload.lags.getD 14) then
          max 3 (min (payload.lags.getD 14)
            (min (((hist.map (fun r => r.income)).length : ℤ) - 1)
              (((hist.map (fun r => r.expense)).length : ℤ) - 1)))
        else payload.lags.getD 14),
        iterNext (k - 1) lastH⟩)
      hvT (List.range' 1 days.toNat)
      (hist.map (fun r => r.date) ++ ext.map fmtD,
        hist.map (fun r => r.income) ++ ext.map (fun x => 0),
        hist.map (fun r => r.expense) ++ ext.map (fun x => 0), ([] : List PointOut))
      hov
      (by simp only [List.length_append, List.length_map]; omega)
      (by simp only [List.length_append, List.length_map]; omega)
    rw [except_bind_ok_eq hfold]
    refine ⟨_, rfl, ?_⟩
    dsimp only
    rw [hpts]
    rw [List.nil_append, ← List.head?_map, hmap]
    have htn : days.toNat = (days.toNat - 1) + 1 := by omega
    rw [htn, List.range'_succ, List.map_cons]
    show some (fmtD (iterNext 1 (iterNext (k - 1) lastH))) = _
    rw [h1k]

def c6today : Key := keyOf "2024-01-06"

def c6payload : FPayload :=
  ⟨none, none, none,
   [some ⟨some (keyOf "2024-01-01"), some 0, some 0⟩,
    some ⟨some (keyOf "2024-01-02"), some 0, some 0⟩,
    some ⟨some (keyOf "2024-01-03"), some 0, some 0⟩], none, none⟩

def c6hist : List HistRow :=
  (sortUniqueDailyHist c6payload.history_tail).toOption.getD []

def c6badPayload : FPayload :=
  ⟨none, none, none, [some ⟨some (keyOf "2023-05-10"), some 0, some 0⟩], none, none⟩

unseal Rat.mul Rat.inv Rat.add Rat.sub Nat.gcd in
/-- Witness for C6 on a three-day history anchored three days past its end. -/
theorem C6_anchor_extension_witness :
    (∃ ext : List Dt,
       extendSeriesUntilAnchor (c6hist.map (fun r => r.date))
         (c6hist.map (fun r => r.income)) (c6hist.map (fun r => r.expense))
         (strip (anchorOrToday none c6today))
         = .ok ((c6hist.map (fun r => r.date)) ++ ext.map fmtD,
             (c6hist.map (fun r => r.income)) ++ ext.map (fun _ => (0 : ℚ)),
             (c6hist.map (fun r => r.expense)) ++ ext.map (fun _ => (0 : ℚ))) ∧
       ext.length = 3 - 1 ∧
       parseYMD ((((c6hist.map (fun r => r.date)) ++ ext.map fmtD).getLast?).getD [])
         = some (iterNext (3 - 1) (⟨2024, 1, 3⟩ : Dt))) ∧
    (∀ anchor2 : Key, ∀ adt2 : Dt, parseYMD anchor2 = some adt2 →
       dtLeB adt2 ⟨2024, 1, 3⟩ = true → adt2 ≠ ⟨1, 1, 1⟩ →
       extendSeriesUntilAnchor (c6hist.map (fun r => r.date))
         (c6hist.map (fun r => r.income)) (c6hist.map (fun r => r.expense)) anchor2
         = .ok (c6hist.map (fun r => r.date), c6hist.map (fun r => r.income),
             c6hist.map (fun r => r.expense))) ∧
    (∃ out, forecastV2 extW true c6today c6payload 1 [] 5 none = .ok out ∧
       out.series.head?.map (fun p => p.date)
         = some (fmtD (iterNext 3 (⟨2024, 1, 3⟩ : Dt)))) :=
  @C6_anchor_extension Unit extW true c6today c6payload 1 [] 5 none c6hist ⟨2024, 1, 3⟩ 3
    (by decide) (by decide) (by decide) (by decide) (by decide) (by decide)
    (by decide) (by decide) (by decide)

unseal Rat.mul Rat.inv Rat.add Rat.sub Nat.gcd in
/-- Counterexample to the unrestricted C6: a one-row history with an anchor
two days later gets its synthetic zero day, but the forecast then raises
IndexError — the extended series is still shorter than the minimum lag
window — so no forecast point carries the anchor date. -/
theorem C6_anchor_extension_counterexample :
    parseYMD (keyOf "2023-05-12") = some (iterNext 2 ⟨2023, 5, 10⟩) ∧
    forecastV2 extW true (keyOf "2023-05-20") c6badPayload 7 [] 5
      (some (keyOf "2023-05-12")) = .error .indexError := by
  refine ⟨by decide, ?_⟩
  decide

end FinanceAI
